import Mathlib

/-! Parallel recipe builder: dependency analysis, work queue and scheduler.

A shallow embedding of `stack_queue_tree_traversal.c`, `signal_process_handling.c`
and the build part of `main.c`.

* A `RECIPE *` is the index of the recipe in the cookbook's recipe list, `none` is the
  null pointer; `recipe->next` is the following index.
* `recipe->state` lives in a separate store `STATES` (index ↦ slot), because it is the only
  field of a recipe the engine writes.
* The work queue keeps its `front` / `back` pointers and its linked nodes (a node store
  indexed by address); the traversal stack is a list, top first.
* Loops that the C code does not bound take a fuel argument; `RES.diverge` is "out of fuel",
  `RES.fault` is an invalid memory access (null or wild pointer dereference).
-/

namespace Cook

/-! ## Data model (cookbook.h) -/

/-- One process of a pipeline: `words[0]` is the program. -/
structure STEP where
  words : List String
deriving DecidableEq

/-- One pipeline of a recipe with its optional redirections. -/
structure TASK where
  steps : List STEP
  input_file : Option String
  output_file : Option String
deriving DecidableEq

/-- A recipe: the `recipe` pointers of the two RECIPE_LINK lists, in list order. -/
structure RECIPE where
  name : String
  this_depends_on : List (Option Nat)
  depend_on_this : List (Option Nat)
  tasks : List TASK := []
deriving DecidableEq

/-- The cookbook: its recipes in `next` order. -/
structure COOKBOOK where
  recipes : List RECIPE
deriving DecidableEq

/-- The `void *state` slot of a recipe: null, the constant `(void *)1` of `mark_visited`,
or the address of a malloc'ed `pid_t` cell with its content. -/
inductive STATE where
  | NULL : STATE
  | ONE : STATE
  | CELL (pid : Int) : STATE
deriving DecidableEq

/-- The state slots of all recipes. -/
abbrev STATES := Nat → STATE

/-- Result of a computation that may dereference a bad pointer or run out of fuel. -/
inductive RES (α : Type) where
  | ok (a : α) : RES α
  | fault : RES α
  | diverge : RES α
deriving DecidableEq

/-- `recipe->this_depends_on` as the list of its links. -/
def deps (cb : COOKBOOK) (r : Nat) : List (Option Nat) :=
  match cb.recipes[r]? with
  | some x => x.this_depends_on
  | none => []

/-- `recipe->depend_on_this` as the list of its links. -/
def dependents (cb : COOKBOOK) (r : Nat) : List (Option Nat) :=
  match cb.recipes[r]? with
  | some x => x.depend_on_this
  | none => []

/-! ## State slots -/

/-- Every state slot is null, as `initialize_cookbook_states` leaves them. -/
def all_null : STATES := fun _ => STATE.NULL

/-- Body of the `while (recipe != NULL)` loop of `initialize_recipe_states`, run on the
`k` recipes starting at `r`. -/
def initialize_loop : Nat → Nat → STATES → STATES
  | 0, _, st => st
  | k + 1, r, st => initialize_loop k (r + 1) (Function.update st r STATE.NULL)

/-- Source `initialize_recipe_states`: clears `state` on `recipe` and on every recipe after
it in the cookbook list. -/
def initialize_recipe_states (cb : COOKBOOK) (recipe : Option Nat) (st : STATES) : STATES :=
  match recipe with
  | none => st
  | some r => initialize_loop (cb.recipes.length - r) r st

/-- Source `mark_visited`: `recipe->state = (void *)1`. -/
def mark_visited (st : STATES) (recipe : Nat) : STATES :=
  Function.update st recipe STATE.ONE

/-- Source `is_visited`: `recipe->state != NULL`. -/
def is_visited (st : STATES) (recipe : Nat) : Bool :=
  st recipe != STATE.NULL

/-! ## Traversal stack -/

abbrev STACK := List Nat

/-- Source `push`: the new node becomes the top. -/
def push (stack : STACK) (recipe : Nat) : STACK := recipe :: stack

/-- Source `pop`: the recipe of the top node and the remaining stack, NULL on an empty
stack. -/
def pop (stack : STACK) : Option Nat × STACK :=
  match stack with
  | [] => (none, [])
  | r :: rest => (some r, rest)

/-- Source `is_stack_empty`. -/
def is_stack_empty (stack : STACK) : Bool := stack.isEmpty

/-! ## Work queue -/

/-- A queue node: the recipe it holds and the address of the next node. -/
structure QUEUE_NODE where
  recipe : Nat
  next : Option Nat
deriving DecidableEq

/-- The work queue: `front` and `back` node addresses, together with the node store
(`heap a = none` for an address not holding a live node) and the next address `malloc`
hands out. -/
structure WORK_QUEUE where
  heap : Nat → Option QUEUE_NODE
  brk : Nat
  front : Option Nat
  back : Option Nat

/-- Source `init_work_queue`: both pointers null. -/
def init_work_queue : WORK_QUEUE :=
  { heap := fun _ => none, brk := 0, front := none, back := none }

/-- Source `enqueue`: a fresh node is linked behind `back` and becomes `back` (and `front`
when the queue was empty). When `back` is not the address of a live node the write through
it is dropped; a well-formed queue never has such a pointer. -/
def enqueue (queue : WORK_QUEUE) (recipe : Nat) : WORK_QUEUE :=
  let new_node := queue.brk
  let heap := Function.update queue.heap new_node (some { recipe := recipe, next := none })
  match queue.back with
  | none => { heap := heap, brk := queue.brk + 1, front := some new_node, back := some new_node }
  | some b =>
    match heap b with
    | some n =>
      { heap := Function.update heap b (some { n with next := some new_node }),
        brk := queue.brk + 1, front := queue.front, back := some new_node }
    | none => { heap := heap, brk := queue.brk + 1, front := queue.front, back := some new_node }

/-- Source `dequeue`: the recipe of the front node (NULL on an empty queue) and the queue
without that node, which is freed; `back` is cleared when the queue becomes empty. -/
def dequeue (queue : WORK_QUEUE) : Option Nat × WORK_QUEUE :=
  match queue.front with
  | none => (none, queue)
  | some node =>
    match queue.heap node with
    | none => (none, queue)
    | some n =>
      let front := n.next
      let back := if front = none then none else queue.back
      (some n.recipe,
        { heap := Function.update queue.heap node none, brk := queue.brk,
          front := front, back := back })

/-- Source `is_work_queue_empty`: `queue->front == NULL`. -/
def is_work_queue_empty (queue : WORK_QUEUE) : Bool := queue.front.isNone

/-- The `while (current != NULL)` loop of `dequeue_recipe`. -/
def dequeue_recipe_loop (target_recipe : Nat) :
    Nat → WORK_QUEUE → Option Nat → Option Nat → Option Nat × WORK_QUEUE
  | 0, queue, _, _ => (none, queue)
  | fuel + 1, queue, previous, current =>
    match current with
    | none => (none, queue)
    | some c =>
      match queue.heap c with
      | none => (none, queue)
      | some n =>
        if n.recipe = target_recipe then
          let heap1 := match previous with
            | none => queue.heap
            | some p =>
              match queue.heap p with
              | some pn => Function.update queue.heap p (some { pn with next := n.next })
              | none => queue.heap
          let front1 := match previous with
            | none => n.next
            | some _ => queue.front
          let back1 := if n.next = none then previous else queue.back
          (some n.recipe,
            { heap := Function.update heap1 c none, brk := queue.brk,
              front := front1, back := back1 })
        else dequeue_recipe_loop target_recipe fuel queue (some c) n.next

/-- Source `dequeue_recipe`: unlink the first node holding `target_recipe`. A chain of
live nodes is never longer than the number of addresses handed out. -/
def dequeue_recipe (queue : WORK_QUEUE) (target_recipe : Nat) : Option Nat × WORK_QUEUE :=
  match queue.front with
  | none => (none, queue)
  | some _ => dequeue_recipe_loop target_recipe queue.brk queue none queue.front

/-- Recipes held by the nodes linked from `p`, following at most `fuel` links. -/
def walk (heap : Nat → Option QUEUE_NODE) : Nat → Option Nat → List Nat
  | 0, _ => []
  | fuel + 1, p =>
    match p with
    | none => []
    | some a =>
      match heap a with
      | none => []
      | some n => n.recipe :: walk heap fuel n.next

/-- The recipes in the queue, front first. -/
def queue_contents (queue : WORK_QUEUE) : List Nat :=
  walk queue.heap queue.brk queue.front

/-! ## Dependency analysis -/

/-- The `while (dep != NULL)` loop of `stack_analysis_traversal`: every dependency that is
not visited is pushed and counted. `is_visited(dep->recipe)` on a null link is a fault. -/
def push_unvisited (st : STATES) : List (Option Nat) → STACK → Nat → RES (STACK × Nat)
  | [], stack, recipe_count => RES.ok (stack, recipe_count)
  | none :: _, _, _ => RES.fault
  | some d :: rest, stack, recipe_count =>
    if is_visited st d then push_unvisited st rest stack recipe_count
    else push_unvisited st rest (push stack d) (recipe_count + 1)

/-- Variables of `stack_analysis_traversal`. `visited` is a trace: the recipes in the order
in which `mark_visited` was called on them. -/
structure TRAVERSAL where
  stack : STACK
  states : STATES
  work_queue : WORK_QUEUE
  recipe_count : Nat
  visited : List Nat

/-- Body of the `while (!is_stack_empty(&stack))` loop of `stack_analysis_traversal`, after
`current` was popped and `stack1` is what is left of the stack. -/
def traversal_body (cb : COOKBOOK) (s : TRAVERSAL) (current : Nat) (stack1 : STACK) :
    RES TRAVERSAL :=
  if is_visited s.states current then RES.ok { s with stack := stack1 }
  else
    let st1 := mark_visited s.states current
    let q1 := if deps cb current = [] then enqueue s.work_queue current else s.work_queue
    match push_unvisited st1 (deps cb current) stack1 s.recipe_count with
    | RES.ok (stack2, count2) =>
      RES.ok { stack := stack2, states := st1, work_queue := q1, recipe_count := count2,
               visited := s.visited ++ [current] }
    | RES.fault => RES.fault
    | RES.diverge => RES.diverge

/-- The `while (!is_stack_empty(&stack))` loop of `stack_analysis_traversal`. -/
def traversal_loop (cb : COOKBOOK) : Nat → TRAVERSAL → RES TRAVERSAL
  | 0, _ => RES.diverge
  | fuel + 1, s =>
    match pop s.stack with
    | (none, _) => RES.ok s
    | (some current, stack1) =>
      match traversal_body cb s current stack1 with
      | RES.ok s1 => traversal_loop cb fuel s1
      | RES.fault => RES.fault
      | RES.diverge => RES.diverge

/-- Source `stack_analysis_traversal`. The returned record holds the return value
(`recipe_count`), the work queue and the state slots after the final
`initialize_recipe_states(recipe_selected)`. -/
def stack_analysis_traversal (cb : COOKBOOK) (fuel : Nat) (recipe_selected : Nat)
    (work_queue : WORK_QUEUE) (st : STATES) : RES TRAVERSAL :=
  match traversal_loop cb fuel
      { stack := push [] recipe_selected, states := st, work_queue := work_queue,
        recipe_count := 1, visited := [] } with
  | RES.ok s =>
    RES.ok { s with states := initialize_recipe_states cb (some recipe_selected) s.states }
  | RES.fault => RES.fault
  | RES.diverge => RES.diverge

/-- The `while (dep != NULL)` loop of `detect_cycle_dfs`. `call` is the recursive call; the
value it returns is dropped, only its effect on the stack and the states is kept. The loop
returns -1 at a null link, and 0 stands for "ran to the end". -/
def detect_deps (call : Nat → STACK → STATES → RES (Int × STACK × STATES)) :
    List (Option Nat) → STACK → STATES → RES (Int × STACK × STATES)
  | [], stack, st => RES.ok (0, stack, st)
  | none :: _, stack, st => RES.ok (-1, stack, st)
  | some d :: rest, stack, st =>
    match call d stack st with
    | RES.ok (_, stack1, st1) => detect_deps call rest stack1 st1
    | RES.fault => RES.fault
    | RES.diverge => RES.diverge

/-- Source `detect_cycle_dfs`: the return value with the stack and the states it leaves. -/
def detect_cycle_dfs (cb : COOKBOOK) : Nat → Nat → STACK → STATES → RES (Int × STACK × STATES)
  | 0, _, _, _ => RES.diverge
  | fuel + 1, recipe, stack, st =>
    if is_visited st recipe then RES.ok (0, stack, st)
    else if some recipe ∈ deps cb recipe then RES.ok (-1, stack, st)
    else if recipe ∈ stack then RES.ok (-1, stack, st)
    else
      match detect_deps (detect_cycle_dfs cb fuel) (deps cb recipe) (push stack recipe) st with
      | RES.ok (code, stack1, st1) =>
        if code = -1 then RES.ok (-1, stack1, st1)
        else RES.ok (0, (pop stack1).2, mark_visited st1 recipe)
      | RES.fault => RES.fault
      | RES.diverge => RES.diverge

/-- Source `check_circular_tree_cycle`: the return value and the states after the reset. -/
def check_circular_tree_cycle (cb : COOKBOOK) (fuel : Nat) (recipe_root : Nat) (st : STATES) :
    RES (Int × STATES) :=
  match detect_cycle_dfs cb fuel recipe_root [] st with
  | RES.ok (ret, _, st1) => RES.ok (ret, initialize_recipe_states cb (some recipe_root) st1)
  | RES.fault => RES.fault
  | RES.diverge => RES.diverge

/-! ## Readiness propagation -/

/-- Source `is_in_completed_recipes` over the first `completed_count` entries. -/
def is_in_completed_recipes (recipe : Option Nat) : List (Option Nat) → Bool
  | [] => false
  | c :: rest => if c = recipe then true else is_in_completed_recipes recipe rest

/-- The list walk of `is_reaches_main`; `call` is the recursive call. -/
def reaches_links (call : Option Nat → RES Bool) (main_recipe : Nat) :
    List (Option Nat) → RES Bool
  | [] => RES.ok false
  | current :: rest =>
    if current = some main_recipe then RES.ok true
    else
      match call current with
      | RES.ok true => RES.ok true
      | RES.ok false => reaches_links call main_recipe rest
      | RES.fault => RES.fault
      | RES.diverge => RES.diverge

/-- Source `is_reaches_main`: the reverse walk along `depend_on_this` looking for the main
recipe. -/
def is_reaches_main (cb : COOKBOOK) (main_recipe : Nat) : Nat → Option Nat → RES Bool
  | 0, _ => RES.diverge
  | _ + 1, none => RES.ok false
  | fuel + 1, some r =>
    if r = main_recipe then RES.ok true
    else reaches_links (is_reaches_main cb main_recipe fuel) main_recipe (dependents cb r)

/-- First loop of `update_work_queue`: the dependents of the completed recipe that are not
completed and reach the main recipe are pushed. -/
def push_dependents (cb : COOKBOOK) (fuel : Nat) (completed_recipes : List (Option Nat))
    (main_recipe : Nat) : List (Option Nat) → STACK → RES STACK
  | [], stack => RES.ok stack
  | dependent :: rest, stack =>
    if is_in_completed_recipes dependent completed_recipes then
      push_dependents cb fuel completed_recipes main_recipe rest stack
    else
      match is_reaches_main cb main_recipe fuel dependent, dependent with
      | RES.ok true, some d => push_dependents cb fuel completed_recipes main_recipe rest (push stack d)
      | RES.ok true, none => RES.fault
      | RES.ok false, _ => push_dependents cb fuel completed_recipes main_recipe rest stack
      | RES.fault, _ => RES.fault
      | RES.diverge, _ => RES.diverge

/-- The `can_be_completed` loop: every dependency is in `completed_recipes`. -/
def can_be_completed (completed_recipes : List (Option Nat)) : List (Option Nat) → Bool
  | [] => true
  | dep :: rest =>
    if is_in_completed_recipes dep completed_recipes then can_be_completed completed_recipes rest
    else false

/-- The `next_dependent` loop: dependents that are not visited are pushed. -/
def push_next_dependents (st : STATES) : List (Option Nat) → STACK → RES STACK
  | [], stack => RES.ok stack
  | none :: _, _ => RES.fault
  | some d :: rest, stack =>
    if is_visited st d then push_next_dependents st rest stack
    else push_next_dependents st rest (push stack d)

/-- Body of the `while (!is_stack_empty(&stack))` loop of `update_work_queue`, after
`recipe` was popped and `stack1` is what is left of the stack. -/
def update_body (cb : COOKBOOK) (st : STATES) (completed_recipes : List (Option Nat))
    (recipe : Nat) (stack1 : STACK) (work_queue : WORK_QUEUE) : RES (STACK × WORK_QUEUE) :=
  if is_visited st recipe then RES.ok (stack1, work_queue)
  else if can_be_completed completed_recipes (deps cb recipe) then
    match push_next_dependents st (dependents cb recipe) stack1 with
    | RES.ok stack2 => RES.ok (stack2, enqueue work_queue recipe)
    | RES.fault => RES.fault
    | RES.diverge => RES.diverge
  else RES.ok (stack1, work_queue)

/-- The `while (!is_stack_empty(&stack))` loop of `update_work_queue`. -/
def update_loop (cb : COOKBOOK) (st : STATES) (completed_recipes : List (Option Nat)) :
    Nat → STACK → WORK_QUEUE → RES WORK_QUEUE
  | 0, _, _ => RES.diverge
  | fuel + 1, stack, work_queue =>
    match pop stack with
    | (none, _) => RES.ok work_queue
    | (some recipe, stack1) =>
      match update_body cb st completed_recipes recipe stack1 work_queue with
      | RES.ok (stack2, queue2) => update_loop cb st completed_recipes fuel stack2 queue2
      | RES.fault => RES.fault
      | RES.diverge => RES.diverge

/-- Source `update_work_queue`. `completed_recipes` is the array up to `completed_count`;
reading `completed_recipes[completed_count-1]` with no entry, or following a null entry, is a
fault. -/
def update_work_queue (cb : COOKBOOK) (fuel : Nat) (st : STATES) (work_queue : WORK_QUEUE)
    (completed_recipes : List (Option Nat)) (main_recipe : Nat) : RES WORK_QUEUE :=
  match completed_recipes.getLast? with
  | none => RES.fault
  | some none => RES.fault
  | some (some completed_recipe) =>
    let queue1 := (dequeue_recipe work_queue completed_recipe).2
    match push_dependents cb fuel completed_recipes main_recipe
        (dependents cb completed_recipe) [] with
    | RES.ok stack => update_loop cb st completed_recipes fuel stack queue1
    | RES.fault => RES.fault
    | RES.diverge => RES.diverge

/-! ## Scheduler (signal_process_handling.c) -/

/-- A wait status as `waitpid` reports it: normal exit with a code, or death by a signal. -/
inductive WSTATUS where
  | exited (code : Nat) : WSTATUS
  | signaled (sig : Nat) : WSTATUS
deriving DecidableEq

/-- The `WIFEXITED` test of `<sys/wait.h>`. -/
def WIFEXITED : WSTATUS → Bool
  | WSTATUS.exited _ => true
  | WSTATUS.signaled _ => false

/-- The `WEXITSTATUS` value of `<sys/wait.h>`. -/
def WEXITSTATUS : WSTATUS → Nat
  | WSTATUS.exited code => code
  | WSTATUS.signaled _ => 0

/-- The trace of the parent, in program order: `forked r pid` is a worker forked for recipe
`r`; `waited pid r status` is `waitpid` returning the worker `pid`, which was building `r`;
`updated` is a call of `update_work_queue`; `killed pid` is a SIGKILL sent to `pid`. -/
inductive EVENT where
  | forked (recipe : Nat) (pid : Int) : EVENT
  | waited (pid : Int) (worker_of : Nat) (status : WSTATUS) : EVENT
  | updated : EVENT
  | killed (pid : Int) : EVENT
deriving DecidableEq

/-- The answers of the operating system in one iteration of the scheduling loop:
the value `fork()` returns if the iteration dispatches, and the (pid, status) pairs the
successive `waitpid(-1, &status, WNOHANG)` calls return before one returns 0 or -1, if the
iteration collects. -/
structure OS_REPLY where
  fork_pid : Int
  reaped : List (Int × WSTATUS)

/-- Scheduler variables. `children` is the process table seen from the parent: the pid of
every worker forked and not yet reaped, with the recipe that worker builds. `events` is the
trace of the run. -/
structure SCHED where
  work_queue : WORK_QUEUE
  states : STATES
  active_cooks : Int
  completed_recipes : List (Option Nat)
  children : List (Int × Nat)
  events : List EVENT

/-- Source `completed_count`: the number of entries of `completed_recipes` in use. -/
def SCHED.completed_count (s : SCHED) : Nat := s.completed_recipes.length

/-- Source `get_pid_of_recipe`: -1 for a null recipe or a null state, otherwise the pid read
through the state pointer; reading through `(void *)1` is a fault. -/
def get_pid_of_recipe (st : STATES) (recipe : Option Nat) : RES Int :=
  match recipe with
  | none => RES.ok (-1)
  | some r =>
    match st r with
    | STATE.NULL => RES.ok (-1)
    | STATE.ONE => RES.fault
    | STATE.CELL pid => RES.ok pid

/-- Source `set_pid_of_recipe`: the pid is written through the state pointer; writing
through a null pointer or `(void *)1` is a fault. -/
def set_pid_of_recipe (st : STATES) (recipe : Option Nat) (pid : Int) : RES STATES :=
  match recipe with
  | none => RES.ok st
  | some r =>
    match st r with
    | STATE.NULL => RES.fault
    | STATE.ONE => RES.fault
    | STATE.CELL _ => RES.ok (Function.update st r (STATE.CELL pid))

/-- The `while (current != NULL)` loop of `get_recipe_by_pid` over the `k` recipes from
`current` on. -/
def get_recipe_by_pid_loop (st : STATES) (pid : Int) : Nat → Nat → RES (Option Nat)
  | 0, _ => RES.ok none
  | k + 1, current =>
    match get_pid_of_recipe st (some current) with
    | RES.ok p =>
      if p = pid then RES.ok (some current) else get_recipe_by_pid_loop st pid k (current + 1)
    | RES.fault => RES.fault
    | RES.diverge => RES.diverge

/-- Source `get_recipe_by_pid`: the first recipe of the cookbook list whose state holds
`pid`, NULL when there is none. -/
def get_recipe_by_pid (cb : COOKBOOK) (st : STATES) (pid : Int) : RES (Option Nat) :=
  get_recipe_by_pid_loop st pid cb.recipes.length 0

/-- The kill loop of the failure branch: walks the recipe list from `recipe_selected` on and
returns the pids that get SIGKILL, in order. -/
def kill_loop (st : STATES) (pid : Int) : Nat → Nat → RES (List Int)
  | 0, _ => RES.ok []
  | k + 1, recipe_selected =>
    match st recipe_selected with
    | STATE.NULL => kill_loop st pid k (recipe_selected + 1)
    | STATE.ONE => RES.fault
    | STATE.CELL child_pid =>
      match kill_loop st pid k (recipe_selected + 1) with
      | RES.ok rest => RES.ok (if child_pid ≠ pid then child_pid :: rest else rest)
      | RES.fault => RES.fault
      | RES.diverge => RES.diverge

/-- How one iteration of `while (1)` ends. `worker` is the child side of `fork`;
`os_impossible` marks an answer the operating system cannot give (a fork pid that an
unreaped child still has, a `waitpid` pid that is not an unreaped child). -/
inductive ITER where
  | continue (s : SCHED) : ITER
  | break (s : SCHED) : ITER
  | exit_failure (s : SCHED) : ITER
  | abort (s : SCHED) : ITER
  | worker (recipe : Nat) : ITER
  | fault : ITER
  | diverge : ITER
  | os_impossible : ITER

/-- The `if` branch of the loop body: dequeue a recipe and fork a worker for it. The cell
`malloc` returns is uninitialised until `set_pid_of_recipe`; it is modelled as holding 0. -/
def dispatch (s : SCHED) (fork_pid : Int) : ITER :=
  match dequeue s.work_queue with
  | (none, work_queue) => ITER.abort { s with work_queue := work_queue }
  | (some recipe, work_queue) =>
    let st1 := if s.states recipe = STATE.NULL then Function.update s.states recipe (STATE.CELL 0)
               else s.states
    if fork_pid ∈ s.children.map Prod.fst then ITER.os_impossible
    else if fork_pid = 0 then ITER.worker recipe
    else if fork_pid > 0 then
      match set_pid_of_recipe st1 (some recipe) fork_pid with
      | RES.ok st2 =>
        ITER.continue
          { s with work_queue := work_queue, states := st2, active_cooks := s.active_cooks + 1,
                   children := s.children ++ [(fork_pid, recipe)],
                   events := s.events ++ [EVENT.forked recipe fork_pid] }
      | RES.fault => ITER.fault
      | RES.diverge => ITER.diverge
    else ITER.abort { s with work_queue := work_queue, states := st1 }

/-- The `while ((pid = waitpid(-1, &status, WNOHANG)) > 0)` loop on the pairs `waitpid`
returns. -/
def reap_loop (cb : COOKBOOK) (recipe_selected : Nat) : List (Int × WSTATUS) → SCHED → ITER
  | [], s => ITER.continue s
  | (pid, status) :: rest, s =>
    match s.children.lookup pid with
    | none => ITER.os_impossible
    | some worker_of =>
      let s1 : SCHED :=
        { s with active_cooks := s.active_cooks - 1,
                 children := s.children.filter (fun c => c.1 ≠ pid),
                 events := s.events ++ [EVENT.waited pid worker_of status] }
      if WIFEXITED status && WEXITSTATUS status == 0 then
        match get_recipe_by_pid cb s1.states pid with
        | RES.ok recipe =>
          reap_loop cb recipe_selected rest
            { s1 with completed_recipes := s1.completed_recipes ++ [recipe] }
        | RES.fault => ITER.fault
        | RES.diverge => ITER.diverge
      else
        match kill_loop s1.states pid (cb.recipes.length - recipe_selected) recipe_selected with
        | RES.ok pids =>
          ITER.exit_failure { s1 with events := s1.events ++ pids.map EVENT.killed }
        | RES.fault => ITER.fault
        | RES.diverge => ITER.diverge

/-- The `else` branch of the loop body: after `sigsuspend` returns, drain `waitpid`, then one
call of `update_work_queue`. -/
def collect (cb : COOKBOOK) (recipe_selected : Nat) (fuel : Nat) (s : SCHED)
    (reaped : List (Int × WSTATUS)) : ITER :=
  match reap_loop cb recipe_selected reaped s with
  | ITER.continue s1 =>
    match update_work_queue cb fuel s1.states s1.work_queue s1.completed_recipes
        recipe_selected with
    | RES.ok work_queue =>
      ITER.continue { s1 with work_queue := work_queue, events := s1.events ++ [EVENT.updated] }
    | RES.fault => ITER.fault
    | RES.diverge => ITER.diverge
  | other => other

/-- One iteration of the `while (1)` loop of `main_processing_loop`. -/
def loop_body (cb : COOKBOOK) (max_cooks : Int) (recipe_selected : Nat) (fuel : Nat)
    (s : SCHED) (reply : OS_REPLY) : ITER :=
  if is_work_queue_empty s.work_queue && s.active_cooks == 0 then ITER.break s
  else if !is_work_queue_empty s.work_queue && s.active_cooks < max_cooks then
    dispatch s reply.fork_pid
  else collect cb recipe_selected fuel s reply.reaped

/-- Source `main_processing_loop`, run against a script of operating-system answers, one per
iteration. When the script ends before the loop does, the result is `ITER.continue` with the
state reached. -/
def main_processing_loop (cb : COOKBOOK) (max_cooks : Int) (recipe_selected : Nat)
    (fuel : Nat) : List OS_REPLY → SCHED → ITER
  | [], s =>
    if is_work_queue_empty s.work_queue && s.active_cooks == 0 then ITER.break s
    else ITER.continue s
  | reply :: rest, s =>
    match loop_body cb max_cooks recipe_selected fuel s reply with
    | ITER.continue s1 => main_processing_loop cb max_cooks recipe_selected fuel rest s1
    | other => other

/-- The scheduler state with which `main` enters `main_processing_loop`. -/
def initial_sched (t : TRAVERSAL) : SCHED :=
  { work_queue := t.work_queue, states := t.states, active_cooks := 0,
    completed_recipes := [], children := [], events := [] }

/-- How `main` ends. -/
inductive EXIT where
  | success (s : SCHED) : EXIT
  | failure (events : List EVENT) : EXIT
  | abort : EXIT
  | worker (recipe : Nat) : EXIT
  | fault : EXIT
  | running (s : SCHED) : EXIT
  | diverge : EXIT
  | os_impossible : EXIT

/-- Source `main` from `initialize_cookbook_states` on, for the parsed cookbook, the recipe
`find_recipe` selected and the `max_cooks` that `validargs` returned. -/
def main (cb : COOKBOOK) (recipe_selected : Nat) (max_cooks : Int) (fuel : Nat)
    (replies : List OS_REPLY) (st0 : STATES) : EXIT :=
  let st := initialize_recipe_states cb (some 0) st0
  match check_circular_tree_cycle cb fuel recipe_selected st with
  | RES.fault => EXIT.fault
  | RES.diverge => EXIT.diverge
  | RES.ok (ret, st1) =>
    if ret ≠ 0 then EXIT.failure []
    else
      match stack_analysis_traversal cb fuel recipe_selected init_work_queue st1 with
      | RES.fault => EXIT.fault
      | RES.diverge => EXIT.diverge
      | RES.ok t =>
        if is_work_queue_empty t.work_queue then EXIT.failure []
        else
          match main_processing_loop cb max_cooks recipe_selected fuel replies
              (initial_sched t) with
          | ITER.break s => EXIT.success s
          | ITER.continue s => EXIT.running s
          | ITER.exit_failure s => EXIT.failure s.events
          | ITER.abort _ => EXIT.abort
          | ITER.worker recipe => EXIT.worker recipe
          | ITER.fault => EXIT.fault
          | ITER.diverge => EXIT.diverge
          | ITER.os_impossible => EXIT.os_impossible

/-! ## Specification vocabulary for the work queue -/

/-- The nodes linked from pointer `p`, as (address, recipe) pairs in chain order; the
last node has a null `next`. -/
def Linked (heap : Nat → Option QUEUE_NODE) : Option Nat → List (Nat × Nat) → Prop
  | p, [] => p = none
  | p, c :: rest => p = some c.1 ∧ ∃ nx, heap c.1 = some ⟨c.2, nx⟩ ∧ Linked heap nx rest

/-- The queue is a well-formed singly linked list holding the recipes `l`, front first:
`front` heads the chain, `back` is its last node (both null when it is empty), no node occurs
twice and every node address was handed out by `malloc`. -/
def Represents (q : WORK_QUEUE) (l : List Nat) : Prop :=
  ∃ cells : List (Nat × Nat),
    cells.map Prod.snd = l ∧ Linked q.heap q.front cells ∧ (cells.map Prod.fst).Nodup ∧
    (∀ c ∈ cells, c.1 < q.brk) ∧ q.back = (cells.map Prod.fst).getLast?

/-- The calls `enqueue(r1)`, ..., `enqueue(rn)` in a row. -/
def enqueue_all (queue : WORK_QUEUE) (rs : List Nat) : WORK_QUEUE := rs.foldl enqueue queue

/-- The results of `n` successive calls of `dequeue`, and the queue they leave. -/
def dequeue_n : Nat → WORK_QUEUE → List (Option Nat) × WORK_QUEUE
  | 0, queue => ([], queue)
  | n + 1, queue =>
    ((dequeue queue).1 :: (dequeue_n n (dequeue queue).2).1, (dequeue_n n (dequeue queue).2).2)

/-! ## Concrete cookbooks and observation helpers -/

/-- Apply a function to the value a computation returns. -/
def RES.map {α β : Type} (f : α → β) : RES α → RES β
  | RES.ok a => RES.ok (f a)
  | RES.fault => RES.fault
  | RES.diverge => RES.diverge

/-- Two recipes depending on each other: A (index 0) on B (index 1) and B on A. -/
def cookbook_two_cycle : COOKBOOK :=
  { recipes := [
      { name := "A", this_depends_on := [some 1], depend_on_this := [some 1] },
      { name := "B", this_depends_on := [some 0], depend_on_this := [some 0] } ] }

/-- A cycle strictly below the target: T (0) depends on A (1) and on the leaf L (3);
A depends on B (2) and B on A. -/
def cookbook_cycle_below : COOKBOOK :=
  { recipes := [
      { name := "T", this_depends_on := [some 1, some 3], depend_on_this := [] },
      { name := "A", this_depends_on := [some 2], depend_on_this := [some 0, some 2] },
      { name := "B", this_depends_on := [some 1], depend_on_this := [some 1] },
      { name := "L", this_depends_on := [], depend_on_this := [some 0] } ] }

/-- A recipe with a self-loop below the target: T (0) depends on A (1), A on itself. -/
def cookbook_self_loop_below : COOKBOOK :=
  { recipes := [
      { name := "T", this_depends_on := [some 1], depend_on_this := [] },
      { name := "A", this_depends_on := [some 1], depend_on_this := [some 0, some 1] } ] }

/-- A dangling dependency below the target: T (0) depends on A (1), whose only dependency
link has a null recipe pointer. -/
def cookbook_dangling_below : COOKBOOK :=
  { recipes := [
      { name := "T", this_depends_on := [some 1], depend_on_this := [] },
      { name := "A", this_depends_on := [none], depend_on_this := [some 0] } ] }

/-- The target A is the second recipe of the cookbook and depends on the first one, B. -/
def cookbook_dep_first : COOKBOOK :=
  { recipes := [
      { name := "B", this_depends_on := [], depend_on_this := [some 1] },
      { name := "A", this_depends_on := [some 0], depend_on_this := [] } ] }

/-- T (0) depends on X (1) and Y (2); X depends on the leaf A (3), Y on the leaf B (4). -/
def cookbook_two_branches : COOKBOOK :=
  { recipes := [
      { name := "T", this_depends_on := [some 1, some 2], depend_on_this := [] },
      { name := "X", this_depends_on := [some 3], depend_on_this := [some 0] },
      { name := "Y", this_depends_on := [some 4], depend_on_this := [some 0] },
      { name := "A", this_depends_on := [], depend_on_this := [some 1] },
      { name := "B", this_depends_on := [], depend_on_this := [some 2] } ] }

/-- Forward and backward edges are inverse to each other. -/
def consistent_edges (cb : COOKBOOK) : Prop :=
  ∀ a, a < cb.recipes.length → ∀ b, b < cb.recipes.length →
    (some b ∈ deps cb a ↔ some a ∈ dependents cb b)

instance (cb : COOKBOOK) : Decidable (consistent_edges cb) := by
  unfold consistent_edges; infer_instance

/-- What an observer sees of a finished or interrupted run of `main`: how it ended, the
content of `completed_recipes`, the work queue and the trace. -/
structure OBSERVED where
  ending : String
  completed_recipes : List (Option Nat)
  queue : List Nat
  events : List EVENT
deriving DecidableEq

/-- The observation of a scheduler state. -/
def observe_sched (ending : String) (s : SCHED) : OBSERVED :=
  { ending := ending, completed_recipes := s.completed_recipes,
    queue := queue_contents s.work_queue, events := s.events }

/-- The observation of the way `main` ended. -/
def observe : EXIT → OBSERVED
  | EXIT.success s => observe_sched "exit 0" s
  | EXIT.running s => observe_sched "running" s
  | EXIT.failure events =>
    { ending := "exit failure", completed_recipes := [], queue := [], events := events }
  | EXIT.abort => { ending := "abort", completed_recipes := [], queue := [], events := [] }
  | EXIT.worker _ => { ending := "worker", completed_recipes := [], queue := [], events := [] }
  | EXIT.fault => { ending := "fault", completed_recipes := [], queue := [], events := [] }
  | EXIT.diverge => { ending := "diverge", completed_recipes := [], queue := [], events := [] }
  | EXIT.os_impossible =>
    { ending := "impossible", completed_recipes := [], queue := [], events := [] }

/-! ## Specification vocabulary for the dependency analysis -/

/-- Recipe `b` is a (non-null) entry of `a`'s `this_depends_on` list. -/
def depends_on (cb : COOKBOOK) (a b : Nat) : Prop := some b ∈ deps cb a

instance (cb : COOKBOOK) (a b : Nat) : Decidable (depends_on cb a b) := by
  unfold depends_on; infer_instance

/-- Recipe `r` is in the transitive `depends_on`-closure of `target` (the target included). -/
def in_closure (cb : COOKBOOK) (target r : Nat) : Prop :=
  Relation.ReflTransGen (depends_on cb) target r

/-- The number of `this_depends_on` links of the whole cookbook. -/
def total_links (cb : COOKBOOK) : Nat :=
  ((List.range cb.recipes.length).map (fun r => (deps cb r).length)).sum

/-- The links of the recipes that are not visited yet. -/
def unvisited_links (cb : COOKBOOK) (st : STATES) : Nat :=
  ((List.range cb.recipes.length).map
    (fun r => if is_visited st r then 0 else (deps cb r).length)).sum

/-- Invariant of the traversal loop for the target `target`, a queue that held `l0` on entry
and states that were all null on entry. -/
structure TRAVERSAL.Inv (cb : COOKBOOK) (target : Nat) (l0 : List Nat) (s : TRAVERSAL) :
    Prop where
  marked : ∀ r, is_visited s.states r = true ↔ r ∈ s.visited
  nodup : s.visited.Nodup
  visited_closure : ∀ r ∈ s.visited, in_closure cb target r
  stack_closure : ∀ r ∈ s.stack, in_closure cb target r
  closed : ∀ r ∈ s.visited, ∀ d, depends_on cb r d → d ∈ s.visited ∨ d ∈ s.stack
  target_seen : target ∈ s.visited ∨ target ∈ s.stack
  queue : Represents s.work_queue (l0 ++ s.visited.filter (fun r => decide (deps cb r = [])))

/-! ## Specification vocabulary for the scheduler -/

/-- The scheduler states at the head of the `while (1)` loop that a run of `main` can reach:
the state built from the result of the two analysis passes, and every state that an
iteration of the loop continues with, whatever the operating system answers. -/
inductive Reachable (cb : COOKBOOK) (max_cooks : Int) (recipe_selected : Nat) : SCHED → Prop
  | init (fuel : Nat) (st0 st1 : STATES) (t : TRAVERSAL) :
      check_circular_tree_cycle cb fuel recipe_selected
        (initialize_recipe_states cb (some 0) st0) = RES.ok (0, st1) →
      stack_analysis_traversal cb fuel recipe_selected init_work_queue st1 = RES.ok t →
      is_work_queue_empty t.work_queue = false →
      Reachable cb max_cooks recipe_selected (initial_sched t)
  | step (fuel : Nat) (s s1 : SCHED) (reply : OS_REPLY) :
      Reachable cb max_cooks recipe_selected s →
      loop_body cb max_cooks recipe_selected fuel s reply = ITER.continue s1 →
      Reachable cb max_cooks recipe_selected s1

/-- Number of workers forked in a trace. -/
def forks : List EVENT → Nat
  | [] => 0
  | EVENT.forked _ _ :: rest => forks rest + 1
  | _ :: rest => forks rest

/-- Number of workers reaped in a trace. -/
def waits : List EVENT → Nat
  | [] => 0
  | EVENT.waited _ _ _ :: rest => waits rest + 1
  | _ :: rest => waits rest

/-- The bookkeeping of `active_cooks`: it is the number of unreaped workers, which is the
number of forks minus the number of reaps, and it does not exceed `max_cooks`. -/
structure SCHED.Counted (max_cooks : Int) (s : SCHED) : Prop where
  pids_nodup : (s.children.map Prod.fst).Nodup
  live : s.active_cooks = s.children.length
  trace : s.active_cooks = (forks s.events : Int) - (waits s.events : Int)
  bound : s.active_cooks ≤ max_cooks

/-- The scheduler variables after one successful round of the `waitpid` loop: worker `pid`,
which was building `worker_of`, exited with `status`, and `get_recipe_by_pid` found
`recipe`. -/
def SCHED.after_reap (s : SCHED) (pid : Int) (worker_of : Nat) (status : WSTATUS)
    (recipe : Option Nat) : SCHED :=
  { s with active_cooks := s.active_cooks - 1,
           children := s.children.filter (fun c => c.1 ≠ pid),
           events := s.events ++ [EVENT.waited pid worker_of status],
           completed_recipes := s.completed_recipes ++ [recipe] }

/-- The states `main` holds after `check_circular_tree_cycle` (the states on entry when the
call does not return). -/
def states_after_check (cb : COOKBOOK) (fuel : Nat) (recipe_selected : Nat) (st0 : STATES) :
    STATES :=
  match check_circular_tree_cycle cb fuel recipe_selected
      (initialize_recipe_states cb (some 0) st0) with
  | RES.ok (_, st) => st
  | _ => st0

/-- The record `stack_analysis_traversal` returns on an empty queue (an empty record when the
call does not return). -/
def traversal_result (cb : COOKBOOK) (fuel : Nat) (recipe_selected : Nat) (st : STATES) :
    TRAVERSAL :=
  match stack_analysis_traversal cb fuel recipe_selected init_work_queue st with
  | RES.ok t => t
  | _ => { stack := [], states := st, work_queue := init_work_queue, recipe_count := 0,
           visited := [] }

/-- The state in which `main` enters the scheduling loop for the cookbook with two
branches and target T. -/
def sched_two_branches_start : SCHED :=
  initial_sched (traversal_result cookbook_two_branches 10 0
    (states_after_check cookbook_two_branches 10 0 all_null))

/-- The state the loop continues with after consuming a script of answers (the given state
when it does not continue). -/
def sched_after (cb : COOKBOOK) (max_cooks : Int) (recipe_selected : Nat) (fuel : Nat)
    (replies : List OS_REPLY) (s : SCHED) : SCHED :=
  match main_processing_loop cb max_cooks recipe_selected fuel replies s with
  | ITER.continue s1 => s1
  | _ => s

/-- Two cooks at work: the workers of B (pid 100) and A (pid 101) of the cookbook with two
branches are running, nothing is completed. -/
def sched_two_running : SCHED :=
  sched_after cookbook_two_branches 2 0 10 [⟨100, []⟩, ⟨101, []⟩] sched_two_branches_start

/-- Invariant of the scheduling loop behind the ordering guarantee: whatever waits in the
queue or was forked has all its dependencies in `completed_recipes`, every entry of
`completed_recipes` belongs to a worker that was reaped with exit status 0, and in the trace
the fork of a recipe comes after such a reap for each of its dependencies. -/
structure SCHED.DepsDone (cb : COOKBOOK) (s : SCHED) : Prop where
  queue : ∃ l, Represents s.work_queue l ∧ ∀ r ∈ l, ∀ d ∈ deps cb r, d ∈ s.completed_recipes
  forked : ∀ b pid, EVENT.forked b pid ∈ s.events → ∀ d ∈ deps cb b, d ∈ s.completed_recipes
  completed : ∀ a, some a ∈ s.completed_recipes →
    ∃ p, EVENT.waited p a (WSTATUS.exited 0) ∈ s.events
  cells : ∀ r p, r < cb.recipes.length → s.states r = STATE.CELL p →
    (p, r) ∈ s.children ∨ EVENT.waited p r (WSTATUS.exited 0) ∈ s.events
  pids_nodup : (s.children.map Prod.fst).Nodup
  pids_pos : ∀ c ∈ s.children, 0 < c.1
  order : ∀ pre post b pid, s.events = pre ++ EVENT.forked b pid :: post →
    ∀ a, depends_on cb b a → ∃ p, EVENT.waited p a (WSTATUS.exited 0) ∈ pre

/-- No recipe of the cookbook holds a pid cell: every state slot is null or `(void *)1`. -/
def plain (cb : COOKBOOK) (st : STATES) : Prop :=
  ∀ r, r < cb.recipes.length → st r = STATE.NULL ∨ st r = STATE.ONE

/-- The cookbook with two branches after the workers of B (pid 100) and A (pid 101) were
forked, A's worker was reaped with exit status 0, and a worker (pid 102) was forked for X,
which depends on A. -/
def sched_x_forked : SCHED :=
  sched_after cookbook_two_branches 2 0 10
    [⟨100, []⟩, ⟨101, []⟩, ⟨0, [(101, WSTATUS.exited 0)]⟩, ⟨102, []⟩] sched_two_branches_start

/-! ## Task runner (execute_task and the worker side of fork) -/

/-- What a standard stream of a step process is connected to: the stream the worker
inherited, the task's input or output file, or an end of the pipe created for step `i`. -/
inductive FD where
  | inherited_stdin : FD
  | inherited_stdout : FD
  | input_file : FD
  | output_file : FD
  | pipe_read (i : Nat) : FD
  | pipe_write (i : Nat) : FD
deriving DecidableEq

/-- A step process as `execute_task` sets it up before `execvp`. -/
structure CHILD where
  words : List String
  stdin : FD
  stdout : FD
deriving DecidableEq

/-- What the operating system does with one step process: whether it has already
terminated when the parent calls `waitpid(pid, &status, WNOHANG)` right after the fork, and
the wait status with which it terminates. -/
structure STEP_OS where
  early : Bool
  status : WSTATUS

/-- The answers of the operating system during one call of `execute_task`: whether the two
`open` calls succeed, the fate of step `i`, and the order in which the final `wait` loop
returns the step processes. -/
structure TASK_OS where
  input_opens : Bool
  output_opens : Bool
  step : Nat → STEP_OS
  wait_order : List Nat

/-- The answers are possible for a task of `k` steps: `wait` returns each step process that
was not reaped right after its fork once. -/
def TASK_OS.valid (os : TASK_OS) (k : Nat) : Prop :=
  os.wait_order.Perm ((List.range k).filter (fun i => !(os.step i).early))

instance (os : TASK_OS) (k : Nat) : Decidable (os.valid k) := by
  unfold TASK_OS.valid; infer_instance

/-- The step loop of `execute_task`: the step processes forked, with their redirections.
`i` is the position of `step` in the task (`step == task->steps` is `i = 0`), `prev_fd` the
read end of the previous pipe (`none` for -1). -/
def spawn_steps (input_fd output_fd : Bool) : List STEP → Nat → Option FD → List CHILD
  | [], _, _ => []
  | step :: rest, i, prev_fd =>
    let stdin0 := if i = 0 ∧ input_fd = true then FD.input_file else FD.inherited_stdin
    let stdout :=
      if rest = [] ∧ output_fd = true then FD.output_file
      else if rest ≠ [] then FD.pipe_write i
      else FD.inherited_stdout
    let stdin := match prev_fd with
      | some fd => fd
      | none => stdin0
    { words := step.words, stdin := stdin, stdout := stdout }
      :: spawn_steps input_fd output_fd rest (i + 1) (some (FD.pipe_read i))

/-- The final `while (wait(&pipeline_status) > 0)` loop on the step processes `wait`
returns: the return value of `execute_task` and the steps whose status was examined. -/
def wait_loop (os : TASK_OS) : List Nat → Int × List Nat
  | [] => (0, [])
  | i :: rest =>
    if !WIFEXITED (os.step i).status || WEXITSTATUS (os.step i).status != 0 then (-1, [i])
    else ((wait_loop os rest).1, i :: (wait_loop os rest).2)

/-- One call of `execute_task`: its return value, the step processes it forked, the steps
that `waitpid(pid, &status, WNOHANG)` reaped with their status dropped, and the steps whose
status the final `wait` loop examined. -/
structure TASK_RUN where
  ret : Int
  spawned : List CHILD
  dropped : List Nat
  examined : List Nat
deriving DecidableEq

/-- Source `execute_task`. `fork` and `pipe` are taken to succeed. -/
def execute_task (task : TASK) (os : TASK_OS) : TASK_RUN :=
  if task.input_file.isSome && !os.input_opens then
    { ret := -1, spawned := [], dropped := [], examined := [] }
  else if task.output_file.isSome && !os.output_opens then
    { ret := -1, spawned := [], dropped := [], examined := [] }
  else
    { ret := (wait_loop os os.wait_order).1,
      spawned := spawn_steps task.input_file.isSome task.output_file.isSome task.steps 0 none,
      dropped := (List.range task.steps.length).filter (fun i => (os.step i).early),
      examined := (wait_loop os os.wait_order).2 }

/-- `recipe->tasks` as a list. -/
def tasks (cb : COOKBOOK) (r : Nat) : List TASK :=
  match cb.recipes[r]? with
  | some x => x.tasks
  | none => []

/-- How a worker process ends: its exit status (`EXIT_SUCCESS` is 0, `EXIT_FAILURE` is 1) and
its calls of `execute_task`, in order. -/
structure WORKER_RUN where
  exit_status : Nat
  runs : List TASK_RUN
deriving DecidableEq

/-- The `while (task != NULL)` loop of the worker, from task number `j` on; `os j` are the
answers of the operating system during task `j`. -/
def worker_loop (os : Nat → TASK_OS) : List TASK → Nat → WORKER_RUN
  | [], _ => { exit_status := 0, runs := [] }
  | task :: rest, j =>
    if (execute_task task (os j)).ret ≠ 0 then
      { exit_status := 1, runs := [execute_task task (os j)] }
    else
      { exit_status := (worker_loop os rest (j + 1)).exit_status,
        runs := execute_task task (os j) :: (worker_loop os rest (j + 1)).runs }

/-- The child side of `fork` in `main_processing_loop`: the worker of `recipe`. The write of
the worker's own pid into its copy of the state cell, allocated before the fork, is left
out. -/
def worker (cb : COOKBOOK) (recipe : Nat) (os : Nat → TASK_OS) : WORKER_RUN :=
  worker_loop os (tasks cb recipe) 0

/-! ## Command line and recipe lookup -/

/-- The `for` loop of `validargs` on the arguments not yet read, with the current values of
`*cookbook`, `*recipe_name`, `max_cooks` and `recipe_name_parsed`; the result is the return
value with the final `*cookbook` and `*recipe_name`. `atoi` is the C library function. -/
def validargs_loop (atoi : String → Int) :
    List String → String → String → Int → Bool → Int × String × String
  | [], cookbook, recipe_name, max_cooks, _ =>
    (if max_cooks ≤ 0 then -1 else max_cooks, cookbook, recipe_name)
  | [arg], cookbook, recipe_name, max_cooks, recipe_name_parsed =>
    if arg = "-f" then (-1, cookbook, recipe_name)
    else if arg = "-c" then (-1, cookbook, recipe_name)
    else if recipe_name_parsed then (-1, cookbook, recipe_name)
    else validargs_loop atoi [] cookbook arg max_cooks true
  | arg :: value :: rest, cookbook, recipe_name, max_cooks, recipe_name_parsed =>
    if arg = "-f" then validargs_loop atoi rest value recipe_name max_cooks recipe_name_parsed
    else if arg = "-c" then
      validargs_loop atoi rest cookbook recipe_name (atoi value) recipe_name_parsed
    else if recipe_name_parsed then (-1, cookbook, recipe_name)
    else validargs_loop atoi (value :: rest) cookbook arg max_cooks true

/-- Source `validargs` on `argv` (element 0 is the program), starting from the values
`*cookbook` and `*recipe_name` have in the caller. -/
def validargs (atoi : String → Int) (cookbook recipe_name : String) (argv : List String) :
    Int × String × String :=
  validargs_loop atoi (argv.drop 1) cookbook recipe_name 1 false

/-- The `while (current_recipe != NULL)` loop of `find_recipe` from recipe number `i` on.
A recipe of the model always has a name, so the `name != NULL` test always passes. -/
def find_recipe_loop (recipe_name : String) : List RECIPE → Nat → Option Nat
  | [], _ => none
  | r :: rest, i =>
    if r.name = recipe_name then some i else find_recipe_loop recipe_name rest (i + 1)

/-- Source `find_recipe`; `none` is a null cookbook, a null name or a null result. -/
def find_recipe (cookbook : Option COOKBOOK) (recipe_name : Option String) : Option Nat :=
  match cookbook with
  | none => none
  | some cb =>
    if cb.recipes = [] then none
    else
      match recipe_name with
      | none => some 0
      | some n => if n = "" then some 0 else find_recipe_loop n cb.recipes 0

/-- The calls of `execute_task` on the tasks `ts`, numbered from `j` on, each taken to its
end. -/
def task_runs (os : Nat → TASK_OS) : List TASK → Nat → List TASK_RUN
  | [], _ => []
  | t :: rest, j => execute_task t (os j) :: task_runs os rest (j + 1)

/-- The command line as `validargs` reads it from left to right: a flag takes the argument
after it as its value, every other argument is positional. -/
inductive ARG where
  | cookbook_flag (value : String) : ARG
  | cooks_flag (value : String) : ARG
  | flag_without_value : ARG
  | positional (arg : String) : ARG
deriving DecidableEq

/-- The arguments after the program name, read from left to right. -/
def read_args : List String → List ARG
  | [] => []
  | [arg] =>
    if arg = "-f" ∨ arg = "-c" then [ARG.flag_without_value] else [ARG.positional arg]
  | arg :: value :: rest =>
    if arg = "-f" then ARG.cookbook_flag value :: read_args rest
    else if arg = "-c" then ARG.cooks_flag value :: read_args rest
    else ARG.positional arg :: read_args (value :: rest)

/-- The value given to the last `-c`, if there is a `-c` with a value. -/
def last_cooks : List ARG → Option String
  | [] => none
  | ARG.cooks_flag value :: rest =>
    match last_cooks rest with
    | some later => some later
    | none => some value
  | _ :: rest => last_cooks rest

/-- The value given to the last `-f`, if there is a `-f` with a value. -/
def last_cookbook : List ARG → Option String
  | [] => none
  | ARG.cookbook_flag value :: rest =>
    match last_cookbook rest with
    | some later => some later
    | none => some value
  | _ :: rest => last_cookbook rest

/-- The positional arguments, in order. -/
def positionals : List ARG → List String
  | [] => []
  | ARG.positional arg :: rest => arg :: positionals rest
  | _ :: rest => positionals rest

/-! ## Further concrete inputs -/

/-- D (0) depends on A (1) and B (2); B depends on A. -/
def cookbook_shared_dep : COOKBOOK :=
  { recipes := [
      { name := "D", this_depends_on := [some 1, some 2], depend_on_this := [] },
      { name := "A", this_depends_on := [], depend_on_this := [some 0, some 2] },
      { name := "B", this_depends_on := [some 1], depend_on_this := [some 0] } ] }

/-- T (0) depends on X1 (1), X2 (2), X3 (3) and the leaf B (5); X1, X2 and X3 depend on the
leaf A (4). -/
def cookbook_fan : COOKBOOK :=
  { recipes := [
      { name := "T", this_depends_on := [some 1, some 2, some 3, some 5], depend_on_this := [] },
      { name := "X1", this_depends_on := [some 4], depend_on_this := [some 0] },
      { name := "X2", this_depends_on := [some 4], depend_on_this := [some 0] },
      { name := "X3", this_depends_on := [some 4], depend_on_this := [some 0] },
      { name := "A", this_depends_on := [], depend_on_this := [some 1, some 2, some 3] },
      { name := "B", this_depends_on := [], depend_on_this := [some 0] } ] }

/-- The target T is the second recipe of the cookbook; it depends on the leaf L1 (0), listed
before it, and on the leaf L2 (2), listed after it. -/
def cookbook_leaf_first : COOKBOOK :=
  { recipes := [
      { name := "L1", this_depends_on := [], depend_on_this := [some 1] },
      { name := "T", this_depends_on := [some 0, some 2], depend_on_this := [] },
      { name := "L2", this_depends_on := [], depend_on_this := [some 1] } ] }

/-- A task of two steps, `false` piped into `cat`, without redirection. -/
def task_false_cat : TASK :=
  { steps := [{ words := ["false"] }, { words := ["cat"] }], input_file := none,
    output_file := none }

/-- The step `false` has already exited with status 1 when the parent calls
`waitpid(pid, &status, WNOHANG)`; `cat` exits 0 later and is returned by `wait`. -/
def os_first_step_fails_early : TASK_OS :=
  { input_opens := true, output_opens := true,
    step := fun i => if i = 0 then { early := true, status := WSTATUS.exited 1 }
                     else { early := false, status := WSTATUS.exited 0 },
    wait_order := [1] }

/-- A task that reads `in.txt` through `cat`. -/
def task_reading_input : TASK :=
  { steps := [{ words := ["cat"] }], input_file := some "in.txt", output_file := none }

/-- The input file cannot be opened. -/
def os_input_missing : TASK_OS :=
  { input_opens := false, output_opens := true,
    step := fun _ => { early := false, status := WSTATUS.exited 0 },
    wait_order := [0] }

/-- The value of `max_cooks` after the loop has read `items`, starting from `max_cooks`. -/
def cooks_after (atoi : String → Int) (items : List ARG) (max_cooks : Int) : Int :=
  match last_cooks items with
  | some value => atoi value
  | none => max_cooks

/-- The value of `*recipe_name` after the loop has read `items`. -/
def recipe_after (items : List ARG) (recipe_name : String) (recipe_name_parsed : Bool) :
    String :=
  if recipe_name_parsed then recipe_name else (positionals items).head?.getD recipe_name

/-- The command line `items` is refused: a flag lacks its value, there is a positional
argument too many, or `max_cooks` ends up not positive. -/
def args_error (atoi : String → Int) (items : List ARG) (max_cooks : Int)
    (recipe_name_parsed : Bool) : Prop :=
  ARG.flag_without_value ∈ items ∨
    (if recipe_name_parsed then 1 else 2) ≤ (positionals items).length ∨
    cooks_after atoi items max_cooks ≤ 0

/-- A recipe with two tasks, the first of which reads `in.txt`. -/
def cookbook_with_tasks : COOKBOOK :=
  { recipes := [
      { name := "R", this_depends_on := [], depend_on_this := [],
        tasks := [task_reading_input, task_false_cat] } ] }

/-! ## Vocabulary for the queue, the pipeline and the loop guards -/

/-- A task of three steps with both files. -/
def task_three_steps : TASK :=
  { steps := [{ words := ["cat"] }, { words := ["sort"] }, { words := ["uniq"] }],
    input_file := some "in.txt", output_file := some "out.txt" }

/-- Every `open` succeeds, no step ends early, all steps exit with 0. -/
def os_all_fine : TASK_OS :=
  { input_opens := true, output_opens := true,
    step := fun _ => { early := false, status := WSTATUS.exited 0 },
    wait_order := [0, 1, 2] }

/-- The three ways the body of the `while (1)` loop can go. -/
inductive BRANCH where
  | leave : BRANCH
  | dispatch : BRANCH
  | suspend : BRANCH
deriving DecidableEq

/-- The branch the guards of the loop body of `main_processing_loop` select: `break`, the
`if` branch that dispatches, or the `else` branch that starts with `sigsuspend`. -/
def loop_branch (max_cooks : Int) (s : SCHED) : BRANCH :=
  if is_work_queue_empty s.work_queue && s.active_cooks == 0 then BRANCH.leave
  else if !is_work_queue_empty s.work_queue && s.active_cooks < max_cooks then BRANCH.dispatch
  else BRANCH.suspend

/-- The state after B's worker (pid 100) was reaped with exit status 0 while A's worker is
still running. -/
def sched_b_reaped : SCHED :=
  sched_after cookbook_two_branches 2 0 10 [⟨0, [(100, WSTATUS.exited 0)]⟩] sched_two_running

/-! ## Vocabulary for the cycle check -/

/-- The number of recipes of the cookbook that are neither visited nor on the stack: the
recipes a call of `detect_cycle_dfs` can still enter. -/
def fresh_recipes (cb : COOKBOOK) (stack : STACK) (st : STATES) : Nat :=
  ((List.range cb.recipes.length).map
    (fun r => if is_visited st r = true ∨ r ∈ stack then 0 else 1)).sum

/-- What a call of `detect_cycle_dfs` does when it returns: the stack it leaves ends with
the stack it was given, visited recipes stay visited, and the value is -1 exactly when the
recipe was not visited and lists itself, is on the stack, or has a null entry in its own
list. -/
def DetectPost (cb : COOKBOOK) (recipe : Nat) (stack : STACK) (st : STATES)
    (res : Int × STACK × STATES) : Prop :=
  (∃ extra, res.2.1 = extra ++ stack) ∧
  (∀ r, is_visited st r = true → is_visited res.2.2 r = true) ∧
  (is_visited st recipe = true ∨ recipe ∈ stack → res.2.1 = stack ∧ res.2.2 = st) ∧
  (res.1 = -1 ↔ (is_visited st recipe = false ∧
    (some recipe ∈ deps cb recipe ∨ recipe ∈ stack ∨ none ∈ deps cb recipe))) ∧
  (res.1 = 0 ∨ res.1 = -1)

/-! ## Vocabulary for the counter of the traversal -/

/-- The entries of `v`'s `this_depends_on` list whose recipe is not among `seen`: the pushes
the traversal makes when it visits `v` and exactly the recipes of `seen` are marked. -/
def pushes_at (cb : COOKBOOK) (seen : List Nat) (v : Nat) : Nat :=
  ((deps cb v).filter (fun d => match d with
    | some x => decide (x ∉ seen)
    | none => false)).length

/-- The pushes of not-yet-visited dependencies along a visit order, when `seen` was visited
before: a recipe is marked before its dependencies are looked at. -/
def pushes_along (cb : COOKBOOK) : List Nat → List Nat → Nat
  | _, [] => 0
  | seen, v :: rest => pushes_at cb (seen ++ [v]) v + pushes_along cb (seen ++ [v]) rest

/-- Invariant of the traversal loop on the counter: it is one more than the pushes made so
far, and every recipe visited or waiting on the stack was counted. -/
structure TRAVERSAL.Counted (cb : COOKBOOK) (s : TRAVERSAL) : Prop where
  pushes : s.recipe_count = 1 + pushes_along cb [] s.visited
  room : s.visited.length + s.stack.length ≤ s.recipe_count

/-! ## Vocabulary for the reverse walk -/

/-- Recipe `b` is a (non-null) entry of `a`'s `depend_on_this` list. -/
def dependent_of (cb : COOKBOOK) (a b : Nat) : Prop := some b ∈ dependents cb a

instance (cb : COOKBOOK) (a b : Nat) : Decidable (dependent_of cb a b) := by
  unfold dependent_of; infer_instance

/-- The recipe `target` is reachable from `r` by zero or more steps along `depend_on_this`
links. -/
def reaches (cb : COOKBOOK) (r target : Nat) : Prop :=
  Relation.ReflTransGen (dependent_of cb) r target

/-- The `depend_on_this` links of the cookbook form no cycle. -/
def acyclic_dependents (cb : COOKBOOK) : Prop :=
  ∀ a, ¬ Relation.TransGen (dependent_of cb) a a

/-! ## A cycle outside the closure of the target -/

/-- A cycle outside the closure of the target: the target T (0) depends on D (1) and D on
the leaf C (2); P (3) depends on C and on Q (4), and Q depends on P. -/
def cookbook_cycle_outside : COOKBOOK :=
  { recipes := [
      { name := "T", this_depends_on := [some 1], depend_on_this := [] },
      { name := "D", this_depends_on := [some 2], depend_on_this := [some 0] },
      { name := "C", this_depends_on := [], depend_on_this := [some 1, some 3] },
      { name := "P", this_depends_on := [some 2, some 4], depend_on_this := [some 4] },
      { name := "Q", this_depends_on := [some 3], depend_on_this := [some 3] } ] }

/-- The cookbook with a cycle outside the closure, target T, one cook: the worker of the
leaf C (pid 100) is running. -/
def sched_c_running : SCHED :=
  sched_after cookbook_cycle_outside 1 0 10 [⟨100, []⟩]
    (initial_sched (traversal_result cookbook_cycle_outside 10 0
      (states_after_check cookbook_cycle_outside 10 0 all_null)))

/-! ## Vocabulary for the stack loop of the readiness propagation -/

/-- The two tests of the stack loop of `update_work_queue` on a popped recipe: its state is
null and every entry of its `this_depends_on` list is in `completed_recipes`. -/
def ready_now (cb : COOKBOOK) (st : STATES) (completed : List (Option Nat)) (r : Nat) : Bool :=
  !is_visited st r && can_be_completed completed (deps cb r)

/-- Iterations the stack loop of `update_work_queue` needs at most for a stack: one per
entry, and one more per dependent of an entry that passes the two tests. -/
def update_cost (cb : COOKBOOK) (st : STATES) (completed : List (Option Nat))
    (stack : STACK) : Nat :=
  (stack.map (fun r =>
    1 + if ready_now cb st completed r then (dependents cb r).length else 0)).sum

/-- Fuel that is enough for `update_work_queue` after `completed_recipe`: the calls of the
reverse walk, and the iterations of the stack loop for its dependents. -/
def update_fuel (cb : COOKBOOK) (completed_recipe : Nat) : Nat :=
  cb.recipes.length + 2 + ((dependents cb completed_recipe).map (fun d =>
    match d with
    | some x => 1 + (dependents cb x).length
    | none => 0)).sum

/-! ## A target with a dependent outside its closure -/

theorem linked_update_of_not_mem (heap : Nat → Option QUEUE_NODE) (a : Nat) (v : Option QUEUE_NODE) :
    ∀ (cells : List (Nat × Nat)) (p : Option Nat), a ∉ cells.map Prod.fst →
      Linked heap p cells → Linked (Function.update heap a v) p cells := by
  intro cells
  induction cells with
  | nil => intro p _ h; exact h
  | cons c rest ih =>
    intro p hna h
    simp only [List.map_cons, List.mem_cons, not_or] at hna
    obtain ⟨hp, nx, hc, hrest⟩ := h
    refine ⟨hp, nx, ?_, ih nx hna.2 hrest⟩
    rw [Function.update_noteq (Ne.symm hna.1)]
    exact hc

theorem linked_last (heap : Nat → Option QUEUE_NODE) (x : Nat × Nat) :
    ∀ (cs : List (Nat × Nat)) (p : Option Nat), Linked heap p (cs ++ [x]) →
      heap x.1 = some ⟨x.2, none⟩ := by
  intro cs
  induction cs with
  | nil =>
    intro p h
    obtain ⟨_, nx, hx, hnil⟩ := h
    have : nx = none := hnil
    rw [hx, this]
  | cons c rest ih =>
    intro p h
    obtain ⟨_, nx, _, hrest⟩ := h
    exact ih nx hrest

theorem linked_snoc (heap : Nat → Option QUEUE_NODE) (x : Nat × Nat) (new r : Nat) :
    ∀ (cs : List (Nat × Nat)) (p : Option Nat), Linked heap p (cs ++ [x]) →
      ((cs ++ [x]).map Prod.fst).Nodup → new ∉ (cs ++ [x]).map Prod.fst →
      Linked (Function.update (Function.update heap new (some ⟨r, none⟩)) x.1
          (some ⟨x.2, some new⟩)) p (cs ++ [x] ++ [(new, r)]) := by
  intro cs
  induction cs with
  | nil =>
    intro p h _ hnew
    obtain ⟨hp, nx, hx, hnil⟩ := h
    simp only [List.nil_append, List.map_cons, List.map_nil, List.mem_singleton] at hnew
    refine ⟨hp, some new, by simp, rfl, none, ?_, rfl⟩
    show Function.update (Function.update heap new _) x.1 _ new = _
    rw [Function.update_noteq hnew, Function.update_same]
  | cons c rest ih =>
    intro p h hnd hnew
    obtain ⟨hp, nx, hc, hrest⟩ := h
    simp only [List.cons_append, List.map_cons, List.nodup_cons, List.mem_cons, not_or] at hnd hnew
    have hcx : c.1 ≠ x.1 := by
      intro e
      apply hnd.1
      simp [e]
    refine ⟨hp, nx, ?_, ih nx hrest hnd.2 hnew.2⟩
    rw [Function.update_noteq hcx, Function.update_noteq (Ne.symm hnew.1)]
    exact hc

theorem represents_init : Represents init_work_queue [] :=
  ⟨[], rfl, rfl, List.nodup_nil, by simp, rfl⟩

theorem represents_enqueue (q : WORK_QUEUE) (l : List Nat) (r : Nat) (h : Represents q l) :
    Represents (enqueue q r) (l ++ [r]) := by
  obtain ⟨cells, hl, hlink, hnd, hlt, hback⟩ := h
  have hfresh : q.brk ∉ cells.map Prod.fst := by
    intro hm
    obtain ⟨c, hc, e⟩ := List.mem_map.1 hm
    have := hlt c hc
    omega
  rcases List.eq_nil_or_concat cells with hnil | ⟨cs, x, hcs⟩
  · subst hnil
    simp only [List.map_nil, List.getLast?_nil] at hback
    subst hl
    refine ⟨[(q.brk, r)], rfl, ?_, by simp, ?_, ?_⟩
    · simp only [enqueue, hback]
      exact ⟨rfl, none, by simp, rfl⟩
    · simp [enqueue, hback]
    · simp [enqueue, hback]
  · rw [List.concat_eq_append] at hcs
    subst hcs
    have hbk : q.back = some x.1 := by
      rw [hback]; simp
    have hx : q.heap x.1 = some ⟨x.2, none⟩ := linked_last q.heap x cs q.front hlink
    have hxne : x.1 ≠ q.brk := by
      intro e; apply hfresh; simp [← e]
    have hx2 : Function.update q.heap q.brk (some ⟨r, none⟩) x.1 = some ⟨x.2, none⟩ := by
      rw [Function.update_noteq hxne]; exact hx
    refine ⟨cs ++ [x] ++ [(q.brk, r)], by simp [← hl], ?_, ?_, ?_, ?_⟩
    · simp only [enqueue, hbk, hx2]
      exact linked_snoc q.heap x q.brk r cs q.front hlink hnd hfresh
    · rw [List.map_append, List.nodup_append]
      refine ⟨hnd, by simp, ?_⟩
      intro a ha hb
      simp only [List.map_cons, List.map_nil, List.mem_singleton] at hb
      subst hb
      exact hfresh ha
    · intro c hc
      simp only [enqueue, hbk, hx2]
      rcases List.mem_append.1 hc with h1 | h1
      · have := hlt c h1; omega
      · simp only [List.mem_singleton] at h1; subst h1; simp
    · simp [enqueue, hbk, hx2]

theorem linked_none (heap : Nat → Option QUEUE_NODE) (cells : List (Nat × Nat))
    (h : Linked heap none cells) : cells = [] := by
  cases cells with
  | nil => rfl
  | cons c rest => exact absurd h.1 (by simp)

theorem represents_dequeue_cons (q : WORK_QUEUE) (r : Nat) (l : List Nat)
    (h : Represents q (r :: l)) :
    (dequeue q).1 = some r ∧ Represents (dequeue q).2 l := by
  obtain ⟨cells, hl, hlink, hnd, hlt, hback⟩ := h
  cases cells with
  | nil => simp at hl
  | cons c rest =>
    obtain ⟨hp, nx, hc, hrest⟩ := hlink
    simp only [List.map_cons, List.cons.injEq] at hl
    simp only [List.map_cons, List.nodup_cons] at hnd
    have hdq : dequeue q = (some c.2, WORK_QUEUE.mk (Function.update q.heap c.1 none) q.brk
        nx (if nx = none then none else q.back)) := by
      simp [dequeue, hp, hc]
    rw [hdq]
    refine ⟨by simp [hl.1], rest, hl.2, ?_, hnd.2, ?_, ?_⟩
    · exact linked_update_of_not_mem q.heap c.1 none rest nx hnd.1 hrest
    · intro c1 hc1
      exact hlt c1 (List.mem_cons_of_mem _ hc1)
    · show (if nx = none then none else q.back) = _
      split
      · next hnx =>
        rw [hnx] at hrest
        rw [linked_none _ _ hrest]
        rfl
      · next hnx =>
        cases rest with
        | nil => exact absurd hrest hnx
        | cons c2 rest2 =>
          rw [hback]
          simp [List.getLast?_cons_cons]

theorem represents_empty_iff (q : WORK_QUEUE) (l : List Nat) (h : Represents q l) :
    is_work_queue_empty q = true ↔ l = [] := by
  obtain ⟨cells, hl, hlink, _, _, _⟩ := h
  cases cells with
  | nil =>
    have : q.front = none := hlink
    simp [is_work_queue_empty, this, ← hl]
  | cons c rest =>
    simp [is_work_queue_empty, hlink.1, ← hl]

theorem represents_dequeue_nil (q : WORK_QUEUE) (h : Represents q []) :
    dequeue q = (none, q) := by
  obtain ⟨cells, hl, hlink, _, _, _⟩ := h
  cases cells with
  | nil =>
    have : q.front = none := hlink
    simp [dequeue, this]
  | cons c rest => simp at hl

theorem represents_enqueue_all (rs : List Nat) :
    ∀ (q : WORK_QUEUE) (l : List Nat), Represents q l → Represents (enqueue_all q rs) (l ++ rs) := by
  induction rs with
  | nil => intro q l h; simpa [enqueue_all] using h
  | cons r rest ih =>
    intro q l h
    have := ih (enqueue q r) (l ++ [r]) (represents_enqueue q l r h)
    simpa [enqueue_all] using this

theorem represents_dequeue_n (k : Nat) :
    ∀ (q : WORK_QUEUE) (l : List Nat), Represents q l → k ≤ l.length →
      (dequeue_n k q).1 = (l.take k).map some ∧ Represents (dequeue_n k q).2 (l.drop k) := by
  induction k with
  | zero => intro q l h _; exact ⟨rfl, h⟩
  | succ n ih =>
    intro q l h hk
    cases l with
    | nil => simp at hk
    | cons r rest =>
      obtain ⟨h1, h2⟩ := represents_dequeue_cons q r rest h
      obtain ⟨h3, h4⟩ := ih (dequeue q).2 rest h2 (by simpa using hk)
      refine ⟨?_, ?_⟩
      · simp [dequeue_n, h1, h3]
      · simpa [dequeue_n] using h4

/-- C8: the work queue is a FIFO. Starting from a well-formed queue holding `l`, after
`enqueue` of `rs` in turn, `l.length + rs.length` successive `dequeue` calls return the
elements of `l` in order followed by `rs` in order, the next `dequeue` returns NULL, and
`is_work_queue_empty` holds after `k` of these calls exactly when `k` is the number of
elements. -/
theorem work_queue_fifo (q : WORK_QUEUE) (l rs : List Nat) (h : Represents q l) :
    (dequeue_n (l.length + rs.length) (enqueue_all q rs)).1 = (l ++ rs).map some ∧
    (dequeue (dequeue_n (l.length + rs.length) (enqueue_all q rs)).2).1 = none ∧
    ∀ k, k ≤ l.length + rs.length →
      (is_work_queue_empty (dequeue_n k (enqueue_all q rs)).2 = true ↔
        k = l.length + rs.length) := by
  have hall := represents_enqueue_all rs q l h
  have hlen : (l ++ rs).length = l.length + rs.length := List.length_append l rs
  obtain ⟨h1, h2⟩ := represents_dequeue_n (l.length + rs.length) _ _ hall (by rw [hlen])
  refine ⟨?_, ?_, ?_⟩
  · rw [h1, ← hlen, List.take_length]
  · have h3 : Represents (dequeue_n (l.length + rs.length) (enqueue_all q rs)).2 [] := by
      have e : (l ++ rs).drop (l.length + rs.length) = [] := by
        rw [← hlen, List.drop_length]
      rw [← e]; exact h2
    rw [represents_dequeue_nil _ h3]
  · intro k hk
    obtain ⟨_, h4⟩ := represents_dequeue_n k _ _ hall (by rw [hlen]; exact hk)
    rw [represents_empty_iff _ _ h4, List.drop_eq_nil_iff, hlen]
    omega

/-- Witness for `work_queue_fifo`: the queue built by two `enqueue` calls. -/
theorem work_queue_fifo_witness :
    Represents (enqueue (enqueue init_work_queue 7) 3) [7, 3] ∧
    (dequeue_n 3 (enqueue_all (enqueue (enqueue init_work_queue 7) 3) [5])).1
      = [some 7, some 3, some 5] :=
  ⟨represents_enqueue _ _ 3 (represents_enqueue _ _ 7 represents_init),
   (work_queue_fifo _ [7, 3] [5]
      (represents_enqueue _ _ 3 (represents_enqueue _ _ 7 represents_init))).1⟩

theorem linked_unlink (heap : Nat → Option QUEUE_NODE) (x c : Nat × Nat) (nx : Option Nat)
    (rest : List (Nat × Nat)) (hc : heap c.1 = some ⟨c.2, nx⟩) :
    ∀ (pre : List (Nat × Nat)) (p : Option Nat), Linked heap p (pre ++ x :: c :: rest) →
      ((pre ++ x :: c :: rest).map Prod.fst).Nodup →
      Linked (Function.update (Function.update heap x.1 (some ⟨x.2, nx⟩)) c.1 none) p
        (pre ++ x :: rest) := by
  intro pre
  induction pre with
  | nil =>
    intro p h hnd
    obtain ⟨hp, nx0, hx, hp1, nx1, hc1, hrest⟩ := h
    simp only [List.nil_append, List.map_cons, List.nodup_cons, List.mem_cons, not_or] at hnd
    have e : nx1 = nx := by
      rw [hc] at hc1
      simpa using hc1.symm
    subst e
    refine ⟨hp, nx1, ?_, ?_⟩
    · rw [Function.update_noteq hnd.1.1, Function.update_same]
    · exact linked_update_of_not_mem _ c.1 none rest nx1 hnd.2.1
        (linked_update_of_not_mem heap x.1 _ rest nx1 hnd.1.2 hrest)
  | cons y pre ih =>
    intro p h hnd
    obtain ⟨hp, nxy, hy, hrest⟩ := h
    simp only [List.cons_append, List.map_cons, List.nodup_cons, List.map_append,
      List.mem_append, List.mem_cons, not_or] at hnd
    refine ⟨hp, nxy, ?_, ih nxy hrest (by simpa using hnd.2)⟩
    rw [Function.update_noteq hnd.1.2.2.1, Function.update_noteq hnd.1.2.1]
    exact hy

theorem dequeue_recipe_loop_none (target fuel : Nat) (q : WORK_QUEUE) (previous : Option Nat) :
    dequeue_recipe_loop target fuel q previous none = (none, q) := by
  cases fuel <;> rfl

theorem represents_dequeue_recipe_loop (q : WORK_QUEUE) (target : Nat) :
    ∀ (cur pre : List (Nat × Nat)) (fuel : Nat) (p : Option Nat),
      Linked q.heap q.front (pre ++ cur) → Linked q.heap p cur →
      (pre = [] → p = q.front) →
      (∀ pre1 x, pre = pre1 ++ [x] → q.heap x.1 = some ⟨x.2, p⟩) →
      ((pre ++ cur).map Prod.fst).Nodup → (∀ c ∈ pre ++ cur, c.1 < q.brk) →
      q.back = ((pre ++ cur).map Prod.fst).getLast? →
      target ∉ pre.map Prod.snd → cur.length ≤ fuel →
      (dequeue_recipe_loop target fuel q ((pre.map Prod.fst).getLast?) p).1
          = (if target ∈ cur.map Prod.snd then some target else none) ∧
        Represents (dequeue_recipe_loop target fuel q ((pre.map Prod.fst).getLast?) p).2
          (pre.map Prod.snd ++ (cur.map Prod.snd).erase target) := by
  intro cur
  induction cur with
  | nil =>
    intro pre fuel p hall hcur _ _ hnd hlt hback _ _
    have hp : p = none := hcur
    subst hp
    rw [dequeue_recipe_loop_none]
    refine ⟨by simp, pre, by simp, ?_, ?_, ?_, ?_⟩
    · simpa using hall
    · simpa using hnd
    · simpa using hlt
    · simpa using hback
  | cons c rest ih =>
    intro pre fuel p hall hcur hfront hprev hnd hlt hback hpre hfuel
    obtain ⟨hp, nx, hc, hrest⟩ := hcur
    cases fuel with
    | zero => simp at hfuel
    | succ f =>
      subst hp
      by_cases ht : c.2 = target
      · -- the node is unlinked
        subst ht
        have hres : dequeue_recipe_loop c.2 (f + 1) q ((pre.map Prod.fst).getLast?) (some c.1)
            = (some c.2, WORK_QUEUE.mk
                (Function.update
                  (match (pre.map Prod.fst).getLast? with
                    | none => q.heap
                    | some p =>
                      match q.heap p with
                      | some pn => Function.update q.heap p (some { pn with next := nx })
                      | none => q.heap) c.1 none)
                q.brk
                (match (pre.map Prod.fst).getLast? with
                  | none => nx
                  | some _ => q.front)
                (if nx = none then (pre.map Prod.fst).getLast? else q.back)) := by
          simp only [dequeue_recipe_loop, hc, if_true]
        rw [hres]
        refine ⟨by simp, ?_⟩
        have herase : (List.map Prod.snd (c :: rest)).erase c.2 = rest.map Prod.snd := by
          simp
        rw [herase]
        rcases List.eq_nil_or_concat pre with hnil | ⟨pre1, x, hx⟩
        · subst hnil
          simp only [List.map_nil, List.getLast?_nil, List.nil_append] at *
          simp only [List.map_cons, List.nodup_cons] at hnd
          refine ⟨rest, rfl, ?_, hnd.2, ?_, ?_⟩
          · exact linked_update_of_not_mem q.heap c.1 none rest nx hnd.1 hrest
          · intro c1 hc1
            exact hlt c1 (List.mem_cons_of_mem _ hc1)
          · show (if nx = none then none else q.back) = _
            split
            · next hnx =>
              rw [hnx] at hrest
              rw [linked_none _ _ hrest]
              rfl
            · next hnx =>
              cases rest with
              | nil => exact absurd hrest hnx
              | cons c2 rest2 =>
                rw [hback]
                simp [List.getLast?_cons_cons]
        · rw [List.concat_eq_append] at hx
          subst hx
          have hxh := hprev pre1 x rfl
          have hlast : (List.map Prod.fst (pre1 ++ [x])).getLast? = some x.1 := by simp
          simp only [hlast, hxh]
          have hall2 : Linked q.heap q.front (pre1 ++ x :: c :: rest) := by
            simpa using hall
          have hnd2 : ((pre1 ++ x :: c :: rest).map Prod.fst).Nodup := by
            simpa using hnd
          refine ⟨pre1 ++ x :: rest, by simp, ?_, ?_, ?_, ?_⟩
          · exact linked_unlink q.heap x c nx rest hc pre1 q.front hall2 hnd2
          · have hsub : List.Sublist ((pre1 ++ x :: rest).map Prod.fst)
                ((pre1 ++ x :: c :: rest).map Prod.fst) := by
              apply List.Sublist.map
              apply List.Sublist.append_left
              exact List.Sublist.cons₂ _ (List.sublist_cons_self _ _)
            exact hnd2.sublist hsub
          · intro c1 hc1
            apply hlt c1
            simp only [List.mem_append, List.mem_cons, List.mem_singleton] at hc1 ⊢
            tauto
          · show (if nx = none then some x.1 else q.back) = _
            split
            · next hnx =>
              rw [hnx] at hrest
              rw [linked_none _ _ hrest]
              simp
            · next hnx =>
              cases rest with
              | nil => exact absurd hrest hnx
              | cons c2 rest2 =>
                rw [hback]
                simp [List.getLast?_append, List.getLast?_cons_cons]
      · -- move on to the next node
        have hres : dequeue_recipe_loop target (f + 1) q ((pre.map Prod.fst).getLast?) (some c.1)
            = dequeue_recipe_loop target f q (some c.1) nx := by
          simp only [dequeue_recipe_loop, hc, ht, if_false]
        rw [hres]
        have hlast : ((pre ++ [c]).map Prod.fst).getLast? = some c.1 := by simp
        have := ih (pre ++ [c]) f nx (by simpa using hall) hrest (by simp)
          (by
            intro pre1 x hx
            obtain ⟨_, e⟩ := List.append_inj' hx rfl
            simp only [List.cons.injEq, and_true] at e
            subst e
            exact hc)
          (by simpa using hnd) (by simpa using hlt) (by simpa using hback)
          (by
            simp only [List.map_append, List.map_cons, List.map_nil, List.mem_append,
              List.mem_singleton, not_or]
            exact ⟨hpre, fun e => ht e.symm⟩)
          (by simpa using hfuel)
        rw [hlast] at this
        obtain ⟨h1, h2⟩ := this
        refine ⟨?_, ?_⟩
        · rw [h1]
          have ht2 : ¬ target = c.2 := fun e => ht e.symm
          by_cases hm : target ∈ rest.map Prod.snd
          · rw [if_pos hm, if_pos (by simp [hm])]
          · rw [if_neg hm, if_neg (by simpa [ht2] using hm)]
        · have e : (List.map Prod.snd (c :: rest)).erase target
              = c.2 :: (rest.map Prod.snd).erase target := by
            rw [List.map_cons, List.erase_cons_tail]
            simpa using ht
          rw [e]
          simpa using h2

theorem nodup_length_le (l : List Nat) (n : Nat) (hnd : l.Nodup) (hlt : ∀ a ∈ l, a < n) :
    l.length ≤ n := by
  have h1 : l.toFinset.card = l.length := List.toFinset_card_of_nodup hnd
  have h2 : l.toFinset ⊆ Finset.range n := by
    intro a ha
    simp only [List.mem_toFinset] at ha
    simpa using hlt a ha
  have h3 := Finset.card_le_card h2
  rw [Finset.card_range] at h3
  omega

theorem represents_dequeue_recipe (q : WORK_QUEUE) (l : List Nat) (target : Nat)
    (h : Represents q l) :
    (dequeue_recipe q target).1 = (if target ∈ l then some target else none) ∧
      Represents (dequeue_recipe q target).2 (l.erase target) := by
  obtain ⟨cells, hl, hlink, hnd, hlt, hback⟩ := h
  cases hf : q.front with
  | none =>
    rw [hf] at hlink
    have := linked_none _ _ hlink
    subst this
    subst hl
    simp only [dequeue_recipe, hf]
    exact ⟨by simp, [], rfl, by rw [hf]; rfl, by simp, by simp, by simpa using hback⟩
  | some a =>
    have hlen : cells.length ≤ q.brk := by
      have := nodup_length_le (cells.map Prod.fst) q.brk hnd (by
        intro a ha
        obtain ⟨c, hc, e⟩ := List.mem_map.1 ha
        rw [← e]; exact hlt c hc)
      simpa using this
    have := represents_dequeue_recipe_loop q target cells [] q.brk q.front
      (by simpa using hlink) hlink (fun _ => rfl) (by intro pre1 x hx; simp at hx)
      (by simpa using hnd) (by simpa using hlt) (by simpa using hback) (by simp) hlen
    simp only [List.map_nil, List.getLast?_nil, List.nil_append, hl] at this
    simp only [dequeue_recipe, hf]
    rw [hf] at this
    exact this

/-! ## The code on concrete cookbooks -/

/-- C2, the code at failing inputs: with enough fuel `check_circular_tree_cycle` returns 0
(no error) for the target A of the two-recipe cycle A → B → A, for a target above a cycle,
and for a target above a recipe that depends on itself; for the target above a cycle `main`
then runs the build and exits 0 after building only the leaf L. -/
theorem check_circular_tree_cycle_misses_cycle (n : Nat) :
    RES.map Prod.fst (check_circular_tree_cycle cookbook_two_cycle (n + 3) 0 all_null)
      = RES.ok 0 ∧
    RES.map Prod.fst (check_circular_tree_cycle cookbook_cycle_below (n + 5) 0 all_null)
      = RES.ok 0 ∧
    RES.map Prod.fst (check_circular_tree_cycle cookbook_self_loop_below (n + 3) 0 all_null)
      = RES.ok 0 ∧
    observe (main cookbook_cycle_below 0 1 20
        [⟨100, []⟩, ⟨0, [(100, WSTATUS.exited 0)]⟩] all_null)
      = { ending := "exit 0", completed_recipes := [some 3], queue := [],
          events := [EVENT.forked 3 100, EVENT.waited 100 3 (WSTATUS.exited 0),
            EVENT.updated] } :=
  ⟨rfl, rfl, rfl, by decide⟩

/-- C10, the code at a failing input: the target T depends on A and A has a dependency link
with a null recipe; with enough fuel `check_circular_tree_cycle(T)` returns 0. -/
theorem check_circular_tree_cycle_misses_dangling (n : Nat) :
    RES.map Prod.fst (check_circular_tree_cycle cookbook_dangling_below (n + 3) 0 all_null)
      = RES.ok 0 :=
  rfl

/-- C9, the code at a failing input: the target A is the second recipe of the cookbook and
depends on the first recipe B. Both `check_circular_tree_cycle(A)` and
`stack_analysis_traversal(A, queue)` visit B and return with B's state still `(void *)1`,
while A's state is reset. -/
theorem reset_misses_recipes_before_target (n : Nat) :
    RES.map (fun r => (r.1, r.2 0, r.2 1))
        (check_circular_tree_cycle cookbook_dep_first (n + 3) 1 all_null)
      = RES.ok (0, STATE.ONE, STATE.NULL) ∧
    RES.map (fun t => (t.visited, t.states 0, t.states 1))
        (stack_analysis_traversal cookbook_dep_first (n + 3) 1 init_work_queue all_null)
      = RES.ok ([1, 0], STATE.ONE, STATE.NULL) :=
  ⟨rfl, rfl⟩

/-- C1, the code at a failing input: the cookbook T → X → A, T → Y → B is legal (inverse
edges consistent, every dependency has a larger index, so no cycle), two cooks; the workers
of B and A are reaped in the same collector pass. `main` exits 0 with
`completed_recipes = [B, A, X]`: the target T and Y were never dispatched. -/
theorem main_exits_zero_without_building_target :
    consistent_edges cookbook_two_branches ∧
    (∀ a, a < 5 → ∀ b, some b ∈ deps cookbook_two_branches a → a < b) ∧
    observe (main cookbook_two_branches 0 2 20
        [⟨100, []⟩, ⟨101, []⟩, ⟨0, [(100, WSTATUS.exited 0), (101, WSTATUS.exited 0)]⟩,
         ⟨102, []⟩, ⟨0, [(102, WSTATUS.exited 0)]⟩] all_null)
      = { ending := "exit 0", completed_recipes := [some 4, some 3, some 1], queue := [],
          events := [EVENT.forked 4 100, EVENT.forked 3 101,
            EVENT.waited 100 4 (WSTATUS.exited 0), EVENT.waited 101 3 (WSTATUS.exited 0),
            EVENT.updated, EVENT.forked 1 102, EVENT.waited 102 1 (WSTATUS.exited 0),
            EVENT.updated] } := by
  refine ⟨by decide, ?_, by decide⟩
  intro a ha b hb
  have h : ∀ a, a < 5 → ∀ d ∈ deps cookbook_two_branches a, ∀ b, d = some b → a < b := by
    decide
  exact h a ha (some b) hb b rfl

/-- C5, the code at a failing input: in the cookbook T → X → A, T → Y → B the workers of B
(pid 100) and A (pid 101) are reaped in one collector pass. Both are appended to
`completed_recipes`, `update_work_queue` is called once, and afterwards the queue holds X
(whose only dependency is A) but not Y (whose only dependency is B). -/
theorem collector_pass_saturates_last_only :
    observe (main cookbook_two_branches 0 2 20
        [⟨100, []⟩, ⟨101, []⟩, ⟨0, [(100, WSTATUS.exited 0), (101, WSTATUS.exited 0)]⟩]
        all_null)
      = { ending := "running", completed_recipes := [some 4, some 3], queue := [1],
          events := [EVENT.forked 4 100, EVENT.forked 3 101,
            EVENT.waited 100 4 (WSTATUS.exited 0), EVENT.waited 101 3 (WSTATUS.exited 0),
            EVENT.updated] } := by
  decide

/-! ## The dependency analysis visits the closure of the target -/

theorem push_unvisited_ok (st : STATES) :
    ∀ (links : List (Option Nat)) (stack : STACK) (count : Nat), none ∉ links →
      ∃ stack1 count1, push_unvisited st links stack count = RES.ok (stack1, count1) ∧
        (∀ x, x ∈ stack1 ↔ x ∈ stack ∨ (some x ∈ links ∧ is_visited st x = false)) ∧
        stack1.length ≤ stack.length + links.length := by
  intro links
  induction links with
  | nil =>
    intro stack count _
    exact ⟨stack, count, rfl, by simp, by simp⟩
  | cons d rest ih =>
    intro stack count hnone
    simp only [List.mem_cons, not_or] at hnone
    cases d with
    | none => exact absurd rfl hnone.1
    | some d =>
      by_cases hv : is_visited st d = true
      · obtain ⟨stack1, count1, h1, h2, h3⟩ := ih stack count hnone.2
        refine ⟨stack1, count1, by simp [push_unvisited, hv, h1], ?_, ?_⟩
        · intro x
          rw [h2 x]
          constructor
          · rintro (h | ⟨h, h'⟩)
            · exact Or.inl h
            · exact Or.inr ⟨List.mem_cons_of_mem _ h, h'⟩
          · rintro (h | ⟨h, h'⟩)
            · exact Or.inl h
            · rcases List.mem_cons.1 h with e | h
              · simp only [Option.some.injEq] at e
                subst e
                rw [hv] at h'
                exact absurd h' (by simp)
              · exact Or.inr ⟨h, h'⟩
        · simp only [List.length_cons]; omega
      · obtain ⟨stack1, count1, h1, h2, h3⟩ := ih (push stack d) (count + 1) hnone.2
        refine ⟨stack1, count1, by simp [push_unvisited, hv, h1], ?_, ?_⟩
        · intro x
          rw [h2 x]
          simp only [push, List.mem_cons]
          constructor
          · rintro ((e | h) | ⟨h, h'⟩)
            · subst e
              exact Or.inr ⟨Or.inl rfl, by simpa using hv⟩
            · exact Or.inl h
            · exact Or.inr ⟨Or.inr h, h'⟩
          · rintro (h | ⟨h | h, h'⟩)
            · exact Or.inl (Or.inr h)
            · simp only [Option.some.injEq] at h
              exact Or.inl (Or.inl h)
            · exact Or.inr ⟨h, h'⟩
        · simp only [push, List.length_cons] at h3 ⊢; omega

theorem sum_map_update (f g : Nat → Nat) (c : Nat) (hg : ∀ x, x ≠ c → g x = f x) (hc : g c = 0) :
    ∀ l : List Nat, l.Nodup →
      (l.map g).sum + (if c ∈ l then f c else 0) = (l.map f).sum := by
  intro l
  induction l with
  | nil => intro _; simp
  | cons a rest ih =>
    intro hnd
    simp only [List.nodup_cons] at hnd
    have := ih hnd.2
    by_cases hac : a = c
    · subst hac
      have hn : a ∉ rest := hnd.1
      simp only [hn, if_false, add_zero] at this
      simp only [List.map_cons, List.sum_cons, List.mem_cons, true_or, if_true, hc, this]
      omega
    · have hca : ¬ c = a := fun e => hac e.symm
      simp only [List.map_cons, List.sum_cons, List.mem_cons, hca, false_or, hg a hac]
      omega

theorem unvisited_links_mark (cb : COOKBOOK) (st : STATES) (c : Nat)
    (hv : is_visited st c = false) :
    unvisited_links cb (mark_visited st c) + (deps cb c).length = unvisited_links cb st := by
  unfold unvisited_links
  have h := sum_map_update (fun r => if is_visited st r then 0 else (deps cb r).length)
    (fun r => if is_visited (mark_visited st c) r then 0 else (deps cb r).length) c
    (by
      intro x hx
      simp [is_visited, mark_visited, Function.update_noteq hx])
    (by simp [is_visited, mark_visited])
    (List.range cb.recipes.length) (List.nodup_range _)
  simp only [hv] at h
  by_cases hc : c ∈ List.range cb.recipes.length
  · simpa [hc] using h
  · have hd : deps cb c = [] := by
      simp only [List.mem_range, not_lt] at hc
      simp [deps, List.getElem?_eq_none hc]
    simpa [hc, hd] using h

theorem unvisited_links_all_null (cb : COOKBOOK) (st : STATES) (h : ∀ r, st r = STATE.NULL) :
    unvisited_links cb st = total_links cb := by
  unfold unvisited_links total_links
  congr 1
  apply List.map_congr_left
  intro r _
  simp [is_visited, h r]

theorem filter_leaf_append (cb : COOKBOOK) (visited : List Nat) (c : Nat) :
    (visited ++ [c]).filter (fun r => decide (deps cb r = []))
      = visited.filter (fun r => decide (deps cb r = []))
        ++ (if deps cb c = [] then [c] else []) := by
  rw [List.filter_append]
  by_cases h : deps cb c = [] <;> simp [List.filter, h]

theorem traversal_body_inv (cb : COOKBOOK) (target : Nat) (l0 : List Nat) (s : TRAVERSAL)
    (current : Nat) (stack1 : STACK)
    (hlinks : ∀ r, in_closure cb target r → none ∉ deps cb r)
    (hs : s.stack = current :: stack1) (inv : TRAVERSAL.Inv cb target l0 s) :
    ∃ s1, traversal_body cb s current stack1 = RES.ok s1 ∧ TRAVERSAL.Inv cb target l0 s1 ∧
      s1.stack.length + unvisited_links cb s1.states
        < s.stack.length + unvisited_links cb s.states := by
  have hcur : in_closure cb target current := inv.stack_closure current (by simp [hs])
  by_cases hv : is_visited s.states current = true
  · refine ⟨{ s with stack := stack1 }, by simp [traversal_body, hv], ?_, by simp [hs]⟩
    have hcv : current ∈ s.visited := (inv.marked current).1 hv
    refine ⟨inv.marked, inv.nodup, inv.visited_closure, ?_, ?_, ?_, inv.queue⟩
    · intro r hr
      exact inv.stack_closure r (by simp [hs, hr])
    · intro r hr d hd
      rcases inv.closed r hr d hd with h | h
      · exact Or.inl h
      · rw [hs] at h
        rcases List.mem_cons.1 h with e | h
        · exact Or.inl (e ▸ hcv)
        · exact Or.inr h
    · rcases inv.target_seen with h | h
      · exact Or.inl h
      · rw [hs] at h
        rcases List.mem_cons.1 h with e | h
        · exact Or.inl (e ▸ hcv)
        · exact Or.inr h
  · have hvf : is_visited s.states current = false := by simpa using hv
    obtain ⟨stack2, count2, hpush, hmem, hlen⟩ :=
      push_unvisited_ok (mark_visited s.states current) (deps cb current) stack1
        s.recipe_count (hlinks current hcur)
    have hcn : current ∉ s.visited := fun h => hv ((inv.marked current).2 h)
    have hmark : ∀ r, is_visited (mark_visited s.states current) r = true
        ↔ r ∈ s.visited ++ [current] := by
      intro r
      by_cases e : r = current
      · subst e
        simp [is_visited, mark_visited]
      · have : is_visited (mark_visited s.states current) r = is_visited s.states r := by
          simp [is_visited, mark_visited, Function.update_noteq e]
        rw [this, inv.marked r]
        simp [e]
    refine ⟨_, by simp only [traversal_body, hv, hpush]; rfl, ?_, ?_⟩
    · refine ⟨hmark, ?_, ?_, ?_, ?_, ?_, ?_⟩
      · rw [List.nodup_append]
        exact ⟨inv.nodup, by simp, by
          intro a ha hb
          simp only [List.mem_singleton] at hb
          subst hb
          exact hcn ha⟩
      · intro r hr
        rcases List.mem_append.1 hr with h | h
        · exact inv.visited_closure r h
        · simp only [List.mem_singleton] at h
          exact h ▸ hcur
      · intro r hr
        rcases (hmem r).1 hr with h | ⟨h, _⟩
        · exact inv.stack_closure r (by simp [hs, h])
        · exact Relation.ReflTransGen.tail hcur h
      · intro r hr d hd
        show d ∈ s.visited ++ [current] ∨ d ∈ stack2
        by_cases hdv : is_visited (mark_visited s.states current) d = true
        · exact Or.inl ((hmark d).1 hdv)
        · have hdf : is_visited (mark_visited s.states current) d = false := by simpa using hdv
          rcases List.mem_append.1 hr with h | h
          · rcases inv.closed r h d hd with h1 | h1
            · exact Or.inl (List.mem_append_left _ h1)
            · rw [hs] at h1
              rcases List.mem_cons.1 h1 with e | h1
              · exact Or.inl (by simp [e])
              · exact Or.inr ((hmem d).2 (Or.inl h1))
          · simp only [List.mem_singleton] at h
            subst h
            exact Or.inr ((hmem d).2 (Or.inr ⟨hd, hdf⟩))
      · show target ∈ s.visited ++ [current] ∨ target ∈ stack2
        rcases inv.target_seen with h | h
        · exact Or.inl (List.mem_append_left _ h)
        · rw [hs] at h
          rcases List.mem_cons.1 h with e | h
          · exact Or.inl (by simp [e])
          · exact Or.inr ((hmem target).2 (Or.inl h))
      · show Represents (if deps cb current = [] then enqueue s.work_queue current
            else s.work_queue) (l0 ++ (s.visited ++ [current]).filter _)
        rw [filter_leaf_append]
        by_cases hl : deps cb current = []
        · rw [if_pos hl, if_pos hl, ← List.append_assoc]
          exact represents_enqueue _ _ _ inv.queue
        · rw [if_neg hl, if_neg hl, List.append_nil]
          exact inv.queue
    · show stack2.length + unvisited_links cb (mark_visited s.states current) < _
      have := unvisited_links_mark cb s.states current hvf
      rw [hs]
      simp only [List.length_cons]
      omega

theorem traversal_loop_ok (cb : COOKBOOK) (target : Nat) (l0 : List Nat)
    (hlinks : ∀ r, in_closure cb target r → none ∉ deps cb r) :
    ∀ (fuel : Nat) (s : TRAVERSAL), TRAVERSAL.Inv cb target l0 s →
      s.stack.length + unvisited_links cb s.states < fuel →
      ∃ t, traversal_loop cb fuel s = RES.ok t ∧ TRAVERSAL.Inv cb target l0 t ∧ t.stack = [] := by
  intro fuel
  induction fuel with
  | zero => intro s _ h; omega
  | succ n ih =>
    intro s inv hfuel
    cases hs : s.stack with
    | nil => exact ⟨s, by simp [traversal_loop, pop, hs], inv, hs⟩
    | cons current stack1 =>
      obtain ⟨s1, hbody, inv1, hlt⟩ := traversal_body_inv cb target l0 s current stack1 hlinks hs inv
      obtain ⟨t, ht, invt, hst⟩ := ih s1 inv1 (by omega)
      exact ⟨t, by simp [traversal_loop, pop, hs, hbody, ht], invt, hst⟩

theorem inv_visited_iff (cb : COOKBOOK) (target : Nat) (l0 : List Nat) (t : TRAVERSAL)
    (inv : TRAVERSAL.Inv cb target l0 t) (hst : t.stack = []) (r : Nat) :
    r ∈ t.visited ↔ in_closure cb target r := by
  constructor
  · exact inv.visited_closure r
  · intro h
    induction h with
    | refl =>
      rcases inv.target_seen with h | h
      · exact h
      · rw [hst] at h; simp at h
    | tail _ hd ih =>
      rcases inv.closed _ ih _ hd with h | h
      · exact h
      · rw [hst] at h; simp at h

/-- C7: for a target whose closure has no null link, a queue holding `l0` and all states
NULL on entry, `stack_analysis_traversal` returns (any fuel of at least the number of links
plus 2 is enough) and the queue then holds `l0` followed by the leaves among the visited
recipes, in visit order; the visited recipes are pairwise distinct and are exactly the
recipes of the `depends_on`-closure of the target. So exactly the reachable recipes with an
empty `depends_on` list are appended, each once, and no recipe with dependencies is. -/
theorem stack_analysis_traversal_enqueues_leaves (cb : COOKBOOK) (target : Nat)
    (work_queue : WORK_QUEUE) (l0 : List Nat) (st : STATES) (fuel : Nat)
    (hq : Represents work_queue l0) (hst : ∀ r, st r = STATE.NULL)
    (hlinks : ∀ r, in_closure cb target r → none ∉ deps cb r)
    (hfuel : total_links cb + 2 ≤ fuel) :
    ∃ t, stack_analysis_traversal cb fuel target work_queue st = RES.ok t ∧
      Represents t.work_queue (l0 ++ t.visited.filter (fun r => decide (deps cb r = []))) ∧
      t.visited.Nodup ∧ ∀ r, r ∈ t.visited ↔ in_closure cb target r := by
  have inv0 : TRAVERSAL.Inv cb target l0
      { stack := push [] target, states := st, work_queue := work_queue, recipe_count := 1,
        visited := [] } := by
    refine ⟨?_, List.nodup_nil, by simp, ?_, by simp, Or.inr (by simp [push]), by simpa using hq⟩
    · intro r; simp [is_visited, hst r]
    · intro r hr
      simp only [push, List.mem_singleton] at hr
      subst hr
      exact Relation.ReflTransGen.refl
  obtain ⟨t, ht, invt, hstack⟩ := traversal_loop_ok cb target l0 hlinks fuel _ inv0 (by
    rw [unvisited_links_all_null cb st hst]
    simp only [push, List.length_singleton]
    omega)
  refine ⟨{ t with states := initialize_recipe_states cb (some target) t.states }, ?_,
    invt.queue, invt.nodup, inv_visited_iff cb target l0 t invt hstack⟩
  simp [stack_analysis_traversal, ht]

theorem deps_mem_recipes (cb : COOKBOOK) (r : Nat) (d : Option Nat) (h : d ∈ deps cb r) :
    ∃ x ∈ cb.recipes, d ∈ x.this_depends_on := by
  unfold deps at h
  cases hx : cb.recipes[r]? with
  | none => simp [hx] at h
  | some x =>
    simp only [hx] at h
    exact ⟨x, List.getElem?_mem hx, h⟩

/-- Witness for `stack_analysis_traversal_enqueues_leaves`: the cookbook with two branches. -/
theorem stack_analysis_traversal_enqueues_leaves_witness :
    ∃ t, stack_analysis_traversal cookbook_two_branches 10 0 init_work_queue all_null
        = RES.ok t ∧
      Represents t.work_queue
        ([] ++ t.visited.filter (fun r => decide (deps cookbook_two_branches r = []))) ∧
      t.visited.Nodup ∧ ∀ r, r ∈ t.visited ↔ in_closure cookbook_two_branches 0 r :=
  stack_analysis_traversal_enqueues_leaves cookbook_two_branches 0 init_work_queue []
    all_null 10 represents_init (fun _ => rfl)
    (by
      intro r _ hmem
      obtain ⟨x, hx, hd⟩ := deps_mem_recipes _ _ _ hmem
      have hall : ∀ x ∈ cookbook_two_branches.recipes, none ∉ x.this_depends_on := by decide
      exact hall x hx hd)
    (by decide)

/-! ## The scheduler: bookkeeping of workers and failure handling -/

theorem forks_append (a b : List EVENT) : forks (a ++ b) = forks a + forks b := by
  induction a with
  | nil => simp [forks]
  | cons e rest ih => cases e <;> simp [forks, ih]; omega

theorem waits_append (a b : List EVENT) : waits (a ++ b) = waits a + waits b := by
  induction a with
  | nil => simp [waits]
  | cons e rest ih => cases e <;> simp [waits, ih]; omega

/-- What `dispatch` does when the loop goes on. -/
theorem dispatch_continue (s s1 : SCHED) (fork_pid : Int)
    (h : dispatch s fork_pid = ITER.continue s1) :
    ∃ recipe, (dequeue s.work_queue).1 = some recipe ∧
      fork_pid ∉ s.children.map Prod.fst ∧ 0 < fork_pid ∧
      s.states recipe ≠ STATE.ONE ∧
      s1.work_queue = (dequeue s.work_queue).2 ∧
      s1.states = Function.update s.states recipe (STATE.CELL fork_pid) ∧
      s1.active_cooks = s.active_cooks + 1 ∧
      s1.completed_recipes = s.completed_recipes ∧
      s1.children = s.children ++ [(fork_pid, recipe)] ∧
      s1.events = s.events ++ [EVENT.forked recipe fork_pid] := by
  unfold dispatch at h
  rcases hd : dequeue s.work_queue with ⟨r, q1⟩
  rw [hd] at h
  cases r with
  | none => simp at h
  | some recipe =>
    simp only at h
    split at h
    · simp at h
    · next hmem =>
      split at h
      · simp at h
      · split at h
        · next hpos =>
          cases hst : s.states recipe with
          | NULL =>
            simp [hst, set_pid_of_recipe] at h
            subst h
            exact ⟨recipe, rfl, hmem, hpos, by simp [hst], rfl, by simp, rfl, rfl, rfl, rfl⟩
          | ONE => simp [hst, set_pid_of_recipe] at h
          | CELL p =>
            simp [hst, set_pid_of_recipe] at h
            subst h
            exact ⟨recipe, rfl, hmem, hpos, by simp [hst], rfl, rfl, rfl, rfl, rfl, rfl⟩
        · simp at h

theorem exited_zero_of_test (status : WSTATUS)
    (h : (WIFEXITED status && WEXITSTATUS status == 0) = true) : status = WSTATUS.exited 0 := by
  cases status with
  | exited code =>
    simp [WIFEXITED, WEXITSTATUS] at h
    rw [h]
  | signaled sig => simp [WIFEXITED] at h

/-- One round of the `waitpid` loop when the loop goes on. -/
theorem reap_loop_cons_continue (cb : COOKBOOK) (recipe_selected : Nat) (pid : Int)
    (status : WSTATUS) (rest : List (Int × WSTATUS)) (s s2 : SCHED)
    (h : reap_loop cb recipe_selected ((pid, status) :: rest) s = ITER.continue s2) :
    ∃ worker_of recipe, s.children.lookup pid = some worker_of ∧
      status = WSTATUS.exited 0 ∧ get_recipe_by_pid cb s.states pid = RES.ok recipe ∧
      reap_loop cb recipe_selected rest (s.after_reap pid worker_of status recipe)
        = ITER.continue s2 := by
  unfold reap_loop at h
  cases hl : s.children.lookup pid with
  | none => simp [hl] at h
  | some worker_of =>
    simp only [hl] at h
    split at h
    · next htest =>
      cases hg : get_recipe_by_pid cb s.states pid with
      | ok recipe =>
        simp only [hg] at h
        exact ⟨worker_of, recipe, rfl, exited_zero_of_test status htest, rfl, h⟩
      | fault => simp [hg] at h
      | diverge => simp [hg] at h
    · split at h <;> simp at h

/-- Induction along the `waitpid` loop. -/
theorem reap_loop_induct (cb : COOKBOOK) (recipe_selected : Nat) (P : SCHED → Prop)
    (hstep : ∀ s pid worker_of recipe, P s → s.children.lookup pid = some worker_of →
      get_recipe_by_pid cb s.states pid = RES.ok recipe →
      P (s.after_reap pid worker_of (WSTATUS.exited 0) recipe)) :
    ∀ (reaped : List (Int × WSTATUS)) (s s1 : SCHED), P s →
      reap_loop cb recipe_selected reaped s = ITER.continue s1 → P s1 := by
  intro reaped
  induction reaped with
  | nil =>
    intro s s1 hp h
    simp only [reap_loop, ITER.continue.injEq] at h
    exact h ▸ hp
  | cons e rest ih =>
    intro s s1 hp h
    obtain ⟨pid, status⟩ := e
    obtain ⟨w, recipe, hl, hst, hg, hrest⟩ := reap_loop_cons_continue cb recipe_selected pid
      status rest s s1 h
    subst hst
    exact ih _ s1 (hstep s pid w recipe hp hl hg) hrest

theorem lookup_of_mem (children : List (Int × Nat)) (hnd : (children.map Prod.fst).Nodup)
    (p : Int) (r : Nat) (h : (p, r) ∈ children) : children.lookup p = some r := by
  induction children with
  | nil => simp at h
  | cons c rest ih =>
    obtain ⟨p1, r1⟩ := c
    simp only [List.map_cons, List.nodup_cons] at hnd
    rcases List.mem_cons.1 h with e | h2
    · simp only [Prod.mk.injEq] at e
      obtain ⟨e1, e2⟩ := e
      subst e1; subst e2
      simp [List.lookup]
    · have hne : p ≠ p1 := by
        intro e
        apply hnd.1
        rw [← e]
        exact List.mem_map.2 ⟨(p, r), h2, rfl⟩
      have hb : (p == p1) = false := by simpa using hne
      simp only [List.lookup, hb]
      exact ih hnd.2 h2

theorem mem_of_lookup (children : List (Int × Nat)) (p : Int) (r : Nat)
    (h : children.lookup p = some r) : (p, r) ∈ children := by
  induction children with
  | nil => simp [List.lookup] at h
  | cons c rest ih =>
    obtain ⟨p1, r1⟩ := c
    by_cases e : p = p1
    · subst e
      simp [List.lookup] at h
      subst h
      exact List.mem_cons_self _ _
    · have hb : (p == p1) = false := by simpa using e
      simp only [List.lookup, hb] at h
      exact List.mem_cons_of_mem _ (ih h)

theorem filter_length_of_lookup (children : List (Int × Nat))
    (hnd : (children.map Prod.fst).Nodup) (pid : Int) (w : Nat)
    (h : children.lookup pid = some w) :
    (children.filter (fun c => c.1 ≠ pid)).length + 1 = children.length := by
  induction children with
  | nil => simp [List.lookup] at h
  | cons c rest ih =>
    obtain ⟨p1, r1⟩ := c
    simp only [List.map_cons, List.nodup_cons] at hnd
    by_cases e : pid = p1
    · subst e
      have hall : rest.filter (fun c => c.1 ≠ pid) = rest := by
        apply List.filter_eq_self.2
        intro c hc
        have : c.1 ≠ pid := by
          intro e
          exact hnd.1 (List.mem_map.2 ⟨c, hc, e⟩)
        simpa using this
      rw [List.filter_cons_of_neg (by simp), hall]
      simp
    · have hb : (pid == p1) = false := by simpa using e
      simp only [List.lookup, hb] at h
      have := ih hnd.2 h
      have hne : p1 ≠ pid := fun e1 => e e1.symm
      rw [List.filter_cons_of_pos (by simpa using hne)]
      simp only [List.length_cons]
      omega

theorem filter_pids_nodup (children : List (Int × Nat)) (pid : Int)
    (hnd : (children.map Prod.fst).Nodup) :
    ((children.filter (fun c => c.1 ≠ pid)).map Prod.fst).Nodup :=
  hnd.sublist (List.Sublist.map _ (List.filter_sublist _))

theorem counted_after_reap (max_cooks : Int) (s : SCHED) (pid : Int) (w : Nat)
    (status : WSTATUS) (recipe : Option Nat) (h : s.Counted max_cooks)
    (hl : s.children.lookup pid = some w) :
    (s.after_reap pid w status recipe).Counted max_cooks := by
  have hlen := filter_length_of_lookup s.children h.pids_nodup pid w hl
  refine ⟨filter_pids_nodup _ _ h.pids_nodup, ?_, ?_, ?_⟩
  · show s.active_cooks - 1 = ((s.children.filter (fun c => c.1 ≠ pid)).length : Int)
    have := h.live
    omega
  · show s.active_cooks - 1 = (forks (s.events ++ [EVENT.waited pid w status]) : Int)
      - (waits (s.events ++ [EVENT.waited pid w status]) : Int)
    rw [forks_append, waits_append]
    have := h.trace
    simp only [forks, waits]
    omega
  · show s.active_cooks - 1 ≤ max_cooks
    have := h.bound
    omega

theorem counted_reap_loop (cb : COOKBOOK) (max_cooks : Int) (recipe_selected : Nat)
    (reaped : List (Int × WSTATUS)) (s s1 : SCHED) (h : s.Counted max_cooks)
    (hr : reap_loop cb recipe_selected reaped s = ITER.continue s1) : s1.Counted max_cooks :=
  reap_loop_induct cb recipe_selected (fun s => s.Counted max_cooks)
    (fun s pid w recipe hp hl _ => counted_after_reap max_cooks s pid w _ recipe hp hl)
    reaped s s1 h hr

/-- What `collect` does when the loop goes on. -/
theorem collect_continue (cb : COOKBOOK) (recipe_selected fuel : Nat) (s s2 : SCHED)
    (reaped : List (Int × WSTATUS))
    (h : collect cb recipe_selected fuel s reaped = ITER.continue s2) :
    ∃ s1 work_queue, reap_loop cb recipe_selected reaped s = ITER.continue s1 ∧
      update_work_queue cb fuel s1.states s1.work_queue s1.completed_recipes recipe_selected
        = RES.ok work_queue ∧
      s2 = { s1 with work_queue := work_queue, events := s1.events ++ [EVENT.updated] } := by
  unfold collect at h
  cases hr : reap_loop cb recipe_selected reaped s with
  | «continue» s1 =>
    simp only [hr] at h
    cases hu : update_work_queue cb fuel s1.states s1.work_queue s1.completed_recipes
        recipe_selected with
    | ok work_queue =>
      simp only [hu, ITER.continue.injEq] at h
      exact ⟨s1, work_queue, rfl, hu, h.symm⟩
    | fault => simp [hu] at h
    | diverge => simp [hu] at h
  | «break» s1 => simp [hr] at h
  | exit_failure s1 => simp [hr] at h
  | abort s1 => simp [hr] at h
  | worker r => simp [hr] at h
  | fault => simp [hr] at h
  | diverge => simp [hr] at h
  | os_impossible => simp [hr] at h

/-- The three branches of the loop body. -/
theorem loop_body_continue (cb : COOKBOOK) (max_cooks : Int) (recipe_selected fuel : Nat)
    (s s1 : SCHED) (reply : OS_REPLY)
    (h : loop_body cb max_cooks recipe_selected fuel s reply = ITER.continue s1) :
    (s.active_cooks < max_cooks ∧ dispatch s reply.fork_pid = ITER.continue s1) ∨
      collect cb recipe_selected fuel s reply.reaped = ITER.continue s1 := by
  unfold loop_body at h
  split at h
  · simp at h
  · split at h
    · next hg =>
      simp only [Bool.and_eq_true, decide_eq_true_eq] at hg
      exact Or.inl ⟨hg.2, h⟩
    · exact Or.inr h

theorem counted_dispatch (max_cooks : Int) (s s1 : SCHED) (fork_pid : Int)
    (h : s.Counted max_cooks) (hlt : s.active_cooks < max_cooks)
    (hd : dispatch s fork_pid = ITER.continue s1) : s1.Counted max_cooks := by
  obtain ⟨recipe, _, hfresh, _, _, _, _, hact, _, hch, hev⟩ := dispatch_continue s s1 fork_pid hd
  refine ⟨?_, ?_, ?_, ?_⟩
  · rw [hch, List.map_append, List.nodup_append]
    refine ⟨h.pids_nodup, by simp, ?_⟩
    intro a ha hb
    simp only [List.map_cons, List.map_nil, List.mem_singleton] at hb
    subst hb
    exact hfresh ha
  · rw [hact, hch, List.length_append]
    have := h.live
    simp only [List.length_singleton, Nat.cast_add, Nat.cast_one]
    omega
  · rw [hact, hev, forks_append, waits_append]
    have := h.trace
    simp only [forks, waits]
    push_cast
    omega
  · rw [hact]; omega

theorem counted_collect (cb : COOKBOOK) (max_cooks : Int) (recipe_selected fuel : Nat)
    (s s2 : SCHED) (reaped : List (Int × WSTATUS)) (h : s.Counted max_cooks)
    (hc : collect cb recipe_selected fuel s reaped = ITER.continue s2) :
    s2.Counted max_cooks := by
  obtain ⟨s1, work_queue, hr, _, hs2⟩ := collect_continue cb recipe_selected fuel s s2 reaped hc
  have h1 := counted_reap_loop cb max_cooks recipe_selected reaped s s1 h hr
  subst hs2
  refine ⟨h1.pids_nodup, h1.live, ?_, h1.bound⟩
  show s1.active_cooks = (forks (s1.events ++ [EVENT.updated]) : Int)
    - (waits (s1.events ++ [EVENT.updated]) : Int)
  rw [forks_append, waits_append]
  have := h1.trace
  simp only [forks, waits]
  omega

theorem counted_reachable (cb : COOKBOOK) (max_cooks : Int) (recipe_selected : Nat)
    (hN : 0 ≤ max_cooks) (s : SCHED) (h : Reachable cb max_cooks recipe_selected s) :
    s.Counted max_cooks := by
  induction h with
  | init fuel st0 st1 t _ _ _ =>
    exact ⟨by simp [initial_sched], by simp [initial_sched], by simp [initial_sched, forks, waits],
      by simpa [initial_sched] using hN⟩
  | step fuel s s1 reply _ hbody ih =>
    rcases loop_body_continue cb max_cooks recipe_selected fuel s s1 reply hbody with ⟨hlt, hd⟩ | hc
    · exact counted_dispatch max_cooks s s1 reply.fork_pid ih hlt hd
    · exact counted_collect cb max_cooks recipe_selected fuel s s1 reply.reaped ih hc

theorem forks_reap_loop (cb : COOKBOOK) (recipe_selected : Nat)
    (reaped : List (Int × WSTATUS)) (s s1 : SCHED)
    (hr : reap_loop cb recipe_selected reaped s = ITER.continue s1) :
    forks s1.events = forks s.events :=
  reap_loop_induct cb recipe_selected (fun x => forks x.events = forks s.events)
    (fun x pid w recipe hp _ _ => by
      show forks (x.events ++ [EVENT.waited pid w (WSTATUS.exited 0)]) = forks s.events
      rw [forks_append, hp]
      simp [forks])
    reaped s s1 rfl hr

/-- C4: in every reachable state of the scheduling loop with `max_cooks ≥ 1`, `active_cooks`
lies between 0 and `max_cooks` and equals the number of workers forked minus the number of
workers reaped; an iteration forks a worker only when `active_cooks < max_cooks`, and then
exactly one; the same bounds hold after every round of the `waitpid` loop inside a collector
pass. -/
theorem active_cooks_bounded (cb : COOKBOOK) (max_cooks : Int) (recipe_selected : Nat)
    (s : SCHED) (hN : 1 ≤ max_cooks) (h : Reachable cb max_cooks recipe_selected s) :
    (0 ≤ s.active_cooks ∧ s.active_cooks ≤ max_cooks ∧
      s.active_cooks = (forks s.events : Int) - (waits s.events : Int)) ∧
    (∀ fuel reply s1, loop_body cb max_cooks recipe_selected fuel s reply = ITER.continue s1 →
      forks s.events < forks s1.events →
      s.active_cooks < max_cooks ∧ forks s1.events = forks s.events + 1 ∧
        s1.active_cooks = s.active_cooks + 1) ∧
    (∀ reaped s1, reap_loop cb recipe_selected reaped s = ITER.continue s1 →
      0 ≤ s1.active_cooks ∧ s1.active_cooks ≤ max_cooks ∧
        s1.active_cooks = (forks s1.events : Int) - (waits s1.events : Int)) := by
  have hc := counted_reachable cb max_cooks recipe_selected (by omega) s h
  refine ⟨⟨by rw [hc.live]; exact Int.natCast_nonneg _, hc.bound, hc.trace⟩, ?_, ?_⟩
  · intro fuel reply s1 hbody hforks
    rcases loop_body_continue cb max_cooks recipe_selected fuel s s1 reply hbody with ⟨hlt, hd⟩ | hcol
    · obtain ⟨recipe, _, _, _, _, _, _, hact, _, _, hev⟩ :=
        dispatch_continue s s1 reply.fork_pid hd
      refine ⟨hlt, ?_, hact⟩
      rw [hev, forks_append]
      simp [forks]
    · obtain ⟨s2, work_queue, hr, _, hs1⟩ :=
        collect_continue cb recipe_selected fuel s s1 reply.reaped hcol
      have h2 := forks_reap_loop cb recipe_selected reply.reaped s s2 hr
      subst hs1
      have : forks (s2.events ++ [EVENT.updated]) = forks s.events := by
        rw [forks_append, h2]; simp [forks]
      exact absurd hforks (by
        show ¬ forks s.events < forks (s2.events ++ [EVENT.updated])
        omega)
  · intro reaped s1 hr
    have h1 := counted_reap_loop cb max_cooks recipe_selected reaped s s1 hc hr
    exact ⟨by rw [h1.live]; exact Int.natCast_nonneg _, h1.bound, h1.trace⟩

theorem reachable_two_branches_start :
    Reachable cookbook_two_branches 2 0 sched_two_branches_start :=
  Reachable.init 10 all_null (states_after_check cookbook_two_branches 10 0 all_null)
    (traversal_result cookbook_two_branches 10 0
      (states_after_check cookbook_two_branches 10 0 all_null)) rfl rfl rfl

theorem reachable_two_running : Reachable cookbook_two_branches 2 0 sched_two_running :=
  Reachable.step 10
    (sched_after cookbook_two_branches 2 0 10 [⟨100, []⟩] sched_two_branches_start)
    sched_two_running ⟨101, []⟩
    (Reachable.step 10 sched_two_branches_start _ ⟨100, []⟩ reachable_two_branches_start rfl)
    rfl

/-- Witness for `active_cooks_bounded`: two cooks at work on the cookbook with two
branches. -/
theorem active_cooks_bounded_witness :
    Reachable cookbook_two_branches 2 0 sched_two_running ∧ sched_two_running.active_cooks = 2 ∧
    0 ≤ sched_two_running.active_cooks ∧ sched_two_running.active_cooks ≤ 2 :=
  ⟨reachable_two_running, rfl,
    (active_cooks_bounded cookbook_two_branches 2 0 sched_two_running (by decide)
      reachable_two_running).1.1,
    (active_cooks_bounded cookbook_two_branches 2 0 sched_two_running (by decide)
      reachable_two_running).1.2.1⟩

theorem get_recipe_by_pid_loop_ne_diverge (st : STATES) (pid : Int) :
    ∀ (k current : Nat), get_recipe_by_pid_loop st pid k current ≠ RES.diverge := by
  intro k
  induction k with
  | zero => intro current; simp [get_recipe_by_pid_loop]
  | succ n ih =>
    intro current
    simp only [get_recipe_by_pid_loop, get_pid_of_recipe]
    cases st current with
    | NULL =>
      simp only
      split
      · simp
      · exact ih _
    | ONE => simp
    | CELL p =>
      simp only
      split
      · simp
      · exact ih _

theorem kill_loop_ne_diverge (st : STATES) (pid : Int) :
    ∀ (k current : Nat), kill_loop st pid k current ≠ RES.diverge := by
  intro k
  induction k with
  | zero => intro current; simp [kill_loop]
  | succ n ih =>
    intro current
    simp only [kill_loop]
    cases st current with
    | NULL => exact ih _
    | ONE => simp
    | CELL p =>
      simp only
      cases hk : kill_loop st pid n (current + 1) with
      | ok rest => simp
      | fault => simp
      | diverge => exact absurd hk (ih _)

/-- The `waitpid` loop on a list of reaped workers of which the first failing one is
`(pid, status)`. -/
theorem reap_loop_failure (cb : COOKBOOK) (recipe_selected : Nat) (pid : Int)
    (status : WSTATUS) (post : List (Int × WSTATUS))
    (hfail : (WIFEXITED status && WEXITSTATUS status == 0) = false) :
    ∀ (pre : List (Int × WSTATUS)) (s : SCHED), (∀ e ∈ pre, e.2 = WSTATUS.exited 0) →
      reap_loop cb recipe_selected (pre ++ (pid, status) :: post) s = ITER.fault ∨
      reap_loop cb recipe_selected (pre ++ (pid, status) :: post) s = ITER.os_impossible ∨
      ∃ (s1 : SCHED) (ws : List EVENT) (w : Nat) (ks : List Int),
        reap_loop cb recipe_selected (pre ++ (pid, status) :: post) s = ITER.exit_failure s1 ∧
        s1.work_queue = s.work_queue ∧
        s1.events = s.events ++ ws ++ EVENT.waited pid w status :: ks.map EVENT.killed ∧
        ws.length = pre.length ∧
        ∀ e ∈ ws, ∃ p r, e = EVENT.waited p r (WSTATUS.exited 0) := by
  intro pre
  induction pre with
  | nil =>
    intro s _
    simp only [List.nil_append, reap_loop]
    cases hl : s.children.lookup pid with
    | none => exact Or.inr (Or.inl rfl)
    | some w =>
      simp only [hfail]
      cases hk : kill_loop s.states pid (cb.recipes.length - recipe_selected) recipe_selected with
      | ok pids =>
        refine Or.inr (Or.inr ⟨_, [], w, pids, rfl, rfl, by simp, rfl, by simp⟩)
      | fault => exact Or.inl rfl
      | diverge => exact absurd hk (kill_loop_ne_diverge _ _ _ _)
  | cons e pre ih =>
    intro s hpre
    obtain ⟨p, st⟩ := e
    have hst : st = WSTATUS.exited 0 := hpre (p, st) (List.mem_cons_self _ _)
    subst hst
    simp only [List.cons_append, reap_loop]
    cases hl : s.children.lookup p with
    | none => exact Or.inr (Or.inl rfl)
    | some w =>
      have htest : (WIFEXITED (WSTATUS.exited 0) && WEXITSTATUS (WSTATUS.exited 0) == 0) = true := rfl
      simp only [htest, if_true]
      cases hg : get_recipe_by_pid cb s.states p with
      | ok recipe =>
        simp only
        rcases ih (s.after_reap p w (WSTATUS.exited 0) recipe)
            (fun e he => hpre e (List.mem_cons_of_mem _ he)) with h | h | ⟨s1, ws, w1, ks, h1, h2, h3, h4, h5⟩
        · exact Or.inl h
        · exact Or.inr (Or.inl h)
        · refine Or.inr (Or.inr ⟨s1, EVENT.waited p w (WSTATUS.exited 0) :: ws, w1, ks, h1, h2, ?_,
            by simp [h4], ?_⟩)
          · rw [h3]
            simp [SCHED.after_reap]
          · intro e he
            rcases List.mem_cons.1 he with e1 | e1
            · exact ⟨p, w, e1⟩
            · exact h5 e e1
      | fault => exact Or.inl rfl
      | diverge => exact absurd hg (get_recipe_by_pid_loop_ne_diverge _ _ _ _)

/-- C6: in an iteration that collects, when `waitpid` returns a worker whose status is not
a normal exit with code 0 (after any number of workers that exited 0 in the same pass),
`main_processing_loop` does not go on: either the process calls `exit(EXIT_FAILURE)` in that
iteration, with the work queue untouched and a trace that grew only by the reaps up to
the failing one followed by kill signals (no fork, no `update_work_queue`), or the process
takes a memory fault on a bad `state` pointer; the rest of the script is never consumed. -/
theorem failed_worker_ends_build (cb : COOKBOOK) (max_cooks : Int) (recipe_selected fuel : Nat)
    (s : SCHED) (fork_pid : Int) (pre post : List (Int × WSTATUS)) (pid : Int)
    (status : WSTATUS) (rest : List OS_REPLY)
    (hgoing : (is_work_queue_empty s.work_queue && s.active_cooks == 0) = false)
    (hcollect : (!is_work_queue_empty s.work_queue && decide (s.active_cooks < max_cooks)) = false)
    (hpre : ∀ e ∈ pre, e.2 = WSTATUS.exited 0)
    (hfail : (WIFEXITED status && WEXITSTATUS status == 0) = false) :
    main_processing_loop cb max_cooks recipe_selected fuel
        (⟨fork_pid, pre ++ (pid, status) :: post⟩ :: rest) s = ITER.fault ∨
    main_processing_loop cb max_cooks recipe_selected fuel
        (⟨fork_pid, pre ++ (pid, status) :: post⟩ :: rest) s = ITER.os_impossible ∨
    ∃ (s1 : SCHED) (ws : List EVENT) (w : Nat) (ks : List Int),
      main_processing_loop cb max_cooks recipe_selected fuel
        (⟨fork_pid, pre ++ (pid, status) :: post⟩ :: rest) s = ITER.exit_failure s1 ∧
      s1.work_queue = s.work_queue ∧
      s1.events = s.events ++ ws ++ EVENT.waited pid w status :: ks.map EVENT.killed ∧
      ws.length = pre.length ∧
      ∀ e ∈ ws, ∃ p r, e = EVENT.waited p r (WSTATUS.exited 0) := by
  have hbody : loop_body cb max_cooks recipe_selected fuel s
      ⟨fork_pid, pre ++ (pid, status) :: post⟩
      = collect cb recipe_selected fuel s (pre ++ (pid, status) :: post) := by
    simp only [loop_body, hgoing, hcollect]
    rfl
  simp only [main_processing_loop, hbody, collect]
  rcases reap_loop_failure cb recipe_selected pid status post hfail pre s hpre with
    h | h | ⟨s1, ws, w, ks, h1, h2, h3, h4, h5⟩
  · exact Or.inl (by rw [h])
  · exact Or.inr (Or.inl (by rw [h]))
  · exact Or.inr (Or.inr ⟨s1, ws, w, ks, by rw [h1], h2, h3, h4, h5⟩)

/-- Witness for `failed_worker_ends_build`: two cooks at work, the worker of B exits 0 and
the worker of A exits 1 in the same pass. -/
theorem failed_worker_ends_build_witness :
    main_processing_loop cookbook_two_branches 2 0 10
        [⟨0, [(100, WSTATUS.exited 0)] ++ (101, WSTATUS.exited 1) :: []⟩] sched_two_running
      = ITER.fault ∨
    main_processing_loop cookbook_two_branches 2 0 10
        [⟨0, [(100, WSTATUS.exited 0)] ++ (101, WSTATUS.exited 1) :: []⟩] sched_two_running
      = ITER.os_impossible ∨
    ∃ (s1 : SCHED) (ws : List EVENT) (w : Nat) (ks : List Int),
      main_processing_loop cookbook_two_branches 2 0 10
        [⟨0, [(100, WSTATUS.exited 0)] ++ (101, WSTATUS.exited 1) :: []⟩] sched_two_running
        = ITER.exit_failure s1 ∧
      s1.work_queue = sched_two_running.work_queue ∧
      s1.events = sched_two_running.events ++ ws
        ++ EVENT.waited 101 w (WSTATUS.exited 1) :: ks.map EVENT.killed ∧
      ws.length = [(100, WSTATUS.exited 0)].length ∧
      ∀ e ∈ ws, ∃ p r, e = EVENT.waited p r (WSTATUS.exited 0) :=
  failed_worker_ends_build cookbook_two_branches 2 0 10 sched_two_running 0
    [(100, WSTATUS.exited 0)] [] 101 (WSTATUS.exited 1) [] rfl rfl
    (by intro e he; rw [List.mem_singleton.1 he]) rfl

/-! ## The scheduler: dependencies complete before a recipe is dispatched -/

theorem is_in_completed_recipes_iff (recipe : Option Nat) (completed : List (Option Nat)) :
    is_in_completed_recipes recipe completed = true ↔ recipe ∈ completed := by
  induction completed with
  | nil => simp [is_in_completed_recipes]
  | cons c rest ih =>
    simp only [is_in_completed_recipes, List.mem_cons]
    by_cases e : c = recipe
    · simp [e]
    · have e2 : ¬ recipe = c := fun h => e h.symm
      simp [e, e2, ih]

theorem can_be_completed_iff (completed links : List (Option Nat)) :
    can_be_completed completed links = true ↔ ∀ d ∈ links, d ∈ completed := by
  induction links with
  | nil => simp [can_be_completed]
  | cons d rest ih =>
    simp only [can_be_completed, List.mem_cons, forall_eq_or_imp]
    by_cases h : is_in_completed_recipes d completed = true
    · simp [h, ih, (is_in_completed_recipes_iff d completed).1 h]
    · have hn : d ∉ completed := fun hm => h ((is_in_completed_recipes_iff d completed).2 hm)
      simp [h, hn]

/-- Whatever the update loop adds to the queue has all its dependencies completed. -/
theorem update_loop_ready (cb : COOKBOOK) (st : STATES) (completed : List (Option Nat)) :
    ∀ (fuel : Nat) (stack : STACK) (q q1 : WORK_QUEUE),
      update_loop cb st completed fuel stack q = RES.ok q1 →
      (∃ l, Represents q l ∧ ∀ r ∈ l, ∀ d ∈ deps cb r, d ∈ completed) →
      ∃ l, Represents q1 l ∧ ∀ r ∈ l, ∀ d ∈ deps cb r, d ∈ completed := by
  intro fuel
  induction fuel with
  | zero => intro stack q q1 h _; simp [update_loop] at h
  | succ n ih =>
    intro stack q q1 h hq
    cases stack with
    | nil =>
      simp only [update_loop, pop, RES.ok.injEq] at h
      exact h ▸ hq
    | cons recipe stack1 =>
      simp only [update_loop, pop] at h
      cases hb : update_body cb st completed recipe stack1 q with
      | ok res =>
        obtain ⟨stack2, queue2⟩ := res
        simp only [hb] at h
        apply ih stack2 queue2 q1 h
        unfold update_body at hb
        split at hb
        · simp only [RES.ok.injEq, Prod.mk.injEq] at hb
          exact hb.2 ▸ hq
        · split at hb
          · next hcan =>
            cases hp : push_next_dependents st (dependents cb recipe) stack1 with
            | ok stack3 =>
              simp only [hp, RES.ok.injEq, Prod.mk.injEq] at hb
              obtain ⟨l, hl, hall⟩ := hq
              refine ⟨l ++ [recipe], hb.2 ▸ represents_enqueue q l recipe hl, ?_⟩
              intro r hr
              rcases List.mem_append.1 hr with h1 | h1
              · exact hall r h1
              · simp only [List.mem_singleton] at h1
                subst h1
                exact (can_be_completed_iff completed _).1 hcan
            | fault => simp [hp] at hb
            | diverge => simp [hp] at hb
          · simp only [RES.ok.injEq, Prod.mk.injEq] at hb
            exact hb.2 ▸ hq
      | fault => simp [hb] at h
      | diverge => simp [hb] at h

theorem update_work_queue_ready (cb : COOKBOOK) (fuel : Nat) (st : STATES)
    (q q1 : WORK_QUEUE) (completed : List (Option Nat)) (main_recipe : Nat)
    (h : update_work_queue cb fuel st q completed main_recipe = RES.ok q1)
    (hq : ∃ l, Represents q l ∧ ∀ r ∈ l, ∀ d ∈ deps cb r, d ∈ completed) :
    ∃ l, Represents q1 l ∧ ∀ r ∈ l, ∀ d ∈ deps cb r, d ∈ completed := by
  unfold update_work_queue at h
  split at h
  · simp at h
  · simp at h
  · next completed_recipe _ =>
    simp only at h
    cases hp : push_dependents cb fuel completed main_recipe (dependents cb completed_recipe) [] with
    | ok stack =>
      simp only [hp] at h
      apply update_loop_ready cb st completed fuel stack _ q1 h
      obtain ⟨l, hl, hall⟩ := hq
      exact ⟨l.erase completed_recipe, (represents_dequeue_recipe q l completed_recipe hl).2,
        fun r hr => hall r (List.mem_of_mem_erase hr)⟩
    | fault => simp [hp] at h
    | diverge => simp [hp] at h

/-- What `get_recipe_by_pid` finds for the pid of a worker. -/
theorem get_recipe_by_pid_loop_some (st : STATES) (pid : Int) (hpid : 0 < pid) :
    ∀ (k current a : Nat), get_recipe_by_pid_loop st pid k current = RES.ok (some a) →
      a < current + k ∧ st a = STATE.CELL pid := by
  intro k
  induction k with
  | zero => intro current a h; simp [get_recipe_by_pid_loop] at h
  | succ n ih =>
    intro current a h
    simp only [get_recipe_by_pid_loop, get_pid_of_recipe] at h
    cases hs : st current with
    | NULL =>
      simp only [hs] at h
      have hne : ¬ (-1 : Int) = pid := by omega
      simp only [hne, if_false] at h
      have := ih _ _ h
      exact ⟨by omega, this.2⟩
    | ONE => simp [hs] at h
    | CELL p =>
      simp only [hs] at h
      split at h
      · next e =>
        simp only [RES.ok.injEq, Option.some.injEq] at h
        subst h
        exact ⟨by omega, by rw [hs, e]⟩
      · have := ih _ _ h
        exact ⟨by omega, this.2⟩

theorem get_recipe_by_pid_some (cb : COOKBOOK) (st : STATES) (pid : Int) (hpid : 0 < pid)
    (a : Nat) (h : get_recipe_by_pid cb st pid = RES.ok (some a)) :
    a < cb.recipes.length ∧ st a = STATE.CELL pid := by
  have := get_recipe_by_pid_loop_some st pid hpid cb.recipes.length 0 a h
  exact ⟨by omega, this.2⟩

/-- Splitting a trace that grew by one event. -/
theorem append_singleton_split {α : Type} (l pre post : List α) (e x : α)
    (h : l ++ [e] = pre ++ x :: post) :
    (post = [] ∧ x = e ∧ pre = l) ∨ ∃ post1, post = post1 ++ [e] ∧ l = pre ++ x :: post1 := by
  rcases List.eq_nil_or_concat post with hnil | ⟨post1, y, hy⟩
  · subst hnil
    have h2 : l ++ [e] = pre ++ [x] := h
    obtain ⟨h3, h4⟩ := List.append_inj' h2 rfl
    simp only [List.cons.injEq, and_true] at h4
    exact Or.inl ⟨rfl, h4.symm, h3.symm⟩
  · rw [List.concat_eq_append] at hy
    subst hy
    have h2 : l ++ [e] = (pre ++ x :: post1) ++ [y] := by
      rw [h]; simp
    obtain ⟨h3, h4⟩ := List.append_inj' h2 rfl
    simp only [List.cons.injEq, and_true] at h4
    exact Or.inr ⟨post1, by rw [h4], h3⟩

/-- Induction along the traversal loop. -/
theorem traversal_loop_induct (cb : COOKBOOK) (P : TRAVERSAL → Prop)
    (hstep : ∀ s current stack1 s1, P s → s.stack = current :: stack1 →
      traversal_body cb s current stack1 = RES.ok s1 → P s1) :
    ∀ (fuel : Nat) (s t : TRAVERSAL), traversal_loop cb fuel s = RES.ok t → P s → P t := by
  intro fuel
  induction fuel with
  | zero => intro s t h _; simp [traversal_loop] at h
  | succ n ih =>
    intro s t h hp
    cases hs : s.stack with
    | nil =>
      simp only [traversal_loop, pop, hs, RES.ok.injEq] at h
      exact h ▸ hp
    | cons current stack1 =>
      simp only [traversal_loop, pop, hs] at h
      cases hb : traversal_body cb s current stack1 with
      | ok s1 =>
        simp only [hb] at h
        exact ih s1 t h (hstep s current stack1 s1 hp hs hb)
      | fault => simp [hb] at h
      | diverge => simp [hb] at h

/-- The traversal only enqueues leaves and only writes `(void *)1` into state slots. -/
theorem traversal_loop_leaves (cb : COOKBOOK) (fuel : Nat) (s t : TRAVERSAL)
    (h : traversal_loop cb fuel s = RES.ok t)
    (hq : ∃ l, Represents s.work_queue l ∧ ∀ r ∈ l, deps cb r = []) :
    (∃ l, Represents t.work_queue l ∧ ∀ r ∈ l, deps cb r = []) ∧
      ∀ r, t.states r = s.states r ∨ t.states r = STATE.ONE := by
  apply traversal_loop_induct cb
    (fun x => (∃ l, Represents x.work_queue l ∧ ∀ r ∈ l, deps cb r = []) ∧
      ∀ r, x.states r = s.states r ∨ x.states r = STATE.ONE) _ fuel s t h
    ⟨hq, fun r => Or.inl rfl⟩
  intro x current stack1 x1 hp _ hb
  unfold traversal_body at hb
  split at hb
  · simp only [RES.ok.injEq] at hb
    subst hb
    exact hp
  · cases hpu : push_unvisited (mark_visited x.states current) (deps cb current) stack1
        x.recipe_count with
    | ok res =>
      obtain ⟨stack2, count2⟩ := res
      simp only [hpu, RES.ok.injEq] at hb
      subst hb
      obtain ⟨⟨l, hl, hall⟩, hst⟩ := hp
      refine ⟨?_, ?_⟩
      · show ∃ l, Represents (if deps cb current = [] then enqueue x.work_queue current
            else x.work_queue) l ∧ _
        by_cases hleaf : deps cb current = []
        · rw [if_pos hleaf]
          refine ⟨l ++ [current], represents_enqueue _ l current hl, ?_⟩
          intro r hr
          rcases List.mem_append.1 hr with h1 | h1
          · exact hall r h1
          · simp only [List.mem_singleton] at h1
            exact h1 ▸ hleaf
        · rw [if_neg hleaf]
          exact ⟨l, hl, hall⟩
      · intro r
        show mark_visited x.states current r = s.states r ∨ mark_visited x.states current r = _
        by_cases e : r = current
        · subst e
          exact Or.inr (by simp [mark_visited])
        · rw [mark_visited, Function.update_noteq e]
          exact hst r
    | fault => simp [hpu] at hb
    | diverge => simp [hpu] at hb

theorem detect_deps_marks
    (call : Nat → STACK → STATES → RES (Int × STACK × STATES))
    (hcall : ∀ d stack st res, call d stack st = RES.ok res →
      ∀ r, res.2.2 r = st r ∨ res.2.2 r = STATE.ONE) :
    ∀ (links : List (Option Nat)) (stack : STACK) (st : STATES) (res : Int × STACK × STATES),
      detect_deps call links stack st = RES.ok res →
      ∀ r, res.2.2 r = st r ∨ res.2.2 r = STATE.ONE := by
  intro links
  induction links with
  | nil =>
    intro stack st res h r
    simp only [detect_deps, RES.ok.injEq] at h
    subst h
    exact Or.inl rfl
  | cons d rest ih =>
    intro stack st res h r
    cases d with
    | none =>
      simp only [detect_deps, RES.ok.injEq] at h
      subst h
      exact Or.inl rfl
    | some d =>
      simp only [detect_deps] at h
      cases hc : call d stack st with
      | ok res1 =>
        obtain ⟨c1, stack1, st1⟩ := res1
        simp only [hc] at h
        rcases ih stack1 st1 res h r with h1 | h1
        · rcases hcall d stack st _ hc r with h2 | h2
          · exact Or.inl (h1.trans h2)
          · exact Or.inr (h1.trans h2)
        · exact Or.inr h1
      | fault => simp [hc] at h
      | diverge => simp [hc] at h

theorem detect_cycle_dfs_marks (cb : COOKBOOK) :
    ∀ (fuel recipe : Nat) (stack : STACK) (st : STATES) (res : Int × STACK × STATES),
      detect_cycle_dfs cb fuel recipe stack st = RES.ok res →
      ∀ r, res.2.2 r = st r ∨ res.2.2 r = STATE.ONE := by
  intro fuel
  induction fuel with
  | zero => intro recipe stack st res h; simp [detect_cycle_dfs] at h
  | succ n ih =>
    intro recipe stack st res h r
    simp only [detect_cycle_dfs] at h
    split at h
    · simp only [RES.ok.injEq] at h
      subst h
      exact Or.inl rfl
    · split at h
      · simp only [RES.ok.injEq] at h
        subst h
        exact Or.inl rfl
      · split at h
        · simp only [RES.ok.injEq] at h
          subst h
          exact Or.inl rfl
        · cases hd : detect_deps (detect_cycle_dfs cb n) (deps cb recipe) (push stack recipe) st with
          | ok res1 =>
            obtain ⟨code, stack1, st1⟩ := res1
            simp only [hd] at h
            have h1 := detect_deps_marks (detect_cycle_dfs cb n) ih _ _ _ _ hd r
            split at h
            · simp only [RES.ok.injEq] at h
              subst h
              exact h1
            · simp only [RES.ok.injEq] at h
              subst h
              show mark_visited st1 recipe r = st r ∨ mark_visited st1 recipe r = STATE.ONE
              by_cases e : r = recipe
              · subst e
                exact Or.inr (by simp [mark_visited])
              · rw [mark_visited, Function.update_noteq e]
                exact h1
          | fault => simp [hd] at h
          | diverge => simp [hd] at h

theorem initialize_loop_apply :
    ∀ (k r : Nat) (st : STATES) (i : Nat),
      initialize_loop k r st i = if r ≤ i ∧ i < r + k then STATE.NULL else st i := by
  intro k
  induction k with
  | zero =>
    intro r st i
    have : ¬ (r ≤ i ∧ i < r + 0) := by omega
    rw [if_neg this]
    rfl
  | succ n ih =>
    intro r st i
    rw [initialize_loop, ih]
    by_cases e : i = r
    · subst e
      by_cases h1 : i + 1 ≤ i ∧ i < i + 1 + n
      · omega
      · have h2 : i ≤ i ∧ i < i + (n + 1) := by omega
        simp [h1, h2]
    · by_cases h1 : r + 1 ≤ i ∧ i < r + 1 + n
      · have h2 : r ≤ i ∧ i < r + (n + 1) := by omega
        simp [h1, h2]
      · have h2 : ¬ (r ≤ i ∧ i < r + (n + 1)) := by omega
        simp [h1, h2, Function.update_noteq e]

theorem initialize_recipe_states_apply (cb : COOKBOOK) (r : Nat) (st : STATES) (i : Nat) :
    initialize_recipe_states cb (some r) st i
      = if r ≤ i ∧ i < cb.recipes.length then STATE.NULL else st i := by
  simp only [initialize_recipe_states, initialize_loop_apply]
  by_cases h : r ≤ i ∧ i < cb.recipes.length
  · have h2 : r ≤ i ∧ i < r + (cb.recipes.length - r) := by omega
    simp [h, h2]
  · have h2 : ¬ (r ≤ i ∧ i < r + (cb.recipes.length - r)) := by omega
    simp [h, h2]

theorem plain_after_reset (cb : COOKBOOK) (r : Nat) (st : STATES) (h : plain cb st) :
    plain cb (initialize_recipe_states cb (some r) st) := by
  intro i hi
  rw [initialize_recipe_states_apply]
  split
  · exact Or.inl rfl
  · exact h i hi

theorem plain_marks (cb : COOKBOOK) (st st1 : STATES) (h : plain cb st)
    (hm : ∀ r, st1 r = st r ∨ st1 r = STATE.ONE) : plain cb st1 := by
  intro i hi
  rcases hm i with e | e
  · rw [e]; exact h i hi
  · exact Or.inr e

/-- The state in which `main` enters the loop has no pid cell and a queue of leaves. -/
theorem initial_sched_plain (cb : COOKBOOK) (fuel recipe_selected : Nat) (st0 st1 : STATES)
    (t : TRAVERSAL)
    (hc : check_circular_tree_cycle cb fuel recipe_selected
      (initialize_recipe_states cb (some 0) st0) = RES.ok (0, st1))
    (ht : stack_analysis_traversal cb fuel recipe_selected init_work_queue st1 = RES.ok t) :
    plain cb t.states ∧ ∃ l, Represents t.work_queue l ∧ ∀ r ∈ l, deps cb r = [] := by
  have h0 : plain cb (initialize_recipe_states cb (some 0) st0) := by
    intro i hi
    rw [initialize_recipe_states_apply]
    simp [hi]
  have h1 : plain cb st1 := by
    unfold check_circular_tree_cycle at hc
    cases hd : detect_cycle_dfs cb fuel recipe_selected []
        (initialize_recipe_states cb (some 0) st0) with
    | ok res =>
      obtain ⟨ret, stack, st2⟩ := res
      simp only [hd, RES.ok.injEq, Prod.mk.injEq] at hc
      rw [← hc.2]
      exact plain_after_reset cb _ _
        (plain_marks cb _ _ h0 (detect_cycle_dfs_marks cb fuel recipe_selected [] _ _ hd))
    | fault => simp [hd] at hc
    | diverge => simp [hd] at hc
  unfold stack_analysis_traversal at ht
  cases hl : traversal_loop cb fuel
      { stack := push [] recipe_selected, states := st1, work_queue := init_work_queue,
        recipe_count := 1, visited := [] } with
  | ok t1 =>
    simp only [hl, RES.ok.injEq] at ht
    obtain ⟨hq, hm⟩ := traversal_loop_leaves cb fuel _ t1 hl
      ⟨[], represents_init, by simp⟩
    subst ht
    exact ⟨plain_after_reset cb _ _ (plain_marks cb _ _ h1 hm), hq⟩
  | fault => simp [hl] at ht
  | diverge => simp [hl] at ht

theorem deps_done_init (cb : COOKBOOK) (fuel recipe_selected : Nat) (st0 st1 : STATES)
    (t : TRAVERSAL)
    (hc : check_circular_tree_cycle cb fuel recipe_selected
      (initialize_recipe_states cb (some 0) st0) = RES.ok (0, st1))
    (ht : stack_analysis_traversal cb fuel recipe_selected init_work_queue st1 = RES.ok t) :
    (initial_sched t).DepsDone cb := by
  obtain ⟨hplain, l, hl, hleaf⟩ := initial_sched_plain cb fuel recipe_selected st0 st1 t hc ht
  refine ⟨⟨l, hl, ?_⟩, by simp [initial_sched], by simp [initial_sched], ?_,
    by simp [initial_sched], by simp [initial_sched], ?_⟩
  · intro r hr d hd
    rw [hleaf r hr] at hd
    simp at hd
  · intro r p hr hcell
    rcases hplain r hr with e | e
    · simp only [initial_sched] at hcell; rw [e] at hcell; simp at hcell
    · simp only [initial_sched] at hcell; rw [e] at hcell; simp at hcell
  · intro pre post b pid h
    simp [initial_sched] at h

theorem deps_done_dispatch (cb : COOKBOOK) (s s1 : SCHED) (fork_pid : Int)
    (h : s.DepsDone cb) (hd : dispatch s fork_pid = ITER.continue s1) : s1.DepsDone cb := by
  obtain ⟨recipe, hdq, hfresh, hpos, _, hq, hst, _, hcomp, hch, hev⟩ :=
    dispatch_continue s s1 fork_pid hd
  obtain ⟨l, hl, hall⟩ := h.queue
  have hl2 : ∃ l1, l = recipe :: l1 := by
    cases l with
    | nil =>
      rw [represents_dequeue_nil _ hl] at hdq
      simp at hdq
    | cons r l1 =>
      have := (represents_dequeue_cons _ r l1 hl).1
      rw [this] at hdq
      simp only [Option.some.injEq] at hdq
      exact ⟨l1, by rw [hdq]⟩
  obtain ⟨l1, hl1⟩ := hl2
  subst hl1
  have hrec : ∀ d ∈ deps cb recipe, d ∈ s.completed_recipes :=
    hall recipe (List.mem_cons_self _ _)
  refine ⟨⟨l1, ?_, ?_⟩, ?_, ?_, ?_, ?_, ?_, ?_⟩
  · rw [hq]; exact (represents_dequeue_cons _ recipe l1 hl).2
  · intro r hr d hd
    rw [hcomp]
    exact hall r (List.mem_cons_of_mem _ hr) d hd
  · intro b pid hb d hd
    rw [hcomp]
    rw [hev] at hb
    rcases List.mem_append.1 hb with h1 | h1
    · exact h.forked b pid h1 d hd
    · simp only [List.mem_singleton, EVENT.forked.injEq] at h1
      rw [h1.1] at hd
      exact hrec d hd
  · intro a ha
    rw [hcomp] at ha
    obtain ⟨p, hp⟩ := h.completed a ha
    exact ⟨p, by rw [hev]; exact List.mem_append_left _ hp⟩
  · intro r p hr hcell
    rw [hst] at hcell
    rw [hch, hev]
    by_cases e : r = recipe
    · subst e
      simp only [Function.update_same, STATE.CELL.injEq] at hcell
      subst hcell
      exact Or.inl (by simp)
    · rw [Function.update_noteq e] at hcell
      rcases h.cells r p hr hcell with h1 | h1
      · exact Or.inl (List.mem_append_left _ h1)
      · exact Or.inr (List.mem_append_left _ h1)
  · rw [hch, List.map_append, List.nodup_append]
    refine ⟨h.pids_nodup, by simp, ?_⟩
    intro a ha hb
    simp only [List.map_cons, List.map_nil, List.mem_singleton] at hb
    subst hb
    exact hfresh ha
  · intro c hc
    rw [hch] at hc
    rcases List.mem_append.1 hc with h1 | h1
    · exact h.pids_pos c h1
    · simp only [List.mem_singleton] at h1
      subst h1
      exact hpos
  · intro pre post b pid hsplit a ha
    rw [hev] at hsplit
    rcases append_singleton_split _ _ _ _ _ hsplit with ⟨_, hx, hpre⟩ | ⟨post1, _, hold⟩
    · simp only [EVENT.forked.injEq] at hx
      have hb : b = recipe := hx.1
      subst hb
      subst hpre
      exact h.completed a (hrec (some a) ha)
    · exact h.order pre post1 b pid hold a ha

theorem deps_done_after_reap (cb : COOKBOOK) (s : SCHED) (pid : Int) (w : Nat)
    (recipe : Option Nat) (h : s.DepsDone cb) (hl : s.children.lookup pid = some w)
    (hg : get_recipe_by_pid cb s.states pid = RES.ok recipe) :
    (s.after_reap pid w (WSTATUS.exited 0) recipe).DepsDone cb := by
  have hmem : (pid, w) ∈ s.children := mem_of_lookup _ _ _ hl
  have hpos : 0 < pid := h.pids_pos _ hmem
  have hcell : ∀ r p, r < cb.recipes.length → s.states r = STATE.CELL p →
      (p, r) ∈ s.children.filter (fun c => c.1 ≠ pid) ∨
        EVENT.waited p r (WSTATUS.exited 0)
          ∈ s.events ++ [EVENT.waited pid w (WSTATUS.exited 0)] := by
    intro r p hr hc
    rcases h.cells r p hr hc with h1 | h1
    · by_cases e : p = pid
      · subst e
        have := lookup_of_mem _ h.pids_nodup p r h1
        rw [hl] at this
        simp only [Option.some.injEq] at this
        subst this
        exact Or.inr (by simp)
      · exact Or.inl (List.mem_filter.2 ⟨h1, by simpa using e⟩)
    · exact Or.inr (List.mem_append_left _ h1)
  obtain ⟨l, hlq, hall⟩ := h.queue
  refine ⟨⟨l, hlq, ?_⟩, ?_, ?_, hcell, filter_pids_nodup _ _ h.pids_nodup, ?_, ?_⟩
  · intro r hr d hd
    exact List.mem_append_left _ (hall r hr d hd)
  · intro b p hb d hd
    have hb2 : EVENT.forked b p ∈ s.events ++ [EVENT.waited pid w (WSTATUS.exited 0)] := hb
    rcases List.mem_append.1 hb2 with h1 | h1
    · exact List.mem_append_left _ (h.forked b p h1 d hd)
    · simp at h1
  · intro a ha
    have ha2 : some a ∈ s.completed_recipes ++ [recipe] := ha
    rcases List.mem_append.1 ha2 with h1 | h1
    · obtain ⟨p, hp⟩ := h.completed a h1
      exact ⟨p, List.mem_append_left _ hp⟩
    · simp only [List.mem_singleton] at h1
      rw [← h1] at hg
      obtain ⟨ha1, ha3⟩ := get_recipe_by_pid_some cb s.states pid hpos a hg
      rcases hcell a pid ha1 ha3 with h2 | h2
      · simp at h2
      · exact ⟨pid, h2⟩
  · intro c hc
    exact h.pids_pos c (List.mem_of_mem_filter hc)
  · intro pre post b p hsplit a ha
    have hsplit2 : s.events ++ [EVENT.waited pid w (WSTATUS.exited 0)]
        = pre ++ EVENT.forked b p :: post := hsplit
    rcases append_singleton_split _ _ _ _ _ hsplit2 with ⟨_, hx, _⟩ | ⟨post1, _, hold⟩
    · simp at hx
    · exact h.order pre post1 b p hold a ha

theorem deps_done_collect (cb : COOKBOOK) (recipe_selected fuel : Nat) (s s2 : SCHED)
    (reaped : List (Int × WSTATUS)) (h : s.DepsDone cb)
    (hc : collect cb recipe_selected fuel s reaped = ITER.continue s2) : s2.DepsDone cb := by
  obtain ⟨s1, work_queue, hr, hu, hs2⟩ := collect_continue cb recipe_selected fuel s s2 reaped hc
  have h1 : s1.DepsDone cb :=
    reap_loop_induct cb recipe_selected (fun x => x.DepsDone cb)
      (fun x pid w recipe hp hl hg => deps_done_after_reap cb x pid w recipe hp hl hg)
      reaped s s1 h hr
  subst hs2
  refine ⟨update_work_queue_ready cb fuel s1.states s1.work_queue work_queue
      s1.completed_recipes recipe_selected hu h1.queue, ?_, ?_, ?_, h1.pids_nodup, h1.pids_pos, ?_⟩
  · intro b p hb d hd
    have hb2 : EVENT.forked b p ∈ s1.events ++ [EVENT.updated] := hb
    rcases List.mem_append.1 hb2 with h2 | h2
    · exact h1.forked b p h2 d hd
    · simp at h2
  · intro a ha
    obtain ⟨p, hp⟩ := h1.completed a ha
    exact ⟨p, List.mem_append_left _ hp⟩
  · intro r p hr hcell
    rcases h1.cells r p hr hcell with h2 | h2
    · exact Or.inl h2
    · exact Or.inr (List.mem_append_left _ h2)
  · intro pre post b p hsplit a ha
    have hsplit2 : s1.events ++ [EVENT.updated] = pre ++ EVENT.forked b p :: post := hsplit
    rcases append_singleton_split _ _ _ _ _ hsplit2 with ⟨_, hx, _⟩ | ⟨post1, _, hold⟩
    · simp at hx
    · exact h1.order pre post1 b p hold a ha

theorem deps_done_reachable (cb : COOKBOOK) (max_cooks : Int) (recipe_selected : Nat)
    (s : SCHED) (h : Reachable cb max_cooks recipe_selected s) : s.DepsDone cb := by
  induction h with
  | init fuel st0 st1 t hc ht _ => exact deps_done_init cb fuel recipe_selected st0 st1 t hc ht
  | step fuel s s1 reply _ hbody ih =>
    rcases loop_body_continue cb max_cooks recipe_selected fuel s s1 reply hbody with ⟨_, hd⟩ | hc
    · exact deps_done_dispatch cb s s1 reply.fork_pid ih hd
    · exact deps_done_collect cb recipe_selected fuel s s1 reply.reaped ih hc

/-- C3: in every reachable state of the scheduling loop, every recipe in the work queue and
every recipe for which a worker was forked has all entries of its `this_depends_on` list in
`completed_recipes`; every recipe in `completed_recipes` had its worker reaped with exit
status 0; and in the trace, the fork of a worker for `b` is preceded, for every dependency
`a` of `b`, by the reap of `a`'s worker with exit status 0. -/
theorem dependencies_completed_before_dispatch (cb : COOKBOOK) (max_cooks : Int)
    (recipe_selected : Nat) (s : SCHED) (h : Reachable cb max_cooks recipe_selected s) :
    (∃ l, Represents s.work_queue l ∧
      ∀ r ∈ l, ∀ d ∈ deps cb r, d ∈ s.completed_recipes) ∧
    (∀ b pid, EVENT.forked b pid ∈ s.events → ∀ d ∈ deps cb b, d ∈ s.completed_recipes) ∧
    (∀ a, some a ∈ s.completed_recipes →
      ∃ p, EVENT.waited p a (WSTATUS.exited 0) ∈ s.events) ∧
    (∀ pre post b pid, s.events = pre ++ EVENT.forked b pid :: post →
      ∀ a, depends_on cb b a → ∃ p, EVENT.waited p a (WSTATUS.exited 0) ∈ pre) :=
  have hd := deps_done_reachable cb max_cooks recipe_selected s h
  ⟨hd.queue, hd.forked, hd.completed, hd.order⟩

/-- States reached by running the loop on a script are reachable. -/
theorem reachable_loop (cb : COOKBOOK) (max_cooks : Int) (recipe_selected fuel : Nat) :
    ∀ (replies : List OS_REPLY) (s s1 : SCHED), Reachable cb max_cooks recipe_selected s →
      main_processing_loop cb max_cooks recipe_selected fuel replies s = ITER.continue s1 →
      Reachable cb max_cooks recipe_selected s1 := by
  intro replies
  induction replies with
  | nil =>
    intro s s1 hs h
    simp only [main_processing_loop] at h
    split at h
    · simp at h
    · simp only [ITER.continue.injEq] at h
      exact h ▸ hs
  | cons reply rest ih =>
    intro s s1 hs h
    simp only [main_processing_loop] at h
    cases hb : loop_body cb max_cooks recipe_selected fuel s reply with
    | «continue» s2 =>
      simp only [hb] at h
      exact ih s2 s1 (Reachable.step fuel s s2 reply hs hb) h
    | «break» s2 => simp [hb] at h
    | exit_failure s2 => simp [hb] at h
    | abort s2 => simp [hb] at h
    | worker r => simp [hb] at h
    | fault => simp [hb] at h
    | diverge => simp [hb] at h
    | os_impossible => simp [hb] at h

theorem reachable_x_forked : Reachable cookbook_two_branches 2 0 sched_x_forked :=
  reachable_loop cookbook_two_branches 2 0 10
    [⟨100, []⟩, ⟨101, []⟩, ⟨0, [(101, WSTATUS.exited 0)]⟩, ⟨102, []⟩]
    sched_two_branches_start sched_x_forked reachable_two_branches_start rfl

/-- Witness for `dependencies_completed_before_dispatch`: in the cookbook with two branches
X depends on A; when the worker of X is forked, the trace before the fork holds the reap of
A's worker with exit status 0. -/
theorem dependencies_completed_before_dispatch_witness :
    Reachable cookbook_two_branches 2 0 sched_x_forked ∧
    sched_x_forked.events
      = [EVENT.forked 4 100, EVENT.forked 3 101, EVENT.waited 101 3 (WSTATUS.exited 0),
          EVENT.updated] ++ EVENT.forked 1 102 :: [] ∧
    depends_on cookbook_two_branches 1 3 ∧
    ∃ p, EVENT.waited p 3 (WSTATUS.exited 0)
      ∈ [EVENT.forked 4 100, EVENT.forked 3 101, EVENT.waited 101 3 (WSTATUS.exited 0),
          EVENT.updated] :=
  ⟨reachable_x_forked, by decide, by decide,
    (dependencies_completed_before_dispatch cookbook_two_branches 2 0 sched_x_forked
      reachable_x_forked).2.2.2 _ [] 1 102 (by decide) 3 (by decide)⟩

/-! ## The code on further concrete inputs -/

/-- C11, the code at a failing input: D depends on A and B, B depends on A, all states NULL.
With enough fuel `stack_analysis_traversal(D)` visits the three recipes D, B, A and returns
4: A is pushed and counted once from D and once more from B before it is visited. -/
theorem stack_analysis_traversal_counts_pushes (n : Nat) :
    RES.map (fun t => (t.recipe_count, t.visited))
        (stack_analysis_traversal cookbook_shared_dep (n + 5) 0 init_work_queue all_null)
      = RES.ok (4, [0, 2, 1]) :=
  rfl

/-- C12, the code at a failing input: T depends on X1, X2, X3 and the leaf B, and X1, X2, X3
depend on the leaf A; two cooks. The workers of B and A are reaped in one pass, so X3, X2, X1
are enqueued; workers are forked for X3 and X2; then the wait primitive wakes up and
`waitpid` reaps nothing. `update_work_queue` runs again on A and enqueues X1, which is still
in the queue, a second time (queue `[X1, X1]`); later X1 is dispatched to worker 104 and,
while that worker has not been reaped, again to worker 105. -/
theorem update_work_queue_enqueues_twice :
    consistent_edges cookbook_fan ∧
    observe (main cookbook_fan 0 2 20
        [⟨100, []⟩, ⟨101, []⟩, ⟨0, [(100, WSTATUS.exited 0), (101, WSTATUS.exited 0)]⟩,
         ⟨102, []⟩, ⟨103, []⟩, ⟨0, []⟩] all_null)
      = { ending := "running", completed_recipes := [some 5, some 4], queue := [1, 1],
          events := [EVENT.forked 5 100, EVENT.forked 4 101,
            EVENT.waited 100 5 (WSTATUS.exited 0), EVENT.waited 101 4 (WSTATUS.exited 0),
            EVENT.updated, EVENT.forked 3 102, EVENT.forked 2 103, EVENT.updated] } ∧
    observe (main cookbook_fan 0 2 20
        [⟨100, []⟩, ⟨101, []⟩, ⟨0, [(100, WSTATUS.exited 0), (101, WSTATUS.exited 0)]⟩,
         ⟨102, []⟩, ⟨103, []⟩, ⟨0, []⟩, ⟨0, [(102, WSTATUS.exited 0)]⟩, ⟨104, []⟩,
         ⟨0, [(103, WSTATUS.exited 0)]⟩, ⟨105, []⟩] all_null)
      = { ending := "running", completed_recipes := [some 5, some 4, some 3, some 2],
          queue := [],
          events := [EVENT.forked 5 100, EVENT.forked 4 101,
            EVENT.waited 100 5 (WSTATUS.exited 0), EVENT.waited 101 4 (WSTATUS.exited 0),
            EVENT.updated, EVENT.forked 3 102, EVENT.forked 2 103, EVENT.updated,
            EVENT.waited 102 3 (WSTATUS.exited 0), EVENT.updated, EVENT.forked 1 104,
            EVENT.waited 103 2 (WSTATUS.exited 0), EVENT.updated, EVENT.forked 1 105] } := by
  refine ⟨by decide, by decide!, by decide!⟩

/-- C13, the code at a failing input: a task of two steps; the first step exits with status
1 before the parent calls `waitpid(pid, &status, WNOHANG)`, which reaps it and drops the
status; the second step exits 0. `execute_task` returns 0 although a step failed. -/
theorem execute_task_drops_early_status :
    os_first_step_fails_early.valid 2 ∧
    execute_task task_false_cat os_first_step_fails_early
      = { ret := 0,
          spawned := [{ words := ["false"], stdin := FD.inherited_stdin,
                        stdout := FD.pipe_write 0 },
                      { words := ["cat"], stdin := FD.pipe_read 0,
                        stdout := FD.inherited_stdout }],
          dropped := [0], examined := [1] } := by
  refine ⟨by decide, by decide⟩

/-- C15, the code at a failing input: two cooks work on B (pid 100) and A (pid 101) of the
cookbook with two branches; in one pass B's worker is reaped with exit status 0 and then A's
worker with exit status 1. The failure branch sends SIGKILL to pid 100, the worker of the
completed recipe B that was reaped a moment before, and `main` exits with failure. -/
theorem kill_loop_signals_reaped_worker :
    observe (main cookbook_two_branches 0 2 10
        [⟨100, []⟩, ⟨101, []⟩, ⟨0, [(100, WSTATUS.exited 0), (101, WSTATUS.exited 1)]⟩]
        all_null)
      = { ending := "exit failure", completed_recipes := [], queue := [],
          events := [EVENT.forked 4 100, EVENT.forked 3 101,
            EVENT.waited 100 4 (WSTATUS.exited 0), EVENT.waited 101 3 (WSTATUS.exited 1),
            EVENT.killed 100] } := by
  decide

/-- C18, the code at a failing input: the cookbook `[L1, T, L2]` with T depending on the
leaves L1 and L2 is legal; target T, one cook. After `check_circular_tree_cycle` the state
of L1 is still `(void *)1`, so the traversal visits and enqueues only T and L2 (count 2,
queue `[L2]`); when L2's worker is reaped with exit status 0, `get_recipe_by_pid` reads a
pid through L1's state pointer and `main` ends in a memory fault: nothing but L2 is ever
dispatched. -/
theorem single_cook_build_stops_after_first_leaf :
    consistent_edges cookbook_leaf_first ∧
    RES.map (fun t => (t.recipe_count, t.visited, queue_contents t.work_queue, t.states 0))
        (stack_analysis_traversal cookbook_leaf_first 10 1 init_work_queue
          (states_after_check cookbook_leaf_first 10 1 all_null))
      = RES.ok (2, [1, 2], [2], STATE.ONE) ∧
    observe (main cookbook_leaf_first 1 1 10 [⟨100, []⟩] all_null)
      = { ending := "running", completed_recipes := [], queue := [],
          events := [EVENT.forked 2 100] } ∧
    observe (main cookbook_leaf_first 1 1 10 [⟨100, []⟩, ⟨0, [(100, WSTATUS.exited 0)]⟩]
        all_null)
      = { ending := "fault", completed_recipes := [], queue := [], events := [] } := by
  refine ⟨by decide, by decide, by decide, by decide⟩

/-! ## Task runner and worker -/

theorem execute_task_input_failure (task : TASK) (os : TASK_OS)
    (h : task.input_file.isSome = true ∧ os.input_opens = false) :
    execute_task task os = { ret := -1, spawned := [], dropped := [], examined := [] } := by
  simp [execute_task, h.1, h.2]

theorem execute_task_output_failure (task : TASK) (os : TASK_OS)
    (h : task.output_file.isSome = true ∧ os.output_opens = false) :
    execute_task task os = { ret := -1, spawned := [], dropped := [], examined := [] } := by
  unfold execute_task
  split
  · rfl
  · simp [h.1, h.2]

/-- The worker loop from task number `k` on: when it exits 0, and what it ran. -/
theorem worker_loop_spec (os : Nat → TASK_OS) :
    ∀ (ts : List TASK) (k : Nat),
      ((worker_loop os ts k).exit_status = 0 ↔
        ∀ j t, ts[j]? = some t → (execute_task t (os (k + j))).ret = 0) ∧
      ((worker_loop os ts k).exit_status = 0 → (worker_loop os ts k).runs = task_runs os ts k) ∧
      (∀ j t, ts[j]? = some t → (execute_task t (os (k + j))).ret ≠ 0 →
        (∀ i u, i < j → ts[i]? = some u → (execute_task u (os (k + i))).ret = 0) →
        (worker_loop os ts k).exit_status = 1 ∧
          (worker_loop os ts k).runs = task_runs os (ts.take (j + 1)) k) := by
  intro ts
  induction ts with
  | nil =>
    intro k
    refine ⟨by simp [worker_loop], by simp [worker_loop, task_runs], by simp⟩
  | cons t rest ih =>
    intro k
    obtain ⟨ih1, ih2, ih3⟩ := ih (k + 1)
    by_cases hret : (execute_task t (os k)).ret = 0
    · have hloop : worker_loop os (t :: rest) k
          = { exit_status := (worker_loop os rest (k + 1)).exit_status,
              runs := execute_task t (os k) :: (worker_loop os rest (k + 1)).runs } := by
        simp [worker_loop, hret]
      rw [hloop]
      refine ⟨?_, ?_, ?_⟩
      · show (worker_loop os rest (k + 1)).exit_status = 0 ↔ _
        rw [ih1]
        constructor
        · intro h j u hj
          cases j with
          | zero =>
            simp only [List.getElem?_cons_zero, Option.some.injEq] at hj
            rw [← hj]; exact hret
          | succ j =>
            simp only [List.getElem?_cons_succ] at hj
            have := h j u hj
            rw [show k + (j + 1) = k + 1 + j by omega]
            exact this
        · intro h j u hj
          have := h (j + 1) u (by simpa using hj)
          rw [show k + 1 + j = k + (j + 1) by omega]
          exact this
      · intro h0
        show execute_task t (os k) :: (worker_loop os rest (k + 1)).runs = _
        rw [ih2 h0]
        rfl
      · intro j u hj hfail hbefore
        cases j with
        | zero =>
          simp only [List.getElem?_cons_zero, Option.some.injEq] at hj
          rw [← hj] at hfail
          exact absurd hret hfail
        | succ j =>
          simp only [List.getElem?_cons_succ] at hj
          have h3 := ih3 j u hj (by rw [show k + 1 + j = k + (j + 1) by omega]; exact hfail)
            (by
              intro i v hi hv
              have := hbefore (i + 1) v (by omega) (by simpa using hv)
              rw [show k + 1 + i = k + (i + 1) by omega]
              exact this)
          refine ⟨h3.1, ?_⟩
          show execute_task t (os k) :: (worker_loop os rest (k + 1)).runs = _
          rw [h3.2]
          rfl
    · have hloop : worker_loop os (t :: rest) k
          = { exit_status := 1, runs := [execute_task t (os k)] } := by
        simp [worker_loop, hret]
      rw [hloop]
      refine ⟨?_, ?_, ?_⟩
      · constructor
        · intro h; simp at h
        · intro h
          exact absurd (h 0 t (by simp)) hret
      · intro h; simp at h
      · intro j u hj hfail hbefore
        cases j with
        | zero =>
          exact ⟨rfl, by simp [task_runs]⟩
        | succ j =>
          exact absurd (hbefore 0 t (by omega) (by simp)) hret

/-- C14: the worker of a recipe calls `execute_task` on the recipe's tasks in list order;
it exits with status 0 exactly when every call returned 0, and then it ran all tasks; if
task `j` is the first whose call does not return 0, the worker exits with `EXIT_FAILURE`
and its calls are those for the tasks 0 to `j`, nothing after task `j`. -/
theorem worker_exit_status (cb : COOKBOOK) (recipe : Nat) (os : Nat → TASK_OS) :
    ((worker cb recipe os).exit_status = 0 ↔
      ∀ j t, (tasks cb recipe)[j]? = some t → (execute_task t (os j)).ret = 0) ∧
    ((worker cb recipe os).exit_status = 0 →
      (worker cb recipe os).runs = task_runs os (tasks cb recipe) 0) ∧
    (∀ j t, (tasks cb recipe)[j]? = some t → (execute_task t (os j)).ret ≠ 0 →
      (∀ i u, i < j → (tasks cb recipe)[i]? = some u → (execute_task u (os i)).ret = 0) →
      (worker cb recipe os).exit_status = 1 ∧
        (worker cb recipe os).runs = task_runs os ((tasks cb recipe).take (j + 1)) 0) := by
  have h := worker_loop_spec os (tasks cb recipe) 0
  simp only [Nat.zero_add] at h
  exact h

/-- Witness for `worker_exit_status`: the first task of the recipe cannot open its input
file, so the worker exits with `EXIT_FAILURE` after one call of `execute_task`. -/
theorem worker_exit_status_witness :
    (worker cookbook_with_tasks 0 (fun _ => os_input_missing)).exit_status = 1 ∧
    (worker cookbook_with_tasks 0 (fun _ => os_input_missing)).runs
      = task_runs (fun _ => os_input_missing) ((tasks cookbook_with_tasks 0).take (0 + 1)) 0 :=
  (worker_exit_status cookbook_with_tasks 0 (fun _ => os_input_missing)).2.2 0
    task_reading_input rfl (by decide) (by intro i u hi; omega)

/-- C19: when the task has an input file that cannot be opened, or an output file that
cannot be opened, `execute_task` returns -1 and has forked no step process; a worker that
reaches this task exits with a non-zero status. -/
theorem execute_task_open_failure (task : TASK) (os : TASK_OS)
    (h : (task.input_file.isSome = true ∧ os.input_opens = false) ∨
      (task.output_file.isSome = true ∧ os.output_opens = false)) :
    (execute_task task os).ret = -1 ∧ (execute_task task os).spawned = [] ∧
    ∀ (cb : COOKBOOK) (recipe : Nat) (oss : Nat → TASK_OS) (j : Nat),
      (tasks cb recipe)[j]? = some task → oss j = os →
      (worker cb recipe oss).exit_status ≠ 0 := by
  have hrun : execute_task task os
      = { ret := -1, spawned := [], dropped := [], examined := [] } := by
    rcases h with h | h
    · exact execute_task_input_failure task os h
    · exact execute_task_output_failure task os h
  refine ⟨by rw [hrun], by rw [hrun], ?_⟩
  intro cb recipe oss j hj hos h0
  have hspec := (worker_loop_spec oss (tasks cb recipe) 0).1.1 h0 j task hj
  simp only [Nat.zero_add] at hspec
  rw [hos, hrun] at hspec
  simp at hspec

/-- Witness for `execute_task_open_failure`: a task reading `in.txt`, which cannot be
opened. -/
theorem execute_task_open_failure_witness :
    (execute_task task_reading_input os_input_missing).ret = -1 :=
  (execute_task_open_failure task_reading_input os_input_missing (Or.inl ⟨rfl, rfl⟩)).1

/-! ## Recipe lookup -/

theorem find_recipe_loop_none (recipe_name : String) :
    ∀ (l : List RECIPE) (k : Nat),
      find_recipe_loop recipe_name l k = none ↔ ∀ r ∈ l, r.name ≠ recipe_name := by
  intro l
  induction l with
  | nil => intro k; simp [find_recipe_loop]
  | cons r rest ih =>
    intro k
    by_cases h : r.name = recipe_name
    · simp [find_recipe_loop, h]
    · simp [find_recipe_loop, h, ih]

theorem find_recipe_loop_some (recipe_name : String) :
    ∀ (l : List RECIPE) (k i : Nat),
      find_recipe_loop recipe_name l k = some i ↔
        ∃ m, i = k + m ∧ (∃ r, l[m]? = some r ∧ r.name = recipe_name) ∧
          ∀ j, j < m → ∀ r, l[j]? = some r → r.name ≠ recipe_name := by
  intro l
  induction l with
  | nil => intro k i; simp [find_recipe_loop]
  | cons r rest ih =>
    intro k i
    by_cases h : r.name = recipe_name
    · simp only [find_recipe_loop, h, if_true, Option.some.injEq]
      constructor
      · intro e
        exact ⟨0, by omega, ⟨r, by simp, h⟩, by intro j hj; omega⟩
      · rintro ⟨m, hm, _, hall⟩
        cases m with
        | zero => omega
        | succ m => exact absurd h (hall 0 (by omega) r (by simp))
    · simp only [find_recipe_loop, h, if_false]
      rw [ih]
      constructor
      · rintro ⟨m, hm, ⟨r1, hr1, hn⟩, hall⟩
        refine ⟨m + 1, by omega, ⟨r1, by simpa using hr1, hn⟩, ?_⟩
        intro j hj r2 hr2
        cases j with
        | zero =>
          simp only [List.getElem?_cons_zero, Option.some.injEq] at hr2
          rw [← hr2]; exact h
        | succ j =>
          exact hall j (by omega) r2 (by simpa using hr2)
      · rintro ⟨m, hm, ⟨r1, hr1, hn⟩, hall⟩
        cases m with
        | zero =>
          simp only [List.getElem?_cons_zero, Option.some.injEq] at hr1
          rw [← hr1] at hn
          exact absurd hn h
        | succ m =>
          refine ⟨m, by omega, ⟨r1, by simpa using hr1, hn⟩, ?_⟩
          intro j hj r2 hr2
          exact hall (j + 1) (by omega) r2 (by simpa using hr2)

/-- C17: for a cookbook with at least one recipe, `find_recipe` returns the first recipe
for a null or empty name; for another name it returns recipe `i` exactly when `i` is the
first recipe of the list with that name, and NULL exactly when no recipe has that name. For
a null cookbook and for a cookbook without recipes it returns NULL. -/
theorem find_recipe_spec (cb : COOKBOOK) (hne : cb.recipes ≠ []) :
    find_recipe (some cb) none = some 0 ∧
    find_recipe (some cb) (some "") = some 0 ∧
    (∀ n : String, n ≠ "" →
      (∀ i, find_recipe (some cb) (some n) = some i ↔
        (∃ r, cb.recipes[i]? = some r ∧ r.name = n) ∧
          ∀ j, j < i → ∀ r, cb.recipes[j]? = some r → r.name ≠ n) ∧
      (find_recipe (some cb) (some n) = none ↔ ∀ r ∈ cb.recipes, r.name ≠ n)) ∧
    (∀ name, find_recipe none name = none) ∧
    (∀ name, find_recipe (some { recipes := [] }) name = none) := by
  refine ⟨by simp [find_recipe, hne], by simp [find_recipe, hne], ?_, fun _ => rfl,
    fun _ => rfl⟩
  intro n hn
  have hfind : find_recipe (some cb) (some n) = find_recipe_loop n cb.recipes 0 := by
    simp [find_recipe, hne, hn]
  rw [hfind]
  refine ⟨?_, find_recipe_loop_none n cb.recipes 0⟩
  intro i
  rw [find_recipe_loop_some]
  constructor
  · rintro ⟨m, hm, h1, h2⟩
    have : i = m := by omega
    subst this
    exact ⟨h1, h2⟩
  · rintro ⟨h1, h2⟩
    exact ⟨i, by omega, h1, h2⟩

/-- Witness for `find_recipe_spec`: in the cookbook with two branches the name "Y" is found
at index 2 and the empty name selects the first recipe. -/
theorem find_recipe_spec_witness :
    find_recipe (some cookbook_two_branches) (some "") = some 0 ∧
    find_recipe (some cookbook_two_branches) (some "Y") = some 2 :=
  ⟨(find_recipe_spec cookbook_two_branches (by decide)).2.1, by decide⟩

/-! ## Command line -/

theorem validargs_loop_spec (atoi : String → Int) :
    ∀ (n : Nat) (l : List String), l.length ≤ n →
      ∀ (cookbook recipe_name : String) (max_cooks : Int) (parsed : Bool),
        ((validargs_loop atoi l cookbook recipe_name max_cooks parsed).1 = -1 ↔
          args_error atoi (read_args l) max_cooks parsed) ∧
        (¬ args_error atoi (read_args l) max_cooks parsed →
          validargs_loop atoi l cookbook recipe_name max_cooks parsed
            = (cooks_after atoi (read_args l) max_cooks,
               (last_cookbook (read_args l)).getD cookbook,
               recipe_after (read_args l) recipe_name parsed)) := by
  intro n
  induction n with
  | zero =>
    intro l hl cookbook recipe_name max_cooks parsed
    have : l = [] := List.length_eq_zero.1 (by omega)
    subst this
    simp only [validargs_loop, read_args, args_error, cooks_after, last_cooks, positionals,
      recipe_after, last_cookbook]
    by_cases hm : max_cooks ≤ 0
    · cases parsed <;> simp [hm]
    · have hne : ¬ max_cooks = -1 := by omega
      cases parsed <;> simp [hm, hne]
  | succ n ih =>
    intro l hl cookbook recipe_name max_cooks parsed
    match l, hl with
    | [], _ =>
      simp only [validargs_loop, read_args, args_error, cooks_after, last_cooks, positionals,
        recipe_after, last_cookbook]
      by_cases hm : max_cooks ≤ 0
      · cases parsed <;> simp [hm]
      · have hne : ¬ max_cooks = -1 := by omega
        cases parsed <;> simp [hm, hne]
    | [arg], _ =>
      by_cases hf : arg = "-f"
      · simp [validargs_loop, read_args, args_error, hf]
      · by_cases hc : arg = "-c"
        · simp [validargs_loop, read_args, args_error, hc]
        · cases parsed with
          | true =>
            simp [validargs_loop, read_args, args_error, hf, hc, positionals]
          | false =>
            simp only [validargs_loop, read_args, args_error, hf, hc, positionals, cooks_after,
              last_cooks, recipe_after, last_cookbook, or_self, if_false]
            by_cases hm : max_cooks ≤ 0
            · simp [hm]
            · have hne : ¬ max_cooks = -1 := by omega
              simp [hm, hne]
    | arg :: value :: rest, hl =>
      have hrest : rest.length ≤ n := by simp only [List.length_cons] at hl; omega
      have hvrest : (value :: rest).length ≤ n := by simp only [List.length_cons] at hl ⊢; omega
      by_cases hf : arg = "-f"
      · have h := ih rest hrest value recipe_name max_cooks parsed
        have e1 : validargs_loop atoi (arg :: value :: rest) cookbook recipe_name max_cooks parsed
            = validargs_loop atoi rest value recipe_name max_cooks parsed := by
          simp [validargs_loop, hf]
        have e2 : read_args (arg :: value :: rest) = ARG.cookbook_flag value :: read_args rest := by
          simp [read_args, hf]
        have e3 : args_error atoi (ARG.cookbook_flag value :: read_args rest) max_cooks parsed
            ↔ args_error atoi (read_args rest) max_cooks parsed := by
          simp [args_error, positionals, cooks_after, last_cooks]
        rw [e1, e2, e3]
        refine ⟨h.1, ?_⟩
        intro hne
        rw [h.2 hne]
        simp only [cooks_after, last_cooks, recipe_after, positionals, last_cookbook]
        cases last_cookbook (read_args rest) <;> rfl
      · by_cases hc : arg = "-c"
        · have h := ih rest hrest cookbook recipe_name (atoi value) parsed
          have e1 : validargs_loop atoi (arg :: value :: rest) cookbook recipe_name max_cooks
              parsed = validargs_loop atoi rest cookbook recipe_name (atoi value) parsed := by
            simp [validargs_loop, hc]
          have e2 : read_args (arg :: value :: rest) = ARG.cooks_flag value :: read_args rest := by
            simp [read_args, hc]
          have e4 : cooks_after atoi (ARG.cooks_flag value :: read_args rest) max_cooks
              = cooks_after atoi (read_args rest) (atoi value) := by
            simp only [cooks_after, last_cooks]
            cases last_cooks (read_args rest) <;> rfl
          have e3 : args_error atoi (ARG.cooks_flag value :: read_args rest) max_cooks parsed
              ↔ args_error atoi (read_args rest) (atoi value) parsed := by
            simp only [args_error, e4, positionals]
            simp
          rw [e1, e2, e3, e4]
          refine ⟨h.1, ?_⟩
          intro hne
          rw [h.2 hne]
          simp [recipe_after, positionals, last_cookbook]
        · have e2 : read_args (arg :: value :: rest)
              = ARG.positional arg :: read_args (value :: rest) := by
            simp [read_args, hf, hc]
          rw [e2]
          cases parsed with
          | true =>
            simp [validargs_loop, args_error, hf, hc, positionals]
          | false =>
            have h := ih (value :: rest) hvrest cookbook arg max_cooks true
            have e1 : validargs_loop atoi (arg :: value :: rest) cookbook recipe_name max_cooks
                false = validargs_loop atoi (value :: rest) cookbook arg max_cooks true := by
              simp [validargs_loop, hf, hc]
            have e3 : args_error atoi (ARG.positional arg :: read_args (value :: rest))
                max_cooks false ↔ args_error atoi (read_args (value :: rest)) max_cooks true := by
              simp only [args_error, positionals, cooks_after, last_cooks, List.length_cons]
              simp
            rw [e1, e3]
            refine ⟨h.1, ?_⟩
            intro hne
            rw [h.2 hne]
            simp [recipe_after, positionals, last_cookbook, cooks_after, last_cooks]

/-- C16: with the command line read from left to right (a `-f` or `-c` takes the next
argument as its value, everything else is positional), `validargs` returns -1 exactly when
(a) a `-f` or `-c` is the last argument and has no value, or (b) there is more than one
positional argument, or (c) the value of the last `-c` is not positive as `atoi` reads it;
otherwise it returns the `atoi` of the last `-c` value (1 without `-c`), sets the cookbook to
the last `-f` value (unchanged without `-f`) and the recipe name to the positional argument
(unchanged without one). -/
theorem validargs_spec (atoi : String → Int) (cookbook recipe_name : String)
    (argv : List String) :
    ((validargs atoi cookbook recipe_name argv).1 = -1 ↔
      (ARG.flag_without_value ∈ read_args (argv.drop 1) ∨
        2 ≤ (positionals (read_args (argv.drop 1))).length ∨
        ∃ value, last_cooks (read_args (argv.drop 1)) = some value ∧ atoi value ≤ 0)) ∧
    (¬ (ARG.flag_without_value ∈ read_args (argv.drop 1) ∨
        2 ≤ (positionals (read_args (argv.drop 1))).length ∨
        ∃ value, last_cooks (read_args (argv.drop 1)) = some value ∧ atoi value ≤ 0) →
      validargs atoi cookbook recipe_name argv
        = ((match last_cooks (read_args (argv.drop 1)) with
            | some value => atoi value
            | none => 1),
           (last_cookbook (read_args (argv.drop 1))).getD cookbook,
           (positionals (read_args (argv.drop 1))).head?.getD recipe_name)) := by
  have h := validargs_loop_spec atoi (argv.drop 1).length (argv.drop 1) (le_refl _)
    cookbook recipe_name 1 false
  have herr : args_error atoi (read_args (argv.drop 1)) 1 false ↔
      (ARG.flag_without_value ∈ read_args (argv.drop 1) ∨
        2 ≤ (positionals (read_args (argv.drop 1))).length ∨
        ∃ value, last_cooks (read_args (argv.drop 1)) = some value ∧ atoi value ≤ 0) := by
    simp only [args_error, cooks_after]
    cases last_cooks (read_args (argv.drop 1)) with
    | none => simp
    | some v => simp
  rw [herr] at h
  exact ⟨h.1, fun hne => by
    have := h.2 hne
    simpa [validargs, cooks_after, recipe_after] using this⟩

/-! ## Removal from the queue, pipeline wiring, loop guards and the frame of the update -/

/-- The scan of `dequeue_recipe` leaves the queue as it is when no node holds the recipe. -/
theorem dequeue_recipe_loop_absent (q : WORK_QUEUE) (target : Nat) :
    ∀ (cur : List (Nat × Nat)) (fuel : Nat) (previous p : Option Nat),
      Linked q.heap p cur → target ∉ cur.map Prod.snd →
      dequeue_recipe_loop target fuel q previous p = (none, q) := by
  intro cur
  induction cur with
  | nil =>
    intro fuel previous p hp _
    have : p = none := hp
    subst this
    exact dequeue_recipe_loop_none target fuel q previous
  | cons c rest ih =>
    intro fuel previous p hp hnot
    obtain ⟨hpc, nx, hc, hrest⟩ := hp
    simp only [List.map_cons, List.mem_cons, not_or] at hnot
    subst hpc
    cases fuel with
    | zero => rfl
    | succ f =>
      have hne : ¬ c.2 = target := fun e => hnot.1 e.symm
      have : dequeue_recipe_loop target (f + 1) q previous (some c.1)
          = dequeue_recipe_loop target f q (some c.1) nx := by
        simp only [dequeue_recipe_loop, hc, hne, if_false]
      rw [this]
      exact ih f (some c.1) nx hrest hnot.2

theorem dequeue_recipe_absent (q : WORK_QUEUE) (l : List Nat) (target : Nat)
    (h : Represents q l) (hnot : target ∉ l) : dequeue_recipe q target = (none, q) := by
  obtain ⟨cells, hl, hlink, _, _, _⟩ := h
  unfold dequeue_recipe
  cases hf : q.front with
  | none => rfl
  | some a =>
    simp only
    rw [← hf]
    exact dequeue_recipe_loop_absent q target cells q.brk none q.front hlink (by rw [hl]; exact hnot)

/-- C23: on a well-formed queue holding `l`, `dequeue_recipe(q, r)` with `r` in the queue
returns `r` and leaves a well-formed queue holding `l` without the first occurrence of `r`
(the elements before and after it in their order), on which a later `enqueue` appends at
the end; with `r` not in the queue it returns NULL and the queue is unchanged. -/
theorem dequeue_recipe_spec (q : WORK_QUEUE) (l : List Nat) (r : Nat) (h : Represents q l) :
    (r ∈ l →
      (dequeue_recipe q r).1 = some r ∧
      (∃ before after, l = before ++ r :: after ∧ r ∉ before ∧
        Represents (dequeue_recipe q r).2 (before ++ after) ∧
        ∀ x, Represents (enqueue (dequeue_recipe q r).2 x) (before ++ after ++ [x]))) ∧
    (r ∉ l → dequeue_recipe q r = (none, q)) := by
  refine ⟨?_, dequeue_recipe_absent q l r h⟩
  intro hmem
  obtain ⟨h1, h2⟩ := represents_dequeue_recipe q l r h
  refine ⟨by rw [h1, if_pos hmem], ?_⟩
  obtain ⟨before, after, hb, hl, herase⟩ := List.exists_erase_eq hmem
  rw [herase] at h2
  exact ⟨before, after, hl, hb, h2, fun x => represents_enqueue _ _ x h2⟩

/-- Witness for `dequeue_recipe_spec`: removing the last node of a queue of two. -/
theorem dequeue_recipe_spec_witness :
    Represents (enqueue (enqueue init_work_queue 7) 3) [7, 3] ∧
    (dequeue_recipe (enqueue (enqueue init_work_queue 7) 3) 3).1 = some 3 ∧
    queue_contents (enqueue (dequeue_recipe (enqueue (enqueue init_work_queue 7) 3) 3).2 5)
      = [7, 5] :=
  ⟨represents_enqueue _ _ 3 (represents_enqueue _ _ 7 represents_init),
   ((dequeue_recipe_spec _ [7, 3] 3
      (represents_enqueue _ _ 3 (represents_enqueue _ _ 7 represents_init))).1
      (by decide)).1,
   by decide⟩

/-- The wiring of the step at position `j` of the steps still to be forked, when the loop
is at position `i` of the task with `prev_fd` as the read end kept from the step before. -/
theorem spawn_steps_getElem (input_fd output_fd : Bool) :
    ∀ (steps : List STEP) (i : Nat) (prev_fd : Option FD) (j : Nat) (step : STEP),
      steps[j]? = some step →
      (spawn_steps input_fd output_fd steps i prev_fd)[j]? = some
        { words := step.words,
          stdin := if j = 0 then
              (match prev_fd with
               | some fd => fd
               | none => if i = 0 ∧ input_fd = true then FD.input_file else FD.inherited_stdin)
            else FD.pipe_read (i + j - 1),
          stdout := if j + 1 = steps.length then
              (if output_fd = true then FD.output_file else FD.inherited_stdout)
            else FD.pipe_write (i + j) } := by
  intro steps
  induction steps with
  | nil => intro i prev_fd j step h; simp at h
  | cons s rest ih =>
    intro i prev_fd j step h
    cases j with
    | zero =>
      simp only [List.getElem?_cons_zero, Option.some.injEq] at h
      subst h
      simp only [spawn_steps, List.getElem?_cons_zero, List.length_cons, if_true, Nat.add_zero]
      congr 2
      by_cases hr : rest = []
      · subst hr; cases output_fd <;> simp
      · have : ¬ (0 + 1 = rest.length + 1) := by
          intro e
          exact hr (List.length_eq_zero.mp (by omega))
        simp [hr, this]
    | succ j =>
      simp only [List.getElem?_cons_succ] at h
      have := ih (i + 1) (some (FD.pipe_read i)) j step h
      simp only [spawn_steps, List.getElem?_cons_succ, List.length_cons]
      rw [this]
      congr 2
      · have e : i + 1 + j - 1 = i + (j + 1) - 1 := by omega
        by_cases hj : j = 0
        · subst hj; simp
        · simp [hj, e]
      · have e : i + 1 + j = i + (j + 1) := by omega
        by_cases hj : j + 1 = rest.length
        · simp [hj]
        · simp [hj, e]

theorem spawn_steps_length (input_fd output_fd : Bool) :
    ∀ (steps : List STEP) (i : Nat) (prev_fd : Option FD),
      (spawn_steps input_fd output_fd steps i prev_fd).length = steps.length := by
  intro steps
  induction steps with
  | nil => intro i prev_fd; rfl
  | cons s rest ih => intro i prev_fd; simp [spawn_steps, ih]

/-- C24: when the files the task names can be opened, `execute_task` forks one process per
step, in order, each running the words of its step; the first reads the input file when the
task has one and the inherited standard input otherwise, the last writes the output file when
the task has one and the inherited standard output otherwise, and every step that has a
successor writes the write end of its own pipe, whose read end is the standard input of the
successor. With a single step and both files the step reads the one and writes the other. -/
theorem execute_task_wiring (task : TASK) (os : TASK_OS)
    (hin : task.input_file.isSome = true → os.input_opens = true)
    (hout : task.output_file.isSome = true → os.output_opens = true) :
    (execute_task task os).spawned.length = task.steps.length ∧
    ∀ (j : Nat) (step : STEP), task.steps[j]? = some step →
      (execute_task task os).spawned[j]? = some
        { words := step.words,
          stdin := if j = 0 then
              (if task.input_file.isSome = true then FD.input_file else FD.inherited_stdin)
            else FD.pipe_read (j - 1),
          stdout := if j + 1 = task.steps.length then
              (if task.output_file.isSome = true then FD.output_file else FD.inherited_stdout)
            else FD.pipe_write j } := by
  have h1 : ¬ (task.input_file.isSome && !os.input_opens) = true := by
    intro h
    simp only [Bool.and_eq_true, Bool.not_eq_true', Bool.not_eq_eq_eq_not, Bool.not_true] at h
    rw [hin h.1] at h
    exact absurd h.2 (by decide)
  have h2 : ¬ (task.output_file.isSome && !os.output_opens) = true := by
    intro h
    simp only [Bool.and_eq_true, Bool.not_eq_true', Bool.not_eq_eq_eq_not, Bool.not_true] at h
    rw [hout h.1] at h
    exact absurd h.2 (by decide)
  have hs : (execute_task task os).spawned
      = spawn_steps task.input_file.isSome task.output_file.isSome task.steps 0 none := by
    unfold execute_task
    rw [if_neg h1, if_neg h2]
  rw [hs]
  refine ⟨spawn_steps_length _ _ _ _ _, ?_⟩
  intro j step hj
  rw [spawn_steps_getElem _ _ task.steps 0 none j step hj]
  simp

/-- Witness for `execute_task_wiring`: the middle step of a three-step pipeline. -/
theorem execute_task_wiring_witness :
    (execute_task task_three_steps os_all_fine).spawned[1]? = some
      { words := ["sort"], stdin := FD.pipe_read 0, stdout := FD.pipe_write 1 } :=
  (execute_task_wiring task_three_steps os_all_fine (fun _ => rfl) (fun _ => rfl)).2
    1 { words := ["sort"] } rfl

/-- C25: with `0 <= active_cooks <= N` and `N >= 1`, the loop body takes the `sigsuspend`
branch exactly when `active_cooks == N` or the queue is empty with `active_cooks > 0`, the
dispatch branch exactly when the queue is non-empty with `active_cooks < N`, and leaves the
loop exactly when the queue is empty with `active_cooks == 0`; so it never suspends with no
worker in flight. `loop_body` does what the branch says. -/
theorem loop_branch_spec (cb : COOKBOOK) (max_cooks : Int) (recipe_selected fuel : Nat)
    (s : SCHED) (reply : OS_REPLY)
    (hN : 1 ≤ max_cooks) (h0 : 0 ≤ s.active_cooks) (h1 : s.active_cooks ≤ max_cooks) :
    (loop_branch max_cooks s = BRANCH.suspend ↔
      (s.active_cooks = max_cooks ∨
        (is_work_queue_empty s.work_queue = true ∧ 0 < s.active_cooks))) ∧
    (loop_branch max_cooks s = BRANCH.dispatch ↔
      (is_work_queue_empty s.work_queue = false ∧ s.active_cooks < max_cooks)) ∧
    (loop_branch max_cooks s = BRANCH.leave ↔
      (is_work_queue_empty s.work_queue = true ∧ s.active_cooks = 0)) ∧
    (loop_branch max_cooks s = BRANCH.suspend → 0 < s.active_cooks) ∧
    loop_body cb max_cooks recipe_selected fuel s reply =
      (match loop_branch max_cooks s with
       | BRANCH.leave => ITER.break s
       | BRANCH.dispatch => dispatch s reply.fork_pid
       | BRANCH.suspend => collect cb recipe_selected fuel s reply.reaped) := by
  have g1 : (is_work_queue_empty s.work_queue && s.active_cooks == 0) = true ↔
      (is_work_queue_empty s.work_queue = true ∧ s.active_cooks = 0) := by simp
  have g2 : (!is_work_queue_empty s.work_queue && decide (s.active_cooks < max_cooks)) = true ↔
      (is_work_queue_empty s.work_queue = false ∧ s.active_cooks < max_cooks) := by simp
  unfold loop_branch loop_body
  by_cases c1 : (is_work_queue_empty s.work_queue && s.active_cooks == 0) = true
  · rw [if_pos c1, if_pos c1]
    have f := g1.mp c1
    refine ⟨⟨(fun h => by cases h), fun h => ?_⟩, ⟨(fun h => by cases h), fun h => ?_⟩,
      ⟨fun _ => f, fun _ => rfl⟩, (fun h => by cases h), rfl⟩
    · rcases h with h | h <;> omega
    · rw [f.1] at h; cases h.1
  · rw [if_neg c1, if_neg c1]
    by_cases c2 : (!is_work_queue_empty s.work_queue && decide (s.active_cooks < max_cooks)) = true
    · rw [if_pos c2, if_pos c2]
      have f := g2.mp c2
      refine ⟨⟨(fun h => by cases h), fun h => ?_⟩, ⟨fun _ => f, fun _ => rfl⟩,
        ⟨(fun h => by cases h), fun h => ?_⟩, (fun h => by cases h), rfl⟩
      · rcases h with h | h
        · omega
        · rw [f.1] at h; cases h.1
      · rw [f.1] at h; cases h.1
    · rw [if_neg c2, if_neg c2]
      have f1 : ¬ (is_work_queue_empty s.work_queue = true ∧ s.active_cooks = 0) :=
        fun h => c1 (g1.mpr h)
      have f2 : ¬ (is_work_queue_empty s.work_queue = false ∧ s.active_cooks < max_cooks) :=
        fun h => c2 (g2.mpr h)
      have key : s.active_cooks = max_cooks ∨
          (is_work_queue_empty s.work_queue = true ∧ 0 < s.active_cooks) := by
        cases he : is_work_queue_empty s.work_queue
        · left
          have : ¬ s.active_cooks < max_cooks := fun h => f2 ⟨he, h⟩
          omega
        · right
          have : ¬ s.active_cooks = 0 := fun h => f1 ⟨he, h⟩
          exact ⟨rfl, by omega⟩
      refine ⟨⟨fun _ => key, fun _ => rfl⟩, ⟨(fun h => by cases h), fun h => absurd h f2⟩,
        ⟨(fun h => by cases h), fun h => absurd h f1⟩, fun _ => ?_, rfl⟩
      rcases key with h | h
      · omega
      · exact h.2

/-- Witness for `loop_branch_spec`: two workers in flight with `N = 2` and a queue that
still holds a recipe. -/
theorem loop_branch_spec_witness :
    loop_branch 2 sched_two_running = BRANCH.suspend ∧
    loop_body cookbook_two_branches 2 0 10 sched_two_running ⟨0, []⟩
      = collect cookbook_two_branches 0 10 sched_two_running [] :=
  ⟨by decide,
   (loop_branch_spec cookbook_two_branches 2 0 10 sched_two_running ⟨0, []⟩
      (by decide) (by decide) (by decide)).2.2.2.2⟩

/-- The reaping loop does not touch the work queue or the state slots. -/
theorem reap_loop_frame (cb : COOKBOOK) (recipe_selected : Nat)
    (reaped : List (Int × WSTATUS)) (s s1 : SCHED)
    (h : reap_loop cb recipe_selected reaped s = ITER.continue s1) :
    s1.states = s.states ∧ s1.work_queue = s.work_queue :=
  reap_loop_induct cb recipe_selected
    (fun x => x.states = s.states ∧ x.work_queue = s.work_queue)
    (fun _ _ _ _ hp _ _ => hp) reaped s s1 ⟨rfl, rfl⟩ h

/-- C27: in a collector pass that goes on, the call of `update_work_queue` is handed the
state slots, the queue and `completed_recipes` as the reaping loop left them and gives back a
queue only: after the call every state slot, `completed_recipes`, the worker count and the
process table are what they were before it, only the work queue is replaced (the cookbook,
with its `depends_on`, dependents and task lists, is read only). No slot differs from its
value at the start of the pass either. -/
theorem update_work_queue_frame (cb : COOKBOOK) (recipe_selected fuel : Nat) (s s2 : SCHED)
    (reaped : List (Int × WSTATUS))
    (h : collect cb recipe_selected fuel s reaped = ITER.continue s2) :
    ∃ s1 work_queue, reap_loop cb recipe_selected reaped s = ITER.continue s1 ∧
      update_work_queue cb fuel s1.states s1.work_queue s1.completed_recipes recipe_selected
        = RES.ok work_queue ∧
      s2.work_queue = work_queue ∧
      s2.states = s1.states ∧
      s2.completed_recipes = s1.completed_recipes ∧
      s2.active_cooks = s1.active_cooks ∧
      s2.children = s1.children ∧
      s2.states = s.states := by
  obtain ⟨s1, work_queue, hr, hu, h2⟩ := collect_continue cb recipe_selected fuel s s2 reaped h
  subst h2
  exact ⟨s1, work_queue, hr, hu, rfl, rfl, rfl, rfl, rfl,
    (reap_loop_frame cb recipe_selected reaped s s1 hr).1⟩

/-- Witness for `update_work_queue_frame`: the pass that reaps B's worker enqueues Y and
leaves the slot of Y null. -/
theorem update_work_queue_frame_witness :
    collect cookbook_two_branches 0 10 sched_two_running [(100, WSTATUS.exited 0)]
      = ITER.continue sched_b_reaped ∧
    queue_contents sched_b_reaped.work_queue = [2] ∧
    sched_b_reaped.states 2 = STATE.NULL ∧
    sched_b_reaped.states = sched_two_running.states :=
  ⟨rfl, by decide, by decide,
   (update_work_queue_frame cookbook_two_branches 0 10 sched_two_running sched_b_reaped
      [(100, WSTATUS.exited 0)] rfl).choose_spec.choose_spec.2.2.2.2.2.2.2⟩

/-! ## The cycle check terminates and what it returns -/

theorem sum_map_le_length (f : Nat → Nat) (hf : ∀ x, f x ≤ 1) :
    ∀ l : List Nat, (l.map f).sum ≤ l.length := by
  intro l
  induction l with
  | nil => simp
  | cons a rest ih =>
    simp only [List.map_cons, List.sum_cons, List.length_cons]
    have := hf a
    omega

theorem sum_map_mono (f g : Nat → Nat) (h : ∀ x, g x ≤ f x) :
    ∀ l : List Nat, (l.map g).sum ≤ (l.map f).sum := by
  intro l
  induction l with
  | nil => simp
  | cons a rest ih =>
    simp only [List.map_cons, List.sum_cons]
    have := h a
    omega

theorem fresh_recipes_le (cb : COOKBOOK) (stack : STACK) (st : STATES) :
    fresh_recipes cb stack st ≤ cb.recipes.length := by
  unfold fresh_recipes
  have := sum_map_le_length
    (fun r => if is_visited st r = true ∨ r ∈ stack then 0 else 1)
    (fun x => by dsimp only; split <;> omega) (List.range cb.recipes.length)
  simpa using this

theorem fresh_recipes_mono (cb : COOKBOOK) (stack stack1 : STACK) (st st1 : STATES)
    (hs : ∀ r, r ∈ stack → r ∈ stack1)
    (hv : ∀ r, is_visited st r = true → is_visited st1 r = true) :
    fresh_recipes cb stack1 st1 ≤ fresh_recipes cb stack st := by
  unfold fresh_recipes
  apply sum_map_mono
  intro x
  dsimp only
  by_cases h : is_visited st x = true ∨ x ∈ stack
  · have h1 : is_visited st1 x = true ∨ x ∈ stack1 := h.imp (hv x) (hs x)
    rw [if_pos h, if_pos h1]
  · rw [if_neg h]
    split <;> omega

theorem fresh_recipes_push (cb : COOKBOOK) (stack : STACK) (st : STATES) (recipe : Nat)
    (hlt : recipe < cb.recipes.length) (hv : is_visited st recipe = false)
    (hs : recipe ∉ stack) :
    fresh_recipes cb (push stack recipe) st + 1 = fresh_recipes cb stack st := by
  unfold fresh_recipes
  have h := sum_map_update
    (fun r => if is_visited st r = true ∨ r ∈ stack then 0 else 1)
    (fun r => if is_visited st r = true ∨ r ∈ push stack recipe then 0 else 1) recipe
    (by
      intro x hx
      simp only [push, List.mem_cons, hx, false_or])
    (by simp [push])
    (List.range cb.recipes.length) (List.nodup_range _)
  have hm : recipe ∈ List.range cb.recipes.length := List.mem_range.mpr hlt
  have hn : ¬ (is_visited st recipe = true ∨ recipe ∈ stack) := by
    rw [hv]; simp [hs]
  simp only [hm, if_true, hn, if_false] at h
  exact h

theorem detect_deps_terminates (cb : COOKBOOK)
    (call : Nat → STACK → STATES → RES (Int × STACK × STATES)) (bound : Nat)
    (hcall : ∀ d stack st, fresh_recipes cb stack st ≤ bound →
      ∃ res, call d stack st = RES.ok res ∧ DetectPost cb d stack st res) :
    ∀ (links : List (Option Nat)) (stack : STACK) (st : STATES),
      fresh_recipes cb stack st ≤ bound →
      ∃ res, detect_deps call links stack st = RES.ok res ∧
        (∃ extra, res.2.1 = extra ++ stack) ∧
        (∀ r, is_visited st r = true → is_visited res.2.2 r = true) ∧
        ((res.1 = -1 ∧ none ∈ links) ∨ (res.1 = 0 ∧ none ∉ links)) := by
  intro links
  induction links with
  | nil =>
    intro stack st _
    exact ⟨(0, stack, st), rfl, ⟨[], rfl⟩, fun _ h => h, Or.inr ⟨rfl, by simp⟩⟩
  | cons d rest ih =>
    intro stack st hb
    cases d with
    | none =>
      exact ⟨(-1, stack, st), rfl, ⟨[], rfl⟩, fun _ h => h, Or.inl ⟨rfl, by simp⟩⟩
    | some d =>
      obtain ⟨res1, hc, ⟨extra1, he1⟩, hv1, _⟩ := hcall d stack st hb
      obtain ⟨c1, stack1, st1⟩ := res1
      simp only at he1 hv1
      have hb1 : fresh_recipes cb stack1 st1 ≤ bound :=
        le_trans (fresh_recipes_mono cb stack stack1 st st1
          (fun r hr => by rw [he1]; exact List.mem_append_right _ hr) hv1) hb
      obtain ⟨res, hd, ⟨extra, he⟩, hv, hcode⟩ := ih stack1 st1 hb1
      refine ⟨res, ?_, ⟨extra ++ extra1, ?_⟩, fun r h => hv r (hv1 r h), ?_⟩
      · simp only [detect_deps, hc]
        exact hd
      · rw [he, he1, List.append_assoc]
      · rcases hcode with ⟨h1, h2⟩ | ⟨h1, h2⟩
        · exact Or.inl ⟨h1, List.mem_cons_of_mem _ h2⟩
        · exact Or.inr ⟨h1, by simpa using h2⟩

theorem deps_eq_nil_of_ge (cb : COOKBOOK) (r : Nat) (h : cb.recipes.length ≤ r) :
    deps cb r = [] := by
  unfold deps
  rw [List.getElem?_eq_none h]

theorem detect_cycle_dfs_terminates (cb : COOKBOOK) :
    ∀ (fuel recipe : Nat) (stack : STACK) (st : STATES),
      fresh_recipes cb stack st + 1 ≤ fuel →
      ∃ res, detect_cycle_dfs cb fuel recipe stack st = RES.ok res ∧
        DetectPost cb recipe stack st res := by
  intro fuel
  induction fuel with
  | zero => intro recipe stack st h; omega
  | succ n ih =>
    intro recipe stack st hf
    by_cases hv : is_visited st recipe = true
    · refine ⟨(0, stack, st), by simp [detect_cycle_dfs, hv], ⟨[], rfl⟩, fun _ h => h,
        fun _ => ⟨rfl, rfl⟩, ?_, Or.inl rfl⟩
      simp [hv]
    · have hv0 : is_visited st recipe = false := by simpa using hv
      by_cases hself : some recipe ∈ deps cb recipe
      · refine ⟨(-1, stack, st), by simp [detect_cycle_dfs, hv0, hself], ⟨[], rfl⟩,
          fun _ h => h, fun _ => ⟨rfl, rfl⟩, ?_, Or.inr rfl⟩
        simp [hv0, hself]
      · by_cases hon : recipe ∈ stack
        · refine ⟨(-1, stack, st), by simp [detect_cycle_dfs, hv0, hself, hon], ⟨[], rfl⟩,
            fun _ h => h, fun _ => ⟨rfl, rfl⟩, ?_, Or.inr rfl⟩
          simp [hv0, hon]
        · have hloop : ∃ res, detect_deps (detect_cycle_dfs cb n) (deps cb recipe)
              (push stack recipe) st = RES.ok res ∧
              (∃ extra, res.2.1 = extra ++ push stack recipe) ∧
              (∀ r, is_visited st r = true → is_visited res.2.2 r = true) ∧
              ((res.1 = -1 ∧ none ∈ deps cb recipe) ∨ (res.1 = 0 ∧ none ∉ deps cb recipe)) := by
            by_cases hlt : recipe < cb.recipes.length
            · have hp := fresh_recipes_push cb stack st recipe hlt hv0 hon
              have hn : 1 ≤ n := by omega
              exact detect_deps_terminates cb (detect_cycle_dfs cb n) (n - 1)
                (fun d stack2 st2 hb => ih d stack2 st2 (by omega))
                (deps cb recipe) (push stack recipe) st (by omega)
            · rw [deps_eq_nil_of_ge cb recipe (by omega)]
              exact ⟨(0, push stack recipe, st), rfl, ⟨[], rfl⟩, fun _ h => h,
                Or.inr ⟨rfl, by simp⟩⟩
          obtain ⟨res, hd, ⟨extra, he⟩, hvis, hcode⟩ := hloop
          obtain ⟨code, stack1, st1⟩ := res
          simp only at he hvis hcode
          have hnot : ¬ (is_visited st recipe = true ∨ recipe ∈ stack) := by
            rintro (h | h)
            · exact hv h
            · exact hon h
          rcases hcode with ⟨hc, hnull⟩ | ⟨hc, hnull⟩
          · subst hc
            refine ⟨(-1, stack1, st1), ?_, ⟨extra ++ [recipe], ?_⟩, hvis,
              fun h => absurd h hnot, ?_, Or.inr rfl⟩
            · simp [detect_cycle_dfs, hv0, hself, hon, hd]
            · rw [he]; simp [push]
            · simp [hv0, hnull]
          · subst hc
            refine ⟨(0, (pop stack1).2, mark_visited st1 recipe), ?_, ?_, ?_,
              fun h => absurd h hnot, ?_, Or.inl rfl⟩
            · simp [detect_cycle_dfs, hv0, hself, hon, hd]
            · rw [he]
              cases extra with
              | nil => exact ⟨[], rfl⟩
              | cons x xs => exact ⟨xs ++ [recipe], by simp [push, pop]⟩
            · intro r hr
              have := hvis r hr
              simp only [is_visited, mark_visited, Function.update_apply] at this ⊢
              split
              · decide
              · exact this
            · simp [hv0, hself, hon, hnull]

/-- C29: with fuel for one more call than the cookbook has recipes, `detect_cycle_dfs`
returns on every cookbook, whatever cycles, self-loops or null entries it has, and from every
stack and state. A call on a recipe that is visited or on the stack returns at once and
leaves stack and states as they are, so only a recipe that is neither is pushed; and the
stack a call leaves ends with the stack it was given, so no call pops an entry that was on
the stack when it started, also when calls below it returned without popping their own
entry. -/
theorem detect_cycle_dfs_total (cb : COOKBOOK) (fuel recipe : Nat) (stack : STACK)
    (st : STATES) (hfuel : cb.recipes.length + 1 ≤ fuel) :
    ∃ code stack1 st1, detect_cycle_dfs cb fuel recipe stack st = RES.ok (code, stack1, st1) ∧
      (∃ extra, stack1 = extra ++ stack) ∧
      (is_visited st recipe = true ∨ recipe ∈ stack → stack1 = stack ∧ st1 = st) := by
  have hf : fresh_recipes cb stack st + 1 ≤ fuel := by
    have := fresh_recipes_le cb stack st
    omega
  obtain ⟨res, h, hsuffix, _, hearly, _⟩ := detect_cycle_dfs_terminates cb fuel recipe stack st hf
  obtain ⟨code, stack1, st1⟩ := res
  exact ⟨code, stack1, st1, h, hsuffix, hearly⟩

/-- Witness for `detect_cycle_dfs_total`: below the target T the call on A returns at the
null entry without popping A; the call on T then pops that entry and T stays on the stack. -/
theorem detect_cycle_dfs_total_witness :
    (∃ code stack1 st1,
      detect_cycle_dfs cookbook_dangling_below 3 0 [] all_null = RES.ok (code, stack1, st1) ∧
      (∃ extra, stack1 = extra ++ []) ∧
      (is_visited all_null 0 = true ∨ 0 ∈ ([] : STACK) → stack1 = [] ∧ st1 = all_null)) ∧
    RES.map (fun res => (res.1, res.2.1))
      (detect_cycle_dfs cookbook_dangling_below 3 0 [] all_null) = RES.ok (0, [0]) :=
  ⟨detect_cycle_dfs_total cookbook_dangling_below 3 0 [] all_null (by decide), by decide⟩

/-- C28: with every state slot null on entry and fuel for one more call than the cookbook
has recipes, `check_circular_tree_cycle(target)` returns, and it returns -1 exactly when the
target lists itself in its `this_depends_on` or that list has an entry with a null recipe;
in every other case it returns 0, whatever the calls on the dependencies found. -/
theorem check_circular_tree_cycle_spec (cb : COOKBOOK) (fuel target : Nat) (st : STATES)
    (hst : ∀ r, st r = STATE.NULL) (hfuel : cb.recipes.length + 1 ≤ fuel) :
    ∃ ret st1, check_circular_tree_cycle cb fuel target st = RES.ok (ret, st1) ∧
      (ret = -1 ↔ (some target ∈ deps cb target ∨ none ∈ deps cb target)) ∧
      (ret = -1 ∨ ret = 0) := by
  have hf : fresh_recipes cb [] st + 1 ≤ fuel := by
    have := fresh_recipes_le cb [] st
    omega
  obtain ⟨res, h, _, _, _, hcode, h01⟩ := detect_cycle_dfs_terminates cb fuel target [] st hf
  obtain ⟨code, stack1, st1⟩ := res
  have hv : is_visited st target = false := by simp [is_visited, hst target]
  refine ⟨code, initialize_recipe_states cb (some target) st1, ?_, ?_, h01.symm⟩
  · simp [check_circular_tree_cycle, h]
  · simp only at hcode
    rw [hcode]
    simp [hv]

/-- Witness for `check_circular_tree_cycle_spec`: the cookbook with the cycle A, B below the
target T, where the check returns 0. -/
theorem check_circular_tree_cycle_spec_witness :
    (∃ ret st1,
      check_circular_tree_cycle cookbook_cycle_below 5 0 all_null = RES.ok (ret, st1) ∧
      (ret = -1 ↔ (some 0 ∈ deps cookbook_cycle_below 0 ∨ none ∈ deps cookbook_cycle_below 0)) ∧
      (ret = -1 ∨ ret = 0)) ∧
    RES.map Prod.fst (check_circular_tree_cycle cookbook_cycle_below 5 0 all_null) = RES.ok 0 :=
  ⟨check_circular_tree_cycle_spec cookbook_cycle_below 5 0 all_null (fun _ => rfl) (by decide),
   by decide⟩

/-! ## The counter of the traversal -/

theorem pushes_along_append (cb : COOKBOOK) (v : Nat) :
    ∀ (l seen : List Nat),
      pushes_along cb seen (l ++ [v])
        = pushes_along cb seen l + pushes_at cb (seen ++ l ++ [v]) v := by
  intro l
  induction l with
  | nil => intro seen; simp [pushes_along]
  | cons a rest ih =>
    intro seen
    have h := ih (seen ++ [a])
    have e : seen ++ [a] ++ rest ++ [v] = seen ++ (a :: rest) ++ [v] := by simp
    rw [e] at h
    show pushes_at cb (seen ++ [a]) a + pushes_along cb (seen ++ [a]) (rest ++ [v]) = _
    rw [h]
    simp only [pushes_along]
    omega

theorem push_unvisited_count (st : STATES) :
    ∀ (links : List (Option Nat)) (stack : STACK) (count : Nat) (stack1 : STACK) (count1 : Nat),
      push_unvisited st links stack count = RES.ok (stack1, count1) →
      count1 = count + (links.filter (fun d => match d with
          | some x => !is_visited st x
          | none => false)).length ∧
      stack1.length = stack.length + (links.filter (fun d => match d with
          | some x => !is_visited st x
          | none => false)).length := by
  intro links
  induction links with
  | nil =>
    intro stack count stack1 count1 h
    simp only [push_unvisited, RES.ok.injEq, Prod.mk.injEq] at h
    simp [h.1, h.2]
  | cons d rest ih =>
    intro stack count stack1 count1 h
    cases d with
    | none => simp [push_unvisited] at h
    | some d =>
      by_cases hv : is_visited st d = true
      · simp only [push_unvisited, hv, if_true] at h
        have := ih stack count stack1 count1 h
        simpa [List.filter, hv] using this
      · have hv0 : is_visited st d = false := by simpa using hv
        simp only [push_unvisited, hv0] at h
        have := ih (push stack d) (count + 1) stack1 count1 (by simpa using h)
        simp only [push, List.length_cons] at this
        simp only [List.filter, hv0, Bool.not_false, List.length_cons]
        omega

theorem traversal_body_counted (cb : COOKBOOK) (s s1 : TRAVERSAL) (current : Nat)
    (stack1 : STACK) (hs : s.stack = current :: stack1)
    (hmark : ∀ r, is_visited s.states r = true ↔ r ∈ s.visited)
    (hc : TRAVERSAL.Counted cb s)
    (hb : traversal_body cb s current stack1 = RES.ok s1) : TRAVERSAL.Counted cb s1 := by
  obtain ⟨hp, hr⟩ := hc
  rw [hs] at hr
  simp only [List.length_cons] at hr
  unfold traversal_body at hb
  split at hb
  · simp only [RES.ok.injEq] at hb
    subst hb
    exact ⟨hp, by simp only; omega⟩
  · rename_i hv
    cases hpu : push_unvisited (mark_visited s.states current) (deps cb current) stack1
        s.recipe_count with
    | ok res =>
      obtain ⟨stack2, count2⟩ := res
      simp only [hpu, RES.ok.injEq] at hb
      subst hb
      obtain ⟨h1, h2⟩ := push_unvisited_count _ _ _ _ _ _ hpu
      have hk : (List.filter (fun d => match d with
            | some x => !is_visited (mark_visited s.states current) x
            | none => false) (deps cb current)).length
          = pushes_at cb (s.visited ++ [current]) current := by
        unfold pushes_at
        congr 1
        apply List.filter_congr
        intro d _
        cases d with
        | none => rfl
        | some x =>
          simp only
          by_cases e : x = current
          · subst e
            simp [is_visited, mark_visited]
          · have hx : is_visited (mark_visited s.states current) x = is_visited s.states x := by
              simp [is_visited, mark_visited, Function.update_noteq e]
            rw [hx]
            by_cases hxv : is_visited s.states x = true
            · have := (hmark x).1 hxv
              simp [hxv, this]
            · have hn : x ∉ s.visited := fun h => hxv ((hmark x).2 h)
              have hxf : is_visited s.states x = false := by simpa using hxv
              simp [hxf, hn, e]
      rw [hk] at h1 h2
      refine ⟨?_, ?_⟩
      · show count2 = 1 + pushes_along cb [] (s.visited ++ [current])
        rw [pushes_along_append, List.nil_append]
        omega
      · show (s.visited ++ [current]).length + stack2.length ≤ count2
        simp only [List.length_append, List.length_singleton]
        omega
    | fault => simp [hpu] at hb
    | diverge => simp [hpu] at hb

/-- The result of the traversal for a target whose closure has no null link, entered with all
states null: the queue, the visit order and the counter. -/
theorem stack_analysis_traversal_result (cb : COOKBOOK) (target : Nat)
    (work_queue : WORK_QUEUE) (l0 : List Nat) (st : STATES) (fuel : Nat)
    (hq : Represents work_queue l0) (hst : ∀ r, st r = STATE.NULL)
    (hlinks : ∀ r, in_closure cb target r → none ∉ deps cb r)
    (hfuel : total_links cb + 2 ≤ fuel) :
    ∃ t, stack_analysis_traversal cb fuel target work_queue st = RES.ok t ∧
      Represents t.work_queue (l0 ++ t.visited.filter (fun r => decide (deps cb r = []))) ∧
      t.visited.Nodup ∧ (∀ r, r ∈ t.visited ↔ in_closure cb target r) ∧
      t.recipe_count = 1 + pushes_along cb [] t.visited ∧
      t.visited.length ≤ t.recipe_count := by
  have inv0 : TRAVERSAL.Inv cb target l0
      { stack := push [] target, states := st, work_queue := work_queue, recipe_count := 1,
        visited := [] } := by
    refine ⟨?_, List.nodup_nil, by simp, ?_, by simp, Or.inr (by simp [push]), by simpa using hq⟩
    · intro r; simp [is_visited, hst r]
    · intro r hr
      simp only [push, List.mem_singleton] at hr
      subst hr
      exact Relation.ReflTransGen.refl
  obtain ⟨t, ht, invt, hstack⟩ := traversal_loop_ok cb target l0 hlinks fuel _ inv0 (by
    rw [unvisited_links_all_null cb st hst]
    simp only [push, List.length_singleton]
    omega)
  have hcount : TRAVERSAL.Inv cb target l0 t ∧ TRAVERSAL.Counted cb t :=
    traversal_loop_induct cb (fun x => TRAVERSAL.Inv cb target l0 x ∧ TRAVERSAL.Counted cb x)
      (by
        intro s current stack1 s1 hp hs hb
        obtain ⟨s2, hb2, inv2, _⟩ := traversal_body_inv cb target l0 s current stack1 hlinks hs hp.1
        rw [hb] at hb2
        simp only [RES.ok.injEq] at hb2
        subst hb2
        exact ⟨inv2, traversal_body_counted cb s s1 current stack1 hs hp.1.marked hp.2 hb⟩)
      fuel _ t ht ⟨inv0, ⟨rfl, by simp [push]⟩⟩
  refine ⟨{ t with states := initialize_recipe_states cb (some target) t.states }, ?_,
    invt.queue, invt.nodup, inv_visited_iff cb target l0 t invt hstack, hcount.2.pushes, ?_⟩
  · simp [stack_analysis_traversal, ht]
  · have := hcount.2.room
    show t.visited.length ≤ t.recipe_count
    omega

/-- C30: for a target whose closure has no null link, entered with all states null and a
well-formed queue, `stack_analysis_traversal` returns, and the value it returns is 1 plus the
number of pushes of not-yet-visited dependencies along its visit order. The visit order
lists exactly the recipes reachable from the target, each once, and the value is at least
their number: whatever list of pairwise distinct recipes of the closure `completed_recipes`
holds, its length, the next index included, stays within the value returned. -/
theorem stack_analysis_traversal_count_bounds_closure (cb : COOKBOOK) (target : Nat)
    (work_queue : WORK_QUEUE) (l0 : List Nat) (st : STATES) (fuel : Nat)
    (hq : Represents work_queue l0) (hst : ∀ r, st r = STATE.NULL)
    (hlinks : ∀ r, in_closure cb target r → none ∉ deps cb r)
    (hfuel : total_links cb + 2 ≤ fuel) :
    ∃ t, stack_analysis_traversal cb fuel target work_queue st = RES.ok t ∧
      t.recipe_count = 1 + pushes_along cb [] t.visited ∧
      t.visited.Nodup ∧ (∀ r, r ∈ t.visited ↔ in_closure cb target r) ∧
      t.visited.length ≤ t.recipe_count ∧
      ∀ completed : List Nat, completed.Nodup →
        (∀ r ∈ completed, in_closure cb target r) → completed.length ≤ t.recipe_count := by
  obtain ⟨t, ht, _, hnd, hiff, hcount, hlen⟩ :=
    stack_analysis_traversal_result cb target work_queue l0 st fuel hq hst hlinks hfuel
  refine ⟨t, ht, hcount, hnd, hiff, hlen, ?_⟩
  intro completed hcn hcl
  have hsub : completed ⊆ t.visited := fun r hr => (hiff r).2 (hcl r hr)
  have := (List.subperm_of_subset hcn hsub).length_le
  omega

/-- Witness for `stack_analysis_traversal_count_bounds_closure`: D depends on A and B, B on
A; the traversal returns 4 for a closure of three recipes. -/
theorem stack_analysis_traversal_count_bounds_closure_witness :
    (∃ t, stack_analysis_traversal cookbook_shared_dep 10 0 init_work_queue all_null
        = RES.ok t ∧
      t.recipe_count = 1 + pushes_along cookbook_shared_dep [] t.visited ∧
      t.visited.Nodup ∧ (∀ r, r ∈ t.visited ↔ in_closure cookbook_shared_dep 0 r) ∧
      t.visited.length ≤ t.recipe_count ∧
      ∀ completed : List Nat, completed.Nodup →
        (∀ r ∈ completed, in_closure cookbook_shared_dep 0 r) →
        completed.length ≤ t.recipe_count) ∧
    1 + pushes_along cookbook_shared_dep [] [0, 2, 1] = 4 :=
  ⟨stack_analysis_traversal_count_bounds_closure cookbook_shared_dep 0 init_work_queue []
    all_null 10 represents_init (fun _ => rfl)
    (by
      intro r _ hmem
      obtain ⟨x, hx, hd⟩ := deps_mem_recipes _ _ _ hmem
      have hall : ∀ x ∈ cookbook_shared_dep.recipes, none ∉ x.this_depends_on := by decide
      exact hall x hx hd)
    (by decide),
   by decide⟩

/-! ## An empty queue after the traversal -/

theorem lt_of_deps_ne_nil (cb : COOKBOOK) (r : Nat) (h : deps cb r ≠ []) :
    r < cb.recipes.length := by
  by_contra hge
  exact h (deps_eq_nil_of_ge cb r (by omega))

/-- Below a recipe of an acyclic closure without null links there is a leaf: a descending
path cannot visit more recipes than the cookbook has. -/
theorem leaf_below (cb : COOKBOOK) (target : Nat)
    (hlinks : ∀ r, in_closure cb target r → none ∉ deps cb r)
    (hacyclic : ∀ r, in_closure cb target r → ¬ Relation.TransGen (depends_on cb) r r) :
    ∀ (k : Nat) (anc : List Nat) (r : Nat), cb.recipes.length ≤ anc.length + k →
      in_closure cb target r → anc.Nodup → (∀ a ∈ anc, a < cb.recipes.length) →
      (∀ a ∈ anc, Relation.TransGen (depends_on cb) a r) →
      ∃ leaf, in_closure cb target leaf ∧ deps cb leaf = [] := by
  intro k
  induction k with
  | zero =>
    intro anc r hk hr hnd hlt hpath
    by_cases hleaf : deps cb r = []
    · exact ⟨r, hr, hleaf⟩
    · exfalso
      have hrn : r ∉ anc := fun h => hacyclic r hr (hpath r h)
      have := nodup_length_le (r :: anc) cb.recipes.length (List.nodup_cons.2 ⟨hrn, hnd⟩)
        (by
          intro a ha
          rcases List.mem_cons.1 ha with e | h
          · exact e ▸ lt_of_deps_ne_nil cb r hleaf
          · exact hlt a h)
      simp only [List.length_cons] at this
      omega
  | succ k ih =>
    intro anc r hk hr hnd hlt hpath
    by_cases hleaf : deps cb r = []
    · exact ⟨r, hr, hleaf⟩
    · have hrn : r ∉ anc := fun h => hacyclic r hr (hpath r h)
      cases hd : deps cb r with
      | nil => exact absurd hd hleaf
      | cons d rest =>
        cases d with
        | none => exact absurd (by rw [hd]; simp) (hlinks r hr)
        | some x =>
          have hrx : depends_on cb r x := by
            unfold depends_on
            rw [hd]
            simp
          refine ih (r :: anc) x (by simp only [List.length_cons]; omega)
            (Relation.ReflTransGen.tail hr hrx) (List.nodup_cons.2 ⟨hrn, hnd⟩) ?_ ?_
          · intro a ha
            rcases List.mem_cons.1 ha with e | h
            · exact e ▸ lt_of_deps_ne_nil cb r hleaf
            · exact hlt a h
          · intro a ha
            rcases List.mem_cons.1 ha with e | h
            · exact e ▸ Relation.TransGen.single hrx
            · exact Relation.TransGen.tail (hpath a h) hrx

/-- C26: for a target whose closure has no null link, entered with an empty queue and all
states null, `stack_analysis_traversal` returns and the queue it leaves is empty exactly
when no recipe reachable from the target has an empty `this_depends_on` list; with an acyclic
closure the queue is not empty. And whenever the traversal in `main` leaves the queue empty,
`main` exits with failure and has forked no worker. -/
theorem stack_analysis_traversal_empty_queue (cb : COOKBOOK) (target : Nat) (st : STATES)
    (fuel : Nat) (hst : ∀ r, st r = STATE.NULL)
    (hlinks : ∀ r, in_closure cb target r → none ∉ deps cb r)
    (hfuel : total_links cb + 2 ≤ fuel) :
    (∃ t, stack_analysis_traversal cb fuel target init_work_queue st = RES.ok t ∧
      (is_work_queue_empty t.work_queue = true ↔
        ¬ ∃ r, in_closure cb target r ∧ deps cb r = []) ∧
      ((∀ r, in_closure cb target r → ¬ Relation.TransGen (depends_on cb) r r) →
        is_work_queue_empty t.work_queue = false)) ∧
    (∀ (max_cooks : Int) (replies : List OS_REPLY) (st0 st1 : STATES) (t : TRAVERSAL),
      check_circular_tree_cycle cb fuel target (initialize_recipe_states cb (some 0) st0)
        = RES.ok (0, st1) →
      stack_analysis_traversal cb fuel target init_work_queue st1 = RES.ok t →
      is_work_queue_empty t.work_queue = true →
      main cb target max_cooks fuel replies st0 = EXIT.failure []) := by
  constructor
  · obtain ⟨t, ht, hrep, _, hiff, _, _⟩ :=
      stack_analysis_traversal_result cb target init_work_queue [] st fuel represents_init hst
        hlinks hfuel
    have hempty : is_work_queue_empty t.work_queue = true ↔
        ¬ ∃ r, in_closure cb target r ∧ deps cb r = [] := by
      rw [represents_empty_iff _ _ hrep, List.nil_append, List.filter_eq_nil_iff]
      constructor
      · rintro h ⟨r, hr, hleaf⟩
        exact h r ((hiff r).2 hr) (by simpa using hleaf)
      · intro h r hr hleaf
        exact h ⟨r, (hiff r).1 hr, by simpa using hleaf⟩
    refine ⟨t, ht, hempty, ?_⟩
    intro hacyclic
    have hleaf := leaf_below cb target hlinks hacyclic cb.recipes.length [] target (by simp)
      Relation.ReflTransGen.refl List.nodup_nil (by simp) (by simp)
    cases he : is_work_queue_empty t.work_queue with
    | false => rfl
    | true => exact absurd hleaf (hempty.1 he)
  · intro max_cooks replies st0 st1 t hcheck htrav hempty
    simp [main, hcheck, htrav, hempty]

/-- Witness for `stack_analysis_traversal_empty_queue`: two recipes that depend on each
other; the traversal leaves the queue empty and `main` exits with failure. -/
theorem stack_analysis_traversal_empty_queue_witness :
    ((∃ t, stack_analysis_traversal cookbook_two_cycle 10 0 init_work_queue all_null
        = RES.ok t ∧
      (is_work_queue_empty t.work_queue = true ↔
        ¬ ∃ r, in_closure cookbook_two_cycle 0 r ∧ deps cookbook_two_cycle r = []) ∧
      ((∀ r, in_closure cookbook_two_cycle 0 r →
          ¬ Relation.TransGen (depends_on cookbook_two_cycle) r r) →
        is_work_queue_empty t.work_queue = false)) ∧
    (∀ (max_cooks : Int) (replies : List OS_REPLY) (st0 st1 : STATES) (t : TRAVERSAL),
      check_circular_tree_cycle cookbook_two_cycle 10 0
          (initialize_recipe_states cookbook_two_cycle (some 0) st0) = RES.ok (0, st1) →
      stack_analysis_traversal cookbook_two_cycle 10 0 init_work_queue st1 = RES.ok t →
      is_work_queue_empty t.work_queue = true →
      main cookbook_two_cycle 0 max_cooks 10 replies st0 = EXIT.failure [])) ∧
    RES.map (fun t => is_work_queue_empty t.work_queue)
      (stack_analysis_traversal cookbook_two_cycle 10 0 init_work_queue all_null)
      = RES.ok true ∧
    main cookbook_two_cycle 0 2 10 [] all_null = EXIT.failure [] :=
  ⟨stack_analysis_traversal_empty_queue cookbook_two_cycle 0 all_null 10 (fun _ => rfl)
    (by
      intro r _ hmem
      obtain ⟨x, hx, hd⟩ := deps_mem_recipes _ _ _ hmem
      have hall : ∀ x ∈ cookbook_two_cycle.recipes, none ∉ x.this_depends_on := by decide
      exact hall x hx hd)
    (by decide),
   by decide, rfl⟩

/-! ## The reverse walk to the main recipe -/

theorem dependents_eq_nil_of_ge (cb : COOKBOOK) (r : Nat) (h : cb.recipes.length ≤ r) :
    dependents cb r = [] := by
  unfold dependents
  rw [List.getElem?_eq_none h]

theorem lt_of_dependent_of (cb : COOKBOOK) (a b : Nat) (h : dependent_of cb a b) :
    a < cb.recipes.length := by
  by_contra hge
  unfold dependent_of at h
  rw [dependents_eq_nil_of_ge cb a (by omega)] at h
  simp at h

/-- A rank that falls along every `depend_on_this` link excludes cycles. -/
theorem acyclic_dependents_of_rank (cb : COOKBOOK) (rank : Nat → Nat)
    (h : ∀ a b, dependent_of cb a b → rank b < rank a) : acyclic_dependents cb := by
  have key : ∀ a b, Relation.TransGen (dependent_of cb) a b → rank b < rank a := by
    intro a b hab
    induction hab with
    | single h1 => exact h _ _ h1
    | tail _ h2 ih => exact lt_trans (h _ _ h2) ih
  intro a ha
  exact lt_irrefl _ (key a a ha)

/-- When every call the list walk of `is_reaches_main` may make returns, with the answer
described by `Q`, the walk returns, and says yes exactly when some link is the main recipe
or satisfies `Q`. -/
theorem reaches_links_total (call : Option Nat → RES Bool) (main_recipe : Nat)
    (Q : Option Nat → Prop) :
    ∀ links : List (Option Nat),
      (∀ c ∈ links, c ≠ some main_recipe → ∃ b, call c = RES.ok b ∧ (b = true ↔ Q c)) →
      ∃ b, reaches_links call main_recipe links = RES.ok b ∧
        (b = true ↔ ∃ c ∈ links, c = some main_recipe ∨ Q c) := by
  intro links
  induction links with
  | nil => intro _; exact ⟨false, rfl, by simp⟩
  | cons c rest ih =>
    intro hcall
    by_cases hc : c = some main_recipe
    · exact ⟨true, by simp [reaches_links, hc], by simp [hc]⟩
    · obtain ⟨b, hb, hq⟩ := hcall c (by simp) hc
      cases b with
      | true =>
        refine ⟨true, by simp [reaches_links, hc, hb], ?_⟩
        simp only [true_iff]
        exact ⟨c, by simp, Or.inr (hq.1 rfl)⟩
      | false =>
        obtain ⟨b1, hb1, hq1⟩ := ih (fun c1 hm => hcall c1 (List.mem_cons_of_mem _ hm))
        refine ⟨b1, by simp [reaches_links, hc, hb, hb1], ?_⟩
        rw [hq1]
        constructor
        · rintro ⟨c1, hm, h1⟩
          exact ⟨c1, List.mem_cons_of_mem _ hm, h1⟩
        · rintro ⟨c1, hm, h1⟩
          rcases List.mem_cons.1 hm with e | hm
          · subst e
            rcases h1 with h1 | h1
            · exact absurd h1 hc
            · exact absurd (hq.2 h1) (by simp)
          · exact ⟨c1, hm, h1⟩

/-- On a cookbook whose `depend_on_this` links form no cycle, a call of `is_reaches_main`
below the distinct recipes `anc` returns the right answer when the fuel covers the recipes
that are not in `anc`. -/
theorem is_reaches_main_terminates (cb : COOKBOOK) (main_recipe : Nat)
    (hacyclic : acyclic_dependents cb) :
    ∀ (fuel : Nat) (r : Nat) (anc : List Nat), anc.Nodup →
      (∀ a ∈ anc, a < cb.recipes.length) →
      (∀ a ∈ anc, Relation.TransGen (dependent_of cb) a r) →
      cb.recipes.length + 1 ≤ anc.length + fuel →
      ∃ b, is_reaches_main cb main_recipe fuel (some r) = RES.ok b ∧
        (b = true ↔ reaches cb r main_recipe) := by
  intro fuel
  induction fuel with
  | zero =>
    intro r anc hnd hlt _ hf
    have := nodup_length_le anc cb.recipes.length hnd hlt
    omega
  | succ n ih =>
    intro r anc hnd hlt hpath hf
    by_cases hr : r = main_recipe
    · subst hr
      exact ⟨true, by simp [is_reaches_main], by simp [reaches, Relation.ReflTransGen.refl]⟩
    · have hrn : r ∉ anc := fun h => hacyclic r (hpath r h)
      have hcalls : ∀ c ∈ dependents cb r, c ≠ some main_recipe →
          ∃ b, is_reaches_main cb main_recipe n c = RES.ok b ∧
            (b = true ↔ ∃ x, c = some x ∧ reaches cb x main_recipe) := by
        intro c hc _
        have hrlt : r < cb.recipes.length := by
          by_contra hge
          rw [dependents_eq_nil_of_ge cb r (by omega)] at hc
          simp at hc
        have hnd1 : (r :: anc).Nodup := List.nodup_cons.2 ⟨hrn, hnd⟩
        have hlt1 : ∀ a ∈ r :: anc, a < cb.recipes.length := by
          intro a ha
          rcases List.mem_cons.1 ha with e | h
          · exact e ▸ hrlt
          · exact hlt a h
        have hlen := nodup_length_le (r :: anc) cb.recipes.length hnd1 hlt1
        simp only [List.length_cons] at hlen
        cases c with
        | none =>
          cases n with
          | zero => omega
          | succ m => exact ⟨false, rfl, by simp⟩
        | some x =>
          have hrx : dependent_of cb r x := hc
          obtain ⟨b, hb, hq⟩ := ih x (r :: anc) hnd1 hlt1
            (by
              intro a ha
              rcases List.mem_cons.1 ha with e | h
              · exact e ▸ Relation.TransGen.single hrx
              · exact Relation.TransGen.tail (hpath a h) hrx)
            (by simp only [List.length_cons]; omega)
          exact ⟨b, hb, by simp [hq]⟩
      obtain ⟨b, hb, hq⟩ := reaches_links_total (is_reaches_main cb main_recipe n) main_recipe
        (fun c => ∃ x, c = some x ∧ reaches cb x main_recipe) (dependents cb r) hcalls
      refine ⟨b, by simp [is_reaches_main, hr, hb], ?_⟩
      rw [hq]
      constructor
      · rintro ⟨c, hm, hc | ⟨x, hx, hreach⟩⟩
        · subst hc
          exact Relation.ReflTransGen.single hm
        · subst hx
          exact Relation.ReflTransGen.head hm hreach
      · intro hreach
        rcases Relation.ReflTransGen.cases_head hreach with e | ⟨x, hrx, hx⟩
        · exact absurd e hr
        · exact ⟨some x, hrx, Or.inr ⟨x, rfl, hx⟩⟩

/-- C22: on a cookbook whose `depend_on_this` links form no cycle, with fuel for one more
call than the cookbook has recipes, `is_reaches_main(r, target)` returns for every recipe
`r`, and returns 1 exactly when the target is reachable from `r` by zero or more steps along
`depend_on_this` links; for a null `r` it returns 0. -/
theorem is_reaches_main_spec (cb : COOKBOOK) (main_recipe fuel : Nat)
    (hacyclic : acyclic_dependents cb) (hfuel : cb.recipes.length + 1 ≤ fuel) :
    (∀ r, ∃ b, is_reaches_main cb main_recipe fuel (some r) = RES.ok b ∧
      (b = true ↔ reaches cb r main_recipe)) ∧
    is_reaches_main cb main_recipe fuel none = RES.ok false := by
  refine ⟨fun r => is_reaches_main_terminates cb main_recipe hacyclic fuel r [] List.nodup_nil
    (by simp) (by simp) (by simpa using hfuel), ?_⟩
  cases fuel with
  | zero => omega
  | succ n => rfl

/-- In the cookbook with two branches every `depend_on_this` link leads to a recipe with a
smaller index. -/
theorem acyclic_dependents_two_branches : acyclic_dependents cookbook_two_branches := by
  apply acyclic_dependents_of_rank cookbook_two_branches id
  intro a b hab
  have hlt := lt_of_dependent_of _ _ _ hab
  have hall : ∀ a, a < 5 → (dependents cookbook_two_branches a).all
      (fun d => match d with
        | some b => decide (b < a)
        | none => true) = true := by decide
  have := List.all_eq_true.1 (hall a hlt) (some b) hab
  simpa using this

/-- Witness for `is_reaches_main_spec`: in the cookbook with two branches the leaf A (3)
reaches the target T (0) and does not reach Y (2). -/
theorem is_reaches_main_spec_witness :
    ((∀ r, ∃ b, is_reaches_main cookbook_two_branches 0 6 (some r) = RES.ok b ∧
      (b = true ↔ reaches cookbook_two_branches r 0)) ∧
    is_reaches_main cookbook_two_branches 0 6 none = RES.ok false) ∧
    is_reaches_main cookbook_two_branches 0 6 (some 3) = RES.ok true ∧
    is_reaches_main cookbook_two_branches 2 6 (some 3) = RES.ok false :=
  ⟨is_reaches_main_spec cookbook_two_branches 0 6 acyclic_dependents_two_branches (by decide),
   by decide, by decide⟩

/-! ## Readiness propagation stays in the subtree of the target -/

theorem dependents_in_range_two_branches :
    ∀ a b, some b ∈ dependents cookbook_two_branches a →
      b < cookbook_two_branches.recipes.length := by
  intro a b hab
  have hlt := lt_of_dependent_of _ _ _ hab
  have hall : ∀ a, a < 5 → (dependents cookbook_two_branches a).all
      (fun d => match d with
        | some b => decide (b < 5)
        | none => true) = true := by decide
  have := List.all_eq_true.1 (hall a hlt) (some b) hab
  simpa using this

/-! ## The readiness propagation on a cycle outside the closure -/

/-- The reverse walk from P or from Q towards T never returns: P and Q list each other as
dependents and neither is T. -/
theorem is_reaches_main_on_outside_cycle :
    ∀ fuel : Nat,
      is_reaches_main cookbook_cycle_outside 0 fuel (some 3) = RES.diverge ∧
      is_reaches_main cookbook_cycle_outside 0 fuel (some 4) = RES.diverge := by
  intro fuel
  induction fuel with
  | zero => exact ⟨rfl, rfl⟩
  | succ n ih =>
    constructor
    · show reaches_links (is_reaches_main cookbook_cycle_outside 0 n) 0 [some 4] = RES.diverge
      simp [reaches_links, ih.2]
    · show reaches_links (is_reaches_main cookbook_cycle_outside 0 n) 0 [some 3] = RES.diverge
      simp [reaches_links, ih.1]

theorem update_work_queue_on_outside_cycle (fuel : Nat) (st : STATES) (q : WORK_QUEUE) :
    update_work_queue cookbook_cycle_outside fuel st q [some 2] 0 = RES.diverge := by
  have h3 := (is_reaches_main_on_outside_cycle fuel).1
  have hp : push_dependents cookbook_cycle_outside fuel [some 2] 0
      (dependents cookbook_cycle_outside 2) [] = RES.diverge := by
    show push_dependents cookbook_cycle_outside fuel [some 2] 0 [some 1, some 3] []
      = RES.diverge
    cases fuel with
    | zero => rfl
    | succ n =>
      have h1 : is_reaches_main cookbook_cycle_outside 0 (n + 1) (some 1) = RES.ok true := rfl
      simp [push_dependents, is_in_completed_recipes, h1, h3]
  show (match ([some 2] : List (Option Nat)).getLast? with
    | none => RES.fault
    | some none => RES.fault
    | some (some completed_recipe) =>
      match push_dependents cookbook_cycle_outside fuel [some 2] 0
          (dependents cookbook_cycle_outside completed_recipe) [] with
      | RES.ok stack => update_loop cookbook_cycle_outside st [some 2] fuel stack
          (dequeue_recipe q completed_recipe).2
      | RES.fault => RES.fault
      | RES.diverge => RES.diverge) = RES.diverge
  simp only [List.getLast?_singleton, hp]

theorem reachable_c_running : Reachable cookbook_cycle_outside 1 0 sched_c_running :=
  Reachable.step 10 _ sched_c_running ⟨100, []⟩
    (Reachable.init 10 all_null (states_after_check cookbook_cycle_outside 10 0 all_null)
      (traversal_result cookbook_cycle_outside 10 0
        (states_after_check cookbook_cycle_outside 10 0 all_null)) rfl rfl rfl)
    rfl

/-- In the cookbook with a cycle outside the closure, the closure of T is T, D, C, and the
`this_depends_on` links inside it lead to larger indices: it has no cycle. -/
theorem closure_acyclic_cycle_outside :
    ∀ r, in_closure cookbook_cycle_outside 0 r →
      ¬ Relation.TransGen (depends_on cookbook_cycle_outside) r r := by
  have hstep : ∀ a b, depends_on cookbook_cycle_outside a b → a ≤ 2 → a < b ∧ b ≤ 2 := by
    intro a b hab ha
    have hall : ∀ a, a < 3 → (deps cookbook_cycle_outside a).all
        (fun d => match d with
          | some b => decide (a < b ∧ b ≤ 2)
          | none => true) = true := by decide
    have := List.all_eq_true.1 (hall a (by omega)) (some b) hab
    simpa using this
  have hclosure : ∀ r, in_closure cookbook_cycle_outside 0 r → r ≤ 2 := by
    intro r hr
    induction hr with
    | refl => omega
    | tail _ hd ih => exact (hstep _ _ hd ih).2
  have htrans : ∀ a b, Relation.TransGen (depends_on cookbook_cycle_outside) a b → a ≤ 2 →
      a < b ∧ b ≤ 2 := by
    intro a b hab
    induction hab with
    | single h => exact hstep _ _ h
    | tail _ h ih =>
      intro ha
      have h1 := ih ha
      have h2 := hstep _ _ h h1.2
      exact ⟨by omega, h2.2⟩
  intro r hr hcycle
  have := htrans r r hcycle (hclosure r hr)
  omega

/-- C31, the code at a failing input: the target T depends on D and D on the leaf C; outside
the closure of T, P depends on C and Q, and Q on P. The edges are consistent inverses, the
closure of T has no cycle, the dependents of C are pairwise distinct, and `main` reaches the state in which the worker of C
(pid 100) is the only one forked. When that worker is reaped with exit status 0, D is a
direct dependent of the last entry C of `completed_recipes`, is not completed, reaches the
target, has a null state and has its only dependency completed; but the pass does not
enqueue D: the reverse walk from P runs between P and Q for ever, so for every amount of fuel
the pass, like the call of `update_work_queue` on any queue and any states, does not
return. -/
theorem update_work_queue_never_returns :
    consistent_edges cookbook_cycle_outside ∧
    (∀ r, in_closure cookbook_cycle_outside 0 r →
      ¬ Relation.TransGen (depends_on cookbook_cycle_outside) r r) ∧
    (dependents cookbook_cycle_outside 2).Nodup ∧
    Reachable cookbook_cycle_outside 1 0 sched_c_running ∧
    sched_c_running.events = [EVENT.forked 2 100] ∧
    (some 1 ∈ dependents cookbook_cycle_outside 2 ∧ reaches cookbook_cycle_outside 1 0 ∧
      sched_c_running.states 1 = STATE.NULL ∧ deps cookbook_cycle_outside 1 = [some 2]) ∧
    (∀ fuel, collect cookbook_cycle_outside 0 fuel sched_c_running
      [(100, WSTATUS.exited 0)] = ITER.diverge) ∧
    (∀ fuel st q, update_work_queue cookbook_cycle_outside fuel st q [some 2] 0
      = RES.diverge) := by
  refine ⟨by decide, closure_acyclic_cycle_outside, by decide, reachable_c_running, by decide,
    ⟨by decide, Relation.ReflTransGen.single (by decide), by decide, by decide⟩, ?_,
    update_work_queue_on_outside_cycle⟩
  intro fuel
  have hr : reap_loop cookbook_cycle_outside 0 [(100, WSTATUS.exited 0)] sched_c_running
      = ITER.continue
        (sched_c_running.after_reap 100 2 (WSTATUS.exited 0) (some 2)) := rfl
  have hc : (sched_c_running.after_reap 100 2 (WSTATUS.exited 0) (some 2)).completed_recipes
      = [some 2] := rfl
  simp only [collect, hr, hc, update_work_queue_on_outside_cycle]

/-! ## What the readiness propagation enqueues when the dependents form no cycle -/

theorem push_next_dependents_exact (st : STATES) :
    ∀ (links : List (Option Nat)) (stack : STACK), none ∉ links →
      ∃ extra, push_next_dependents st links stack = RES.ok (extra ++ stack) ∧
        (∀ x ∈ extra, some x ∈ links) ∧ extra.length ≤ links.length := by
  intro links
  induction links with
  | nil => intro stack _; exact ⟨[], rfl, by simp, by simp⟩
  | cons d rest ih =>
    intro stack hnone
    simp only [List.mem_cons, not_or] at hnone
    cases d with
    | none => exact absurd rfl hnone.1
    | some y =>
      by_cases hv : is_visited st y = true
      · obtain ⟨extra, h1, h2, h3⟩ := ih stack hnone.2
        refine ⟨extra, by simp [push_next_dependents, hv, h1],
          fun x hx => List.mem_cons_of_mem _ (h2 x hx), by simp only [List.length_cons]; omega⟩
      · have hv0 : is_visited st y = false := by simpa using hv
        obtain ⟨extra, h1, h2, h3⟩ := ih (push stack y) hnone.2
        refine ⟨extra ++ [y], ?_, ?_, ?_⟩
        · simp only [push_next_dependents, hv0]
          simpa [push] using h1
        · intro x hx
          rcases List.mem_append.1 hx with h | h
          · exact List.mem_cons_of_mem _ (h2 x h)
          · simp only [List.mem_singleton] at h
            subst h
            simp
        · simp only [List.length_append, List.length_cons, List.length_nil]; omega

theorem update_cost_append (cb : COOKBOOK) (st : STATES) (completed : List (Option Nat))
    (a b : STACK) :
    update_cost cb st completed (a ++ b)
      = update_cost cb st completed a + update_cost cb st completed b := by
  simp [update_cost, List.map_append, List.sum_append]

theorem update_cost_not_ready (cb : COOKBOOK) (st : STATES) (completed : List (Option Nat)) :
    ∀ extra : STACK, (∀ x ∈ extra, ready_now cb st completed x = false) →
      update_cost cb st completed extra = extra.length ∧
      extra.filter (ready_now cb st completed) = [] := by
  intro extra
  induction extra with
  | nil => intro _; exact ⟨rfl, rfl⟩
  | cons x rest ih =>
    intro h
    have hx := h x (by simp)
    obtain ⟨h1, h2⟩ := ih (fun y hy => h y (List.mem_cons_of_mem _ hy))
    constructor
    · simp only [update_cost, List.map_cons, List.sum_cons, hx, List.length_cons] at h1 ⊢
      simp only [Bool.false_eq_true, if_false]
      omega
    · simp [List.filter, hx, h2]

/-- The stack loop of `update_work_queue` on a stack whose entries that pass the two tests
are not completed: it returns and has appended exactly the entries that pass the tests, in
pop order; what it pushes meanwhile does not pass them. -/
theorem update_loop_exact (cb : COOKBOOK) (st : STATES) (completed : List (Option Nat))
    (hinv : ∀ x d, some d ∈ dependents cb x → some x ∈ deps cb d)
    (hnonull : ∀ a, none ∉ dependents cb a) :
    ∀ (fuel : Nat) (stack : STACK) (q : WORK_QUEUE) (l : List Nat), Represents q l →
      (∀ r ∈ stack, ready_now cb st completed r = true → some r ∉ completed) →
      update_cost cb st completed stack < fuel →
      ∃ q1, update_loop cb st completed fuel stack q = RES.ok q1 ∧
        Represents q1 (l ++ stack.filter (ready_now cb st completed)) := by
  intro fuel
  induction fuel with
  | zero => intro stack q l _ _ h; omega
  | succ n ih =>
    intro stack q l hq hstack hfuel
    cases stack with
    | nil => exact ⟨q, rfl, by simpa using hq⟩
    | cons r stack1 =>
      have hrest : ∀ x ∈ stack1, ready_now cb st completed x = true → some x ∉ completed :=
        fun x hx => hstack x (List.mem_cons_of_mem _ hx)
      have hcost : update_cost cb st completed (r :: stack1)
          = 1 + (if ready_now cb st completed r then (dependents cb r).length else 0)
            + update_cost cb st completed stack1 := by
        simp [update_cost]
      rw [hcost] at hfuel
      by_cases hready : ready_now cb st completed r = true
      · have hv : is_visited st r = false := by
          simp only [ready_now, Bool.and_eq_true, Bool.not_eq_true', Bool.not_eq_eq_eq_not,
            Bool.not_true] at hready
          exact hready.1
        have hcan : can_be_completed completed (deps cb r) = true := by
          simp only [ready_now, Bool.and_eq_true] at hready
          exact hready.2
        have hrn : some r ∉ completed := hstack r (by simp) hready
        obtain ⟨extra, hpush, hmem, hlen⟩ :=
          push_next_dependents_exact st (dependents cb r) stack1 (hnonull r)
        have hextra : ∀ x ∈ extra, ready_now cb st completed x = false := by
          intro x hx
          have hdep : some r ∈ deps cb x := hinv r x (hmem x hx)
          cases hc : can_be_completed completed (deps cb x) with
          | false => simp [ready_now, hc]
          | true =>
            exact absurd ((can_be_completed_iff completed (deps cb x)).1 hc _ hdep) hrn
        obtain ⟨hc1, hc2⟩ := update_cost_not_ready cb st completed extra hextra
        simp only [hready, if_true] at hfuel
        obtain ⟨q1, hloop, hrep⟩ := ih (extra ++ stack1) (enqueue q r) (l ++ [r])
          (represents_enqueue _ _ _ hq)
          (by
            intro x hx hxr
            rcases List.mem_append.1 hx with h | h
            · rw [hextra x h] at hxr
              exact absurd hxr (by simp)
            · exact hrest x h hxr)
          (by rw [update_cost_append, hc1]; omega)
        refine ⟨q1, ?_, ?_⟩
        · simp only [update_loop, pop, update_body, hv, hcan, hpush, if_true]
          simpa using hloop
        · rw [List.filter_append, hc2, List.nil_append] at hrep
          simpa [List.filter, hready] using hrep
      · have hnr : ready_now cb st completed r = false := by simpa using hready
        simp only [hnr, Bool.false_eq_true, if_false] at hfuel
        obtain ⟨q1, hloop, hrep⟩ := ih stack1 q l hq hrest (by omega)
        refine ⟨q1, ?_, by simpa [List.filter, hnr] using hrep⟩
        by_cases hv : is_visited st r = true
        · simp only [update_loop, pop, update_body, hv, if_true]
          exact hloop
        · have hv0 : is_visited st r = false := by simpa using hv
          have hcan : can_be_completed completed (deps cb r) = false := by
            simpa [ready_now, hv0] using hnr
          simp only [update_loop, pop, update_body, hv0, hcan]
          simpa using hloop

/-- The first loop of `update_work_queue` on a cookbook whose `depend_on_this` links form no
cycle: it returns, and what it has pushed are the links that are not completed and reach the
main recipe, once per link. -/
theorem push_dependents_exact (cb : COOKBOOK) (fuel : Nat) (completed : List (Option Nat))
    (main_recipe : Nat) (hacyclic : acyclic_dependents cb)
    (hfuel : cb.recipes.length + 1 ≤ fuel) :
    ∀ (links : List (Option Nat)) (stack : STACK),
      ∃ extra, push_dependents cb fuel completed main_recipe links stack
          = RES.ok (extra ++ stack) ∧
        (∀ x, x ∈ extra ↔ some x ∈ links ∧ some x ∉ completed ∧ reaches cb x main_recipe) ∧
        (links.Nodup → extra.Nodup) ∧
        (extra.map (fun x => 1 + (dependents cb x).length)).sum
          ≤ (links.map (fun d => match d with
              | some x => 1 + (dependents cb x).length
              | none => 0)).sum := by
  intro links
  induction links with
  | nil => intro stack; exact ⟨[], rfl, by simp, fun _ => List.nodup_nil, by simp⟩
  | cons d rest ih =>
    intro stack
    have skip : (∀ x, d = some x → some x ∉ completed → ¬ reaches cb x main_recipe) →
        push_dependents cb fuel completed main_recipe (d :: rest) stack
          = push_dependents cb fuel completed main_recipe rest stack →
        ∃ extra, push_dependents cb fuel completed main_recipe (d :: rest) stack
            = RES.ok (extra ++ stack) ∧
          (∀ x, x ∈ extra ↔
            some x ∈ d :: rest ∧ some x ∉ completed ∧ reaches cb x main_recipe) ∧
          ((d :: rest).Nodup → extra.Nodup) ∧
          (extra.map (fun x => 1 + (dependents cb x).length)).sum
            ≤ ((d :: rest).map (fun d => match d with
                | some x => 1 + (dependents cb x).length
                | none => 0)).sum := by
      intro hno heq
      obtain ⟨extra, h1, h2, h3, h4⟩ := ih stack
      refine ⟨extra, by rw [heq, h1], ?_, fun hnd => h3 (List.nodup_cons.1 hnd).2, ?_⟩
      · intro x
        rw [h2 x]
        constructor
        · rintro ⟨a, b, c⟩
          exact ⟨List.mem_cons_of_mem _ a, b, c⟩
        · rintro ⟨a, b, c⟩
          rcases List.mem_cons.1 a with e | a
          · exact absurd c (hno x e.symm b)
          · exact ⟨a, b, c⟩
      · simp only [List.map_cons, List.sum_cons]
        omega
    by_cases hc : is_in_completed_recipes d completed = true
    · apply skip
      · intro x hx hxn
        subst hx
        exact absurd ((is_in_completed_recipes_iff _ _).1 hc) hxn
      · simp [push_dependents, hc]
    · have hdn : d ∉ completed := fun hm => hc ((is_in_completed_recipes_iff d completed).2 hm)
      cases d with
      | none =>
        apply skip
        · intro x hx; cases hx
        · have hr : is_reaches_main cb main_recipe fuel none = RES.ok false := by
            cases fuel with
            | zero => omega
            | succ n => rfl
          simp [push_dependents, hc, hr]
      | some y =>
        obtain ⟨b, hb, hiff⟩ := is_reaches_main_terminates cb main_recipe hacyclic fuel y []
          List.nodup_nil (by simp) (by simp) (by simpa using hfuel)
        cases b with
        | false =>
          apply skip
          · intro x hx _ hreach
            simp only [Option.some.injEq] at hx
            subst hx
            exact absurd (hiff.2 hreach) (by simp)
          · simp [push_dependents, hc, hb]
        | true =>
          have hreach : reaches cb y main_recipe := hiff.1 rfl
          obtain ⟨extra, h1, h2, h3, h4⟩ := ih (push stack y)
          refine ⟨extra ++ [y], ?_, ?_, ?_, ?_⟩
          · simp only [push_dependents, hc, hb]
            simpa [push] using h1
          · intro x
            constructor
            · intro hx
              rcases List.mem_append.1 hx with hx | hx
              · obtain ⟨a, b, c⟩ := (h2 x).1 hx
                exact ⟨List.mem_cons_of_mem _ a, b, c⟩
              · have e : x = y := by simpa using hx
                subst e
                exact ⟨by simp, hdn, hreach⟩
            · rintro ⟨a, b, c⟩
              rcases List.mem_cons.1 a with e | a
              · simp only [Option.some.injEq] at e
                subst e
                exact List.mem_append_right _ (by simp)
              · exact List.mem_append_left _ ((h2 x).2 ⟨a, b, c⟩)
          · intro hnd
            obtain ⟨hy, hrest⟩ := List.nodup_cons.1 hnd
            rw [List.nodup_append]
            refine ⟨h3 hrest, List.nodup_singleton y, ?_⟩
            intro a ha hb2
            simp only [List.mem_singleton] at hb2
            subst hb2
            exact hy ((h2 a).1 ha).1
          · simp only [List.map_append, List.sum_append, List.map_cons, List.sum_cons,
              List.map_nil, List.sum_nil]
            omega

theorem update_cost_le (cb : COOKBOOK) (st : STATES) (completed : List (Option Nat)) :
    ∀ stack : STACK, update_cost cb st completed stack
      ≤ (stack.map (fun x => 1 + (dependents cb x).length)).sum := by
  intro stack
  induction stack with
  | nil => simp [update_cost]
  | cons r rest ih =>
    simp only [update_cost, List.map_cons, List.sum_cons] at ih ⊢
    split <;> omega

theorem ready_now_iff (cb : COOKBOOK) (st : STATES) (completed : List (Option Nat)) (r : Nat) :
    ready_now cb st completed r = true ↔
      st r = STATE.NULL ∧ ∀ x ∈ deps cb r, x ∈ completed := by
  simp [ready_now, is_visited, can_be_completed_iff]

/-- On a cookbook whose edges are consistent inverses, whose `depend_on_this` lists hold no
null entry and only recipes of the cookbook, and form no cycle, `update_work_queue` returns
(the fuel `update_fuel` is enough) when the last entry `c` of `completed_recipes` is not null
and its dependents are pairwise distinct: the queue is then what it was without `c`,
followed by the recipes appended, pairwise distinct, which are exactly the direct dependents
of `c` that are not completed, reach the main recipe, have a null state and have every
entry of their `this_depends_on` list completed. -/
theorem update_work_queue_exact (cb : COOKBOOK) (fuel : Nat) (st : STATES) (q : WORK_QUEUE)
    (l : List Nat) (completed : List (Option Nat)) (main_recipe c : Nat)
    (hcons : consistent_edges cb)
    (hrange : ∀ a b, some b ∈ dependents cb a → b < cb.recipes.length)
    (hnonull : ∀ a, none ∉ dependents cb a)
    (hacyclic : acyclic_dependents cb)
    (hnodup : (dependents cb c).Nodup)
    (hlast : completed.getLast? = some (some c))
    (hq : Represents q l) (hfuel : update_fuel cb c ≤ fuel) :
    ∃ q1 added, update_work_queue cb fuel st q completed main_recipe = RES.ok q1 ∧
      Represents q1 (l.erase c ++ added) ∧ added.Nodup ∧
      ∀ d, d ∈ added ↔
        (some d ∈ dependents cb c ∧ some d ∉ completed ∧ reaches cb d main_recipe ∧
          st d = STATE.NULL ∧ ∀ x ∈ deps cb d, x ∈ completed) := by
  have hinv : ∀ x d, some d ∈ dependents cb x → some x ∈ deps cb d := by
    intro x d h
    exact (hcons d (hrange x d h) x (lt_of_dependent_of cb x d h)).2 h
  unfold update_fuel at hfuel
  obtain ⟨extra, hpush, hmem, hnd, hsum⟩ := push_dependents_exact cb fuel completed main_recipe
    hacyclic (by omega) (dependents cb c) []
  rw [List.append_nil] at hpush
  have hcost := update_cost_le cb st completed extra
  obtain ⟨q1, hloop, hrep⟩ := update_loop_exact cb st completed hinv hnonull fuel extra
    (dequeue_recipe q c).2 (l.erase c) (represents_dequeue_recipe q l c hq).2
    (fun r hr _ => ((hmem r).1 hr).2.1) (by omega)
  refine ⟨q1, extra.filter (ready_now cb st completed), ?_, hrep,
    (hnd hnodup).filter _, ?_⟩
  · unfold update_work_queue
    rw [hlast]
    simp only [hpush]
    exact hloop
  · intro d
    rw [List.mem_filter, hmem d, ready_now_iff]
    constructor
    · rintro ⟨⟨a, b, c⟩, e, f⟩
      exact ⟨a, b, c, e, f⟩
    · rintro ⟨a, b, c, e, f⟩
      exact ⟨⟨a, b, c⟩, e, f⟩

theorem dependents_no_null_two_branches : ∀ a, none ∉ dependents cookbook_two_branches a := by
  intro a
  by_cases ha : a < 5
  · have hall : ∀ a, a < 5 → none ∉ dependents cookbook_two_branches a := by decide
    exact hall a ha
  · rw [dependents_eq_nil_of_ge cookbook_two_branches a (by simp [cookbook_two_branches]; omega)]
    simp

/-- The characterisation at work in the cookbook with two branches: after the leaf B the
call appends Y, the only dependent of B. -/
theorem update_work_queue_exact_two_branches :
    (∃ q1 added,
      update_work_queue cookbook_two_branches 10 all_null init_work_queue [some 4] 0
        = RES.ok q1 ∧
      Represents q1 (([] : List Nat).erase 4 ++ added) ∧ added.Nodup ∧
      ∀ d, d ∈ added ↔
        (some d ∈ dependents cookbook_two_branches 4 ∧ some d ∉ [some 4] ∧
          reaches cookbook_two_branches d 0 ∧ all_null d = STATE.NULL ∧
          ∀ x ∈ deps cookbook_two_branches d, x ∈ [some 4])) ∧
    RES.map queue_contents
      (update_work_queue cookbook_two_branches 10 all_null init_work_queue [some 4] 0)
      = RES.ok [2] :=
  ⟨update_work_queue_exact cookbook_two_branches 10 all_null init_work_queue [] [some 4] 0 4
    (by decide) dependents_in_range_two_branches dependents_no_null_two_branches
    acyclic_dependents_two_branches (by decide) rfl represents_init (by decide),
   by decide⟩

/-! ## Readiness propagation after the target -/

end Cook
